import Mathlib

/-!
# Lemke-Howson solver: embedding of the C sources

The C program works on `double`.  The values are rationals (`ℚ`).  The first
embedding of `algorithm.c` computes with them exactly: it serves the
statements on labels, lists, control flow and single cell updates.  Where a
statement depends on how the program rounds, the code is embedded in double
arithmetic: `fl` rounds a rational to the nearest double, `positivize_bimatrix`
rounds as the C function does, and the definitions with the suffix `_fl` are
the code of `algorithm.c` with every arithmetic result rounded.  `int` values
are `ℤ` (labels, step counts are far from overflow), loop bounds and array
indices are `ℕ`.

* `bimatrix.c`  : `create_systems`, `get_pivot_gen`, `get_tableau`, `get_column`,
  `positivize_bimatrix`
* `lemkehowson.c`: `single_lemke_exec`
* `algorithm.c` : `lemke_howson_gen` (split into the ratio test, the row
  update, the elimination loop, the pivot loop and the equilibrium builder),
  `all_lemke_gen`
* `equilibria.c`: `add_strategy`, `lex_comp`, `is_artificial`,
  `search_add_equilibrium`

Arrays are lists.  A read outside a list gives `0` and a write outside a list
is dropped; both are undefined behaviour in C and never happen on a tableau
pair of the right shape (`Shape`).  The `for(;;)` loop of `lemke_howson_gen`
and the recursion of `all_lemke_gen` take a fuel argument; running out of fuel
is reported as `Fault.fuel`.
-/

namespace LemkeHowson

/-! ## Data model -/

/-- The tolerance `#define eps 1e-20` of bimatrix.h. -/
def eps : ℚ := 1 / 10 ^ 20

/-- One row of a tableau (`double*`): cell 0 is the label, cell 1 the value,
cells 2.. the coefficients. -/
abbrev Row := List ℚ

/-- One tableau (`double**`). -/
abbrev Tableau := List Row

/-- The tableau pair (`double*** tableaus`): `tableaus[0]` and `tableaus[1]`. -/
structure Tableaus where
  t0 : Tableau
  t1 : Tableau
deriving DecidableEq, Repr

/-- The bimatrix (`double** bimatrix`): rows `0..dim1-1` are the payoffs of the
first player, rows `dim1..2*dim1-1` those of the second. -/
abbrev Bimatrix := List (List ℚ)

/-- An equilibrium (`equilibrium*`): the linked list of (label, prob) items;
the null pointer is the empty list. -/
abbrev Equilibrium := List (ℤ × ℚ)

/-- A list of equilibria (`eqlist*`). -/
abbrev Eqlist := List Equilibrium

/-- What stops a run without a result: the failed `assert(updated != 0)`,
undefined behaviour of the C program (an index `-1` into `tableaus`, a
negative column), or the fuel of the model running out. -/
inductive Fault where
  | assertion
  | undefined
  | fuel
deriving DecidableEq, Repr

deriving instance DecidableEq for Except

/-- Read `t[i][j]`. -/
def cell (t : Tableau) (i j : ℕ) : ℚ := (t.getD i []).getD j 0

/-- Write `t[i][j] = v`. -/
def setCell (t : Tableau) (i j : ℕ) (v : ℚ) : Tableau :=
  t.set i ((t.getD i []).set j v)

/-- Read `bimatrix[i][j]`. -/
def entry (bimatrix : Bimatrix) (i j : ℕ) : ℚ := (bimatrix.getD i []).getD j 0

/-- The C cast `(int) x` of a double: truncation towards zero. -/
def toInt (q : ℚ) : ℤ := Int.tdiv q.num (q.den : ℤ)

/-! ## bimatrix.c -/

/-- `get_tableau`: the tableau that contains the given strategy. -/
def get_tableau (dim1 _dim2 : ℕ) (strategy : ℤ) : ℤ :=
  if strategy > dim1 ∨ (strategy < 0 ∧ strategy ≥ -(dim1 : ℤ)) then 0
  else if strategy < -(dim1 : ℤ) ∨ (strategy > 0 ∧ strategy ≤ dim1) then 1
  else -1

/-- `get_column`: the column that corresponds to the given strategy. -/
def get_column (dim1 dim2 : ℕ) (strategy : ℤ) : ℤ :=
  if strategy > 0 ∧ strategy ≤ dim1 then 1 + dim2 + strategy
  else if strategy > 0 ∧ strategy > dim1 then 1 + dim1 + strategy - dim1
  else if strategy < 0 ∧ strategy ≥ -(dim1 : ℤ) then 1 - strategy
  else 1 - strategy - dim1

/-- `get_pivot_gen`: `-strategy` when `strategy` is in base, else `strategy`. -/
def get_pivot_gen (T : Tableaus) (dim1 dim2 : ℕ) (strategy : ℤ) : ℤ :=
  if (List.range dim1).any (fun i => decide (cell T.t0 i 0 = (strategy : ℚ))) then -strategy
  else if (List.range dim2).any (fun i => decide (cell T.t1 i 0 = (strategy : ℚ))) then -strategy
  else strategy

/-- Row `i` of the first tableau built by `create_systems`: `calloc` zeroes,
then label `-i-1`, value `1` and `-bimatrix[i][j-2-dim1]` for `j ≥ 2+dim1`. -/
def create_row0 (bimatrix : Bimatrix) (dim1 dim2 i : ℕ) : Row :=
  (List.range (2 + dim1 + dim2)).map (fun j =>
    if j = 0 then -(i : ℚ) - 1
    else if j = 1 then 1
    else if 2 + dim1 ≤ j then -(entry bimatrix i (j - 2 - dim1))
    else 0)

/-- Row `i` of the second tableau built by `create_systems`: label
`-i-dim1-1`, value `1` and `-bimatrix[dim1+(j-2-dim2)][i]` for `j ≥ 2+dim2`. -/
def create_row1 (bimatrix : Bimatrix) (dim1 dim2 i : ℕ) : Row :=
  (List.range (2 + dim1 + dim2)).map (fun j =>
    if j = 0 then -(i : ℚ) - dim1 - 1
    else if j = 1 then 1
    else if 2 + dim2 ≤ j then -(entry bimatrix (dim1 + (j - 2 - dim2)) i)
    else 0)

/-- `create_systems`: the two tableaus of the artificial equilibrium. -/
def create_systems (bimatrix : Bimatrix) (dim1 dim2 : ℕ) : Tableaus :=
  { t0 := (List.range dim1).map (create_row0 bimatrix dim1 dim2)
    t1 := (List.range dim2).map (create_row1 bimatrix dim1 dim2) }

/-! ## equilibria.c -/

/-- The `for( i = old; ; i = i->next)` loop of `add_strategy`; the argument is
the list that starts at node `i`. -/
def add_strategy_loop (label : ℤ) (prob : ℚ) : Equilibrium → Equilibrium
  | [] => [(label, prob)]
  | [i] => [i, (label, prob)]
  | i :: nxt :: rest =>
    if nxt.1 > label then i :: (label, prob) :: nxt :: rest
    else i :: add_strategy_loop label prob (nxt :: rest)

/-- `add_strategy`: adds a strategy with its probability to the equilibrium. -/
def add_strategy (old : Equilibrium) (label : ℤ) (prob : ℚ) : Equilibrium :=
  match old with
  | [] => [(label, prob)]
  | h :: _ => if h.1 > label then (label, prob) :: old else add_strategy_loop label prob old

/-- `lex_comp`: lexicographical comparison of two equilibria. -/
def lex_comp : Equilibrium → Equilibrium → ℤ
  | [], [] => 0
  | _ :: _, [] => 1
  | [], _ :: _ => -1
  | x :: xs, y :: ys =>
    if x.1 < y.1 then -1
    else if x.1 > y.1 then 1
    else lex_comp xs ys

/-- `is_artificial`: the null pointer test. -/
def is_artificial (x : Equilibrium) : Bool := x.isEmpty

/-- The `for( i = list; ; i = i->next)` loop of `search_add_equilibrium`; the
argument is the list that starts at node `i`.  Returns the list from `i` on
and `found`. -/
def search_add_loop (eq : Equilibrium) : Eqlist → Eqlist × Bool
  | [] => ([eq], false)
  | [i] => ([i, eq], false)
  | i :: nxt :: rest =>
    if lex_comp nxt eq = 0 then (i :: nxt :: rest, true)
    else if lex_comp nxt eq > 0 then (i :: eq :: nxt :: rest, false)
    else ((i :: (search_add_loop eq (nxt :: rest)).1), (search_add_loop eq (nxt :: rest)).2)

/-- `search_add_equilibrium`: the returned list and the value left in `*found`. -/
def search_add_equilibrium (list : Eqlist) (eq : Equilibrium) : Eqlist × Bool :=
  match list with
  | [] => ([eq], false)
  | h :: _ =>
    if lex_comp h eq > 0 then (eq :: list, false)
    else if lex_comp h eq = 0 then (list, true)
    else search_add_loop eq list

/-! ## algorithm.c: one pivot step -/

/-- The variables `min`, `updated`, `index` of the minimum ratio test. -/
structure Scan where
  min : ℚ
  updated : Bool
  index : ℕ
deriving DecidableEq, Repr

/-- One iteration of the minimum ratio loop (lines 61-76) at row `i`. -/
def ratio_body (t : Tableau) (column : ℕ) (s : Scan) (i : ℕ) : Scan :=
  if cell t i column > -eps then s
  else
    if !s.updated || decide (-(cell t i 1) / cell t i column < s.min - eps) then
      { min := -(cell t i 1) / cell t i column, updated := true, index := i }
    else s

/-- The minimum ratio test: `min = 0.0; updated = 0;` then the loop over the
rows `0..nlines-1`. -/
def ratio_test (t : Tableau) (nlines column : ℕ) : Scan :=
  (List.range nlines).foldl (ratio_body t column) { min := 0, updated := false, index := 0 }

/-- Lines 106-116: the update of the row chosen by the minimum ratio test. -/
def pivot_row (dim1 dim2 : ℕ) (t : Tableau) (index column : ℕ) (pivot newpivot : ℤ) : Tableau :=
  let ta := setCell t index (get_column dim1 dim2 newpivot).toNat (-1)
  let tb := setCell ta index 0 (pivot : ℚ)
  let coeff := -(cell tb index column)
  let tc := (List.range' 1 (dim1 + dim2 + 1)).foldl
    (fun u i => setCell u index i (cell u index i / coeff)) tb
  setCell tc index column 0

/-- Lines 128-132: the update of row `i` from the pivoted row `index`. -/
def eliminate_row (dim1 dim2 : ℕ) (index column : ℕ) (t : Tableau) (i : ℕ) : Tableau :=
  if cell t i column < -eps ∨ cell t i column > eps then
    setCell ((List.range' 1 (dim1 + dim2 + 1)).foldl
      (fun u j => setCell u i j (cell u i j + cell u i column * cell u index j)) t) i column 0
  else t

/-- Lines 124-136: the loop over all rows of the active tableau. -/
def eliminate (dim1 dim2 : ℕ) (t : Tableau) (nlines index column : ℕ) : Tableau :=
  (List.range nlines).foldl (eliminate_row dim1 dim2 index column) t

/-- The tableau `tableaus[ntab]`. -/
def getTab (T : Tableaus) (ntab : ℤ) : Tableau := if ntab = 0 then T.t0 else T.t1

/-- The tableau pair with `tableaus[ntab]` replaced. -/
def putTab (T : Tableaus) (ntab : ℤ) (t : Tableau) : Tableaus :=
  if ntab = 0 then { T with t0 := t } else { T with t1 := t }

/-- The body of the `for(;;)` loop, lines 44-136, with `pivot` entering the
basis: the new tableau pair and `newpivot`, the label that left the basis. -/
def pivot_step (dim1 dim2 : ℕ) (T : Tableaus) (pivot : ℤ) : Except Fault (Tableaus × ℤ) :=
  let ntab := get_tableau dim1 dim2 pivot
  if ntab = -1 then .error .undefined
  else
    let nlines := if ntab = 0 then dim1 else dim2
    let column := (get_column dim1 dim2 pivot).toNat
    let t := getTab T ntab
    let s := ratio_test t nlines column
    if !s.updated then .error .assertion
    else
      let newpivot := toInt (cell t s.index 0)
      if get_column dim1 dim2 newpivot < 0 then .error .undefined
      else
        let tr := pivot_row dim1 dim2 t s.index column pivot newpivot
        .ok (putTab T ntab (eliminate dim1 dim2 tr nlines s.index column), newpivot)

/-! ## algorithm.c: the run and the equilibrium -/

/-- The `for(;;)` loop of `lemke_howson_gen`, lines 32-153: the final tableau
pair and `*steps`. -/
def lh_loop (dim1 dim2 : ℕ) (startpivot : ℤ) :
    ℕ → Tableaus → ℤ → ℤ → Except Fault (Tableaus × ℤ)
  | 0, _, _, _ => .error .fuel
  | fuel + 1, T, pivot, steps =>
    match pivot_step dim1 dim2 T pivot with
    | .error e => .error e
    | .ok (T', newpivot) =>
      if newpivot = startpivot ∨ newpivot = -startpivot then .ok (T', steps + 1)
      else lh_loop dim1 dim2 startpivot fuel T' (-newpivot) (steps + 1)

/-- Lines 167-172 in exact arithmetic: the sum of the values of the rows with a
positive label (`total_fl` is the sum as the doubles give it). -/
def total (t : Tableau) (nlines : ℕ) : ℚ :=
  (List.range nlines).foldl (fun acc i => if cell t i 0 > 0 then acc + cell t i 1 else acc) 0

/-- Lines 177-186 in exact arithmetic: the rows with a positive label are added
to the equilibrium with their normalised value (`add_rows_fl` has the
quotients as the doubles give them). -/
def add_rows (t : Tableau) (nlines : ℕ) (tot : ℚ) (eq : Equilibrium) : Equilibrium :=
  (List.range nlines).foldl
    (fun e i => if cell t i 0 > 0 then add_strategy e (toInt (cell t i 0)) (cell t i 1 / tot) else e)
    eq

/-- Lines 161-188 in exact arithmetic: the equilibrium built from the tableau
pair.  Its labels and the order of its pairs are those of the program; its
probabilities are exact quotients, those of the program are the rounded ones
of `build_equilibrium_fl`. -/
def build_equilibrium (dim1 dim2 : ℕ) (T : Tableaus) : Equilibrium :=
  add_rows T.t1 dim2 (total T.t1 dim2) (add_rows T.t0 dim1 (total T.t0 dim1) [])

/-- The result of `lemke_howson_gen`: the returned equilibrium, the tableau pair
it leaves behind and `*steps`. -/
structure LHResult where
  eq : Equilibrium
  tableaus : Tableaus
  steps : ℤ
deriving DecidableEq, Repr

/-- `lemke_howson_gen`. -/
def lemke_howson_gen (fuel : ℕ) (T : Tableaus) (dim1 dim2 : ℕ) (startpivot : ℤ) :
    Except Fault LHResult :=
  match lh_loop dim1 dim2 startpivot fuel T (get_pivot_gen T dim1 dim2 startpivot) 0 with
  | .error e => .error e
  | .ok (T', steps) => .ok { eq := build_equilibrium dim1 dim2 T', tableaus := T', steps := steps }

/-- One iteration of the `for(pivot = 1; pivot <= dim1+dim2; pivot++)` loop of
`all_lemke_gen` (lines 209-246) on the tableau pair and list in `st`;
`recurse` is the recursive call of line 223. -/
def all_lemke_body (lhfuel dim1 dim2 : ℕ) (taboo : ℤ)
    (recurse : Tableaus → ℤ → Eqlist → Except Fault (Tableaus × Eqlist))
    (st : Tableaus × Eqlist) (pivot : ℤ) : Except Fault (Tableaus × Eqlist) :=
  if pivot ≠ taboo then
    match lemke_howson_gen lhfuel st.1 dim1 dim2 pivot with
    | .error e => .error e
    | .ok r =>
      match (if !is_artificial r.eq then
              (if !(search_add_equilibrium st.2 r.eq).2 then
                recurse r.tableaus pivot (search_add_equilibrium st.2 r.eq).1
              else .ok (r.tableaus, (search_add_equilibrium st.2 r.eq).1))
            else .ok (r.tableaus, st.2)) with
      | .error e => .error e
      | .ok (T₂, lista₂) =>
        match lemke_howson_gen lhfuel T₂ dim1 dim2 pivot with
        | .error e => .error e
        | .ok r₂ => .ok (r₂.tableaus, lista₂)
  else .ok st

/-- `all_lemke_gen`: the tableau pair it leaves behind and the returned list.
`depth` bounds the recursion, `lhfuel` each run of `lemke_howson_gen`. -/
def all_lemke_gen (lhfuel dim1 dim2 : ℕ) :
    ℕ → Tableaus → ℤ → Eqlist → Except Fault (Tableaus × Eqlist)
  | 0, _, _, _ => .error .fuel
  | depth + 1, T, taboo, lista =>
    ((List.range (dim1 + dim2)).map (fun k : ℕ => (k : ℤ) + 1)).foldlM
      (all_lemke_body lhfuel dim1 dim2 taboo (all_lemke_gen lhfuel dim1 dim2 depth)) (T, lista)

/-! ## Auxiliary definitions for the statements and proofs -/

/-- The label sequence (the support) of an equilibrium. -/
def labels (e : Equilibrium) : List ℤ := e.map Prod.fst

/-- A list of equilibria is strictly ascending under `lex_comp`: each element
compares below its successor. -/
def Ascending (l : Eqlist) : Prop := l.Chain' (fun a b => lex_comp a b < 0)

/-- The sorted insertion that `search_add_equilibrium` performs, as a plain
recursion over the list (auxiliary; `search_add_eq_store_insert` shows that
the C function computes it). -/
def store_insert (eq : Equilibrium) : Eqlist → Eqlist × Bool
  | [] => ([eq], false)
  | h :: rest =>
    if lex_comp h eq > 0 then (eq :: h :: rest, false)
    else if lex_comp h eq = 0 then (h :: rest, true)
    else (h :: (store_insert eq rest).1, (store_insert eq rest).2)

/-- The invariant of the list of `all_lemke_gen`: strictly ascending and free
of the artificial equilibrium. -/
def GoodList (l : Eqlist) : Prop := Ascending l ∧ ∀ e ∈ l, e ≠ []

/-- A tableau has `n` rows of `m` cells. -/
def Rect (t : Tableau) (n m : ℕ) : Prop :=
  t.length = n ∧ ∀ i < n, (t.getD i []).length = m

/-- The tableau pair has the shape that `create_systems` allocates. -/
def Shape (dim1 dim2 : ℕ) (T : Tableaus) : Prop :=
  Rect T.t0 dim1 (dim1 + dim2 + 2) ∧ Rect T.t1 dim2 (dim1 + dim2 + 2)

/-- The update `t'` of `t` keeps the shape and every label cell. -/
def Keeps (t t' : Tableau) : Prop :=
  t'.length = t.length ∧ (∀ i, (t'.getD i []).length = (t.getD i []).length) ∧
    ∀ i, cell t' i 0 = cell t i 0

/-- The labels in the rows `0..nlines-1` of a tableau. -/
def row_labels (t : Tableau) (nlines : ℕ) : List ℚ := (List.range nlines).map (fun i => cell t i 0)

/-- The labels in basis: the label cells of the first tableau, then those of
the second. -/
def basis (dim1 dim2 : ℕ) (T : Tableaus) : List ℚ := row_labels T.t0 dim1 ++ row_labels T.t1 dim2

/-- Label `l` is basic: the label cell of some row holds it. -/
def Basic (dim1 dim2 : ℕ) (T : Tableaus) (l : ℤ) : Prop := (l : ℚ) ∈ basis dim1 dim2 T

instance (dim1 dim2 : ℕ) (T : Tableaus) (l : ℤ) : Decidable (Basic dim1 dim2 T l) :=
  inferInstanceAs (Decidable ((l : ℚ) ∈ basis dim1 dim2 T))

/-- For every `l` in `1..dim1+dim2` exactly one of `l` and `-l` is basic. -/
def Complementary (dim1 dim2 : ℕ) (T : Tableaus) : Prop :=
  ∀ l : ℤ, 1 ≤ l → l ≤ (dim1 : ℤ) + dim2 →
    Xor' (Basic dim1 dim2 T l) (Basic dim1 dim2 T (-l))

/-- The basis between two pivot steps of a run from `s`, with `p` the label
that enters next: `s` and `-s` are both basic, neither `p` nor `-p` is, and
for every other `l` in `1..dim1+dim2` exactly one of `l` and `-l` is basic. -/
def AlmostComplementary (dim1 dim2 : ℕ) (T : Tableaus) (s p : ℤ) : Prop :=
  Basic dim1 dim2 T s ∧ Basic dim1 dim2 T (-s) ∧
  ¬ Basic dim1 dim2 T p ∧ ¬ Basic dim1 dim2 T (-p) ∧
  ∀ l : ℤ, 1 ≤ l → l ≤ (dim1 : ℤ) + dim2 → l ≠ s → l ≠ p → l ≠ -p →
    Xor' (Basic dim1 dim2 T l) (Basic dim1 dim2 T (-l))

/-- The label cells hold pairwise distinct integer labels of absolute value in
`1..dim1+dim2`, and the tableau pair has the allocated shape. -/
def LabelsOK (dim1 dim2 : ℕ) (T : Tableaus) : Prop :=
  Shape dim1 dim2 T ∧
  ∃ bz : List ℤ, basis dim1 dim2 T = List.map (fun z : ℤ => (z : ℚ)) bz ∧ bz.Nodup ∧
    ∀ z ∈ bz, z ≠ 0 ∧ -((dim1 : ℤ) + dim2) ≤ z ∧ z ≤ (dim1 : ℤ) + dim2

/-- The tableau pair and the entering label at the head of the `for(;;)` loop
of `lemke_howson_gen` after `k` pivot steps; `none` when the loop has ended or
stopped before. -/
def lh_config (dim1 dim2 : ℕ) (startpivot : ℤ) : ℕ → Tableaus → ℤ → Option (Tableaus × ℤ)
  | 0, T, pivot => some (T, pivot)
  | k + 1, T, pivot =>
    match pivot_step dim1 dim2 T pivot with
    | .error _ => none
    | .ok (T', newpivot) =>
      if newpivot = startpivot ∨ newpivot = -startpivot then none
      else lh_config dim1 dim2 startpivot k T' (-newpivot)

/-- The invariant at the head of the loop of a run from `s`, with `p` entering:
either the basis is complementary and `p` is the non-basic one of `s`, `-s`
(before the first step), or the basis is almost complementary. -/
def RunInv (dim1 dim2 : ℕ) (s : ℤ) (T : Tableaus) (p : ℤ) : Prop :=
  LabelsOK dim1 dim2 T ∧ (p ≠ 0 ∧ -((dim1 : ℤ) + dim2) ≤ p ∧ p ≤ (dim1 : ℤ) + dim2) ∧
  ((Complementary dim1 dim2 T ∧ (p = s ∨ p = -s) ∧ ¬ Basic dim1 dim2 T p) ∨
    AlmostComplementary dim1 dim2 T s p)

/-- The probability that an equilibrium gives to label `l` (0 for an absent
label). -/
def prob (e : Equilibrium) (l : ℤ) : ℚ :=
  ((e.filter (fun p => decide (p.1 = l))).map Prod.snd).sum

/-- The sum `Σ_{k < n} f k`. -/
def sumTo (n : ℕ) (f : ℕ → ℚ) : ℚ := ((List.range n).map f).sum

/-- The strategy `x` of the first player: the probabilities of labels `1..dim1`. -/
def strategy_x (e : Equilibrium) (i : ℕ) : ℚ := prob e ((i : ℤ) + 1)

/-- The strategy `y` of the second player: the probabilities of labels
`dim1+1..dim1+dim2`. -/
def strategy_y (dim1 : ℕ) (e : Equilibrium) (j : ℕ) : ℚ := prob e ((dim1 : ℤ) + j + 1)

/-- `(A y)_i`, the payoff of row `i` against `y`. -/
def row_payoff (bimatrix : Bimatrix) (dim1 dim2 : ℕ) (e : Equilibrium) (i : ℕ) : ℚ :=
  sumTo dim2 (fun j => entry bimatrix i j * strategy_y dim1 e j)

/-- `(x^T B)_j`, the payoff of column `j` against `x`. -/
def col_payoff (bimatrix : Bimatrix) (dim1 : ℕ) (e : Equilibrium) (j : ℕ) : ℚ :=
  sumTo dim1 (fun i => strategy_x e i * entry bimatrix (dim1 + i) j)

/-- The label/probability list `e` is a Nash equilibrium of the game: the
probabilities are non-negative, `x` and `y` sum to 1, no row beats `x^T A y`
and no column beats `x^T B y`. -/
def IsNash (bimatrix : Bimatrix) (dim1 dim2 : ℕ) (e : Equilibrium) : Prop :=
  (∀ p ∈ e, 0 ≤ p.2) ∧
  sumTo dim1 (strategy_x e) = 1 ∧ sumTo dim2 (strategy_y dim1 e) = 1 ∧
  (∀ i < dim1, row_payoff bimatrix dim1 dim2 e i
    ≤ sumTo dim1 (fun k => strategy_x e k * row_payoff bimatrix dim1 dim2 e k)) ∧
  (∀ j < dim2, col_payoff bimatrix dim1 e j
    ≤ sumTo dim2 (fun k => col_payoff bimatrix dim1 e k * strategy_y dim1 e k))

instance (bimatrix : Bimatrix) (dim1 dim2 : ℕ) (e : Equilibrium) :
    Decidable (IsNash bimatrix dim1 dim2 e) := by
  unfold IsNash
  infer_instance

/-- The 1x1 game of scenario 1: A = [[1]], B = [[1]]. -/
def game_one : Bimatrix := [[1], [1]]

/-- A 1x2 game with large payoffs: A = [[1, 1]], B = [[5e20, 1e21]]. -/
def game_large : Bimatrix := [[1, 1], [5 * 10 ^ 20, 10 ^ 21]]

/-- A 2x2 game with large payoffs: A = [[1, 1], [2, 1]],
B = [[1e21, 5e20], [4, 1]]. -/
def game_abort : Bimatrix := [[1, 1], [2, 1], [10 ^ 21, 5 * 10 ^ 20], [4, 1]]

/-- A degenerate 2x3 game: A = [[2, 1, 1], [1, 2, 1]], B = [[2, 1, 3], [1, 1, 1]]. -/
def game_degenerate : Bimatrix := [[2, 1, 1], [1, 2, 1], [2, 1, 3], [1, 1, 1]]

/-- A 2x2 game with three equilibria: A = [[2, 1], [1, 2]], B = [[2, 1], [1, 2]]. -/
def game_coord : Bimatrix := [[2, 1], [1, 2], [2, 1], [1, 2]]

/-- Two consecutive runs of `lemke_howson_gen` from the same start label, the
second on the tableau pair that the first leaves behind (as in lines 211 and
244 of `all_lemke_gen`): the tableau pair after the second run. -/
def lh_twice (fuel : ℕ) (T : Tableaus) (dim1 dim2 : ℕ) (s : ℤ) : Except Fault Tableaus :=
  match lemke_howson_gen fuel T dim1 dim2 s with
  | .error e => .error e
  | .ok r =>
    match lemke_howson_gen fuel r.tableaus dim1 dim2 s with
    | .error e => .error e
    | .ok r₂ => .ok r₂.tableaus

/-- A sorted store of two equilibria. -/
def store_two : Eqlist := [[(1, 1 / 2), (3, 1 / 2)], [(2, 1), (3, 1)]]

/-- The update `t'` of `t` keeps the number of rows and the length of every row. -/
def SameDims (t t' : Tableau) : Prop :=
  t'.length = t.length ∧ ∀ i, (t'.getD i []).length = (t.getD i []).length

/-- The tableau `tableaus[ntab]` in which `pivot` enters (line 44). -/
def active (dim1 dim2 : ℕ) (T : Tableaus) (pivot : ℤ) : Tableau :=
  getTab T (get_tableau dim1 dim2 pivot)

/-- The number `nlines` of rows of the tableau in which `pivot` enters (line 47). -/
def active_rows (dim1 dim2 : ℕ) (pivot : ℤ) : ℕ :=
  if get_tableau dim1 dim2 pivot = 0 then dim1 else dim2

/-- The column `column` of the entering label (line 50), as an index. -/
def entering_column (dim1 dim2 : ℕ) (pivot : ℤ) : ℕ := (get_column dim1 dim2 pivot).toNat

/-- The outcome of the minimum ratio test of the pivot step in which `pivot`
enters. -/
def step_scan (dim1 dim2 : ℕ) (T : Tableaus) (pivot : ℤ) : Scan :=
  ratio_test (active dim1 dim2 T pivot) (active_rows dim1 dim2 pivot)
    (entering_column dim1 dim2 pivot)

/-- The ratio `-t[i][1] / t[i][column]` of row `i` (line 66). -/
def ratio_of (t : Tableau) (column i : ℕ) : ℚ := -(cell t i 1) / cell t i column

/-- Row `i` passes the test of line 63: its coefficient in the entering column
is not above `-eps`. -/
def Eligible (t : Tableau) (column i : ℕ) : Prop := ¬ cell t i column > -eps

/-- A 1x1 game whose second payoff equals `eps`: A = [[1]], B = [[1e-20]]. -/
def game_boundary : Bimatrix := [[1], [1 / 10 ^ 20]]

/-- Cell `j` of the chosen row `r` after the row update of lines 106-116 with
entering column `c`, entering label `pivot` and leaving label `newpivot`. -/
def pivoted_cell (dim1 dim2 : ℕ) (t : Tableau) (r c : ℕ) (pivot newpivot : ℤ) (j : ℕ) : ℚ :=
  if j = c then 0
  else if j = 0 then (pivot : ℚ)
  else if j < dim1 + dim2 + 2 then
    (if j = (get_column dim1 dim2 newpivot).toNat then -1 else cell t r j)
      / -(if c = (get_column dim1 dim2 newpivot).toNat then -1 else cell t r c)
  else cell t r j

/-- The integer nearest to `n / d`, the even one of two at the same distance. -/
def round_half_even (n d : ℕ) : ℕ :=
  if 2 * (n % d) < d then n / d
  else if d < 2 * (n % d) then n / d + 1
  else if (n / d) % 2 = 0 then n / d else n / d + 1

/-- The loop of `bit_log2`. -/
def log2_loop : ℕ → ℕ → ℕ
  | 0, _ => 0
  | fuel + 1, n => if n < 2 then 0 else log2_loop fuel (n / 2) + 1

/-- The position of the highest set bit of `n`: the floor of its binary
logarithm (0 for `n = 0`). -/
def bit_log2 (n : ℕ) : ℕ := log2_loop n n

/-- The floor of the binary logarithm of `n / d`, for positive `n` and `d`. -/
def floor_log2 (n d : ℕ) : ℤ :=
  if d * 2 ^ (bit_log2 n - bit_log2 d) ≤ n * 2 ^ (bit_log2 d - bit_log2 n) then
    (bit_log2 n : ℤ) - bit_log2 d
  else (bit_log2 n : ℤ) - bit_log2 d - 1

/-- The exponent of the spacing of the doubles around `n / d`: 52 below the
exponent of `n / d`, and -1074 in the subnormal range. -/
def quantum_exp (n d : ℕ) : ℤ := max (floor_log2 n d - 52) (-1074)

/-- The double nearest to `n / d`, for positive `n` and `d`. -/
def fl_pos (n d : ℕ) : ℚ :=
  if 0 ≤ quantum_exp n d then
    (round_half_even n (d * 2 ^ (quantum_exp n d).toNat) : ℚ) * 2 ^ (quantum_exp n d).toNat
  else
    (round_half_even (n * 2 ^ (-(quantum_exp n d)).toNat) d : ℚ) / 2 ^ (-(quantum_exp n d)).toNat

/-- The double nearest to `x`: the value that a C expression of type `double`
with the exact result `x` has. -/
def fl (x : ℚ) : ℚ :=
  if x = 0 then 0
  else if 0 < x then fl_pos x.num.toNat x.den
  else -(fl_pos (-x).num.toNat x.den)

/-- The macro `eps` (bimatrix.h) as the compiler reads it: the double nearest
to 1e-20. -/
def eps_fl : ℚ := fl eps

/-! ## bimatrix.c: the rectification; lemkehowson.c: the single run -/

/-- `positivize_bimatrix` (bimatrix.c), in double arithmetic: line 143 computes
`minimo - 1.0`, rounds it, subtracts it from the entry and rounds again, for
every entry of the `2*dim1` rows of `dim2` entries. -/
def positivize_bimatrix (bimatrix : Bimatrix) (dim1 dim2 : ℕ) (minimo : ℚ) : Bimatrix :=
  (List.range (2 * dim1)).foldl
    (fun b i => (List.range dim2).foldl
      (fun b' j => setCell b' i j (fl (cell b' i j - fl (minimo - 1)))) b)
    bimatrix

/-- How `single_lemke_exec` ends: with `exit(1)` after the message about the
starting pivot, or with the outcome of the run. -/
inductive Exec where
  | rejected
  | ran (outcome : Except Fault LHResult)
deriving DecidableEq

/-- `single_lemke_exec` (lemkehowson.c), without its output: the check of the
starting pivot, then `positivize_bimatrix`, `create_systems` and
`lemke_howson_gen`. -/
def single_lemke_exec (fuel : ℕ) (bimatrix : Bimatrix) (dim1 dim2 : ℕ) (pivot : ℤ) (min : ℚ) :
    Exec :=
  if pivot ≤ 0 ∨ pivot > (dim1 : ℤ) + dim2 then .rejected
  else .ran (lemke_howson_gen fuel
    (create_systems (positivize_bimatrix bimatrix dim1 dim2 min) dim1 dim2) dim1 dim2 pivot)

/-! ## Auxiliary definitions, continued -/

/-- The two tableau pairs of the 1x1 game A = [[1]], B = [[1]]: the one of
`create_systems` and the one of its equilibrium. -/
def states_one (T : Tableaus) : Prop :=
  T = { t0 := [[-1, 1, 0, -1]], t1 := [[-2, 1, 0, -1]] } ∨
  T = { t0 := [[2, 1, -1, 0]], t1 := [[1, 1, -1, 0]] }

/-- The label whose column in tableau `ntab` is `j` (auxiliary: the inverse of
`get_column` on the labels of one tableau; `column_label_spec` relates it to
`get_tableau` and `get_column`). -/
def column_label (dim1 dim2 : ℕ) (ntab : ℤ) (j : ℤ) : ℤ :=
  if ntab = 0 then (if j ≤ (dim1 : ℤ) + 1 then 1 - j else j - 1)
  else (if j ≤ (dim2 : ℤ) + 1 then 1 - j - dim1 else j - 1 - dim2)

/-- The sorted insertion that `add_strategy` performs, as a plain recursion
over the list (auxiliary; `add_strategy_eq_insert` shows that the C function
computes it). -/
def strategy_insert (label : ℤ) (prob : ℚ) : Equilibrium → Equilibrium
  | [] => [(label, prob)]
  | h :: rest =>
    if h.1 > label then (label, prob) :: h :: rest
    else h :: strategy_insert label prob rest

/-- Every label cell of the rows of tableau `t` holds an integer label `z` with
`get_tableau z = t`: each basic label sits in its own tableau. -/
def LabelsPlaced (dim1 dim2 : ℕ) (T : Tableaus) : Prop :=
  (∀ i < dim1, ∃ z : ℤ, cell T.t0 i 0 = (z : ℚ) ∧ get_tableau dim1 dim2 z = 0) ∧
  (∀ i < dim2, ∃ z : ℤ, cell T.t1 i 0 = (z : ℚ) ∧ get_tableau dim1 dim2 z = 1)

/-- A 2x2 game whose first row is strictly dominated: A = [[1, 1], [2, 2]],
B = [[1, 2], [2, 1]]. -/
def game_dominated : Bimatrix := [[1, 1], [2, 2], [1, 2], [2, 1]]

/-- Row `i` of tableau `t`, read as the linear equation
`x[label] = value + sum over the columns j = 2..n+1 of t[i][j] * x[variable of column j]`,
holds for the assignment `x` of the variables (indexed by their labels); the
tableau is `tableaus[ntab]`, whose column `j` belongs to the label
`column_label dim1 dim2 ntab j`, and the label of the row is the cast to `int`
of its label cell. -/
def row_equation (dim1 dim2 : ℕ) (ntab : ℤ) (t : Tableau) (i : ℕ) (x : ℤ → ℚ) : Prop :=
  x (toInt (cell t i 0)) = cell t i 1 + sumTo (dim1 + dim2)
    (fun k => cell t i (k + 2) * x (column_label dim1 dim2 ntab ((k : ℤ) + 2)))

instance (dim1 dim2 : ℕ) (ntab : ℤ) (t : Tableau) (i : ℕ) (x : ℤ → ℚ) :
    Decidable (row_equation dim1 dim2 ntab t i x) :=
  inferInstanceAs (Decidable (_ = _))

/-- The assignment `x` satisfies the equations of all rows of the tableau in
which `pivot` enters. -/
def Solves (dim1 dim2 : ℕ) (T : Tableaus) (pivot : ℤ) (x : ℤ → ℚ) : Prop :=
  ∀ i < active_rows dim1 dim2 pivot,
    row_equation dim1 dim2 (get_tableau dim1 dim2 pivot) (active dim1 dim2 T pivot) i x

instance (dim1 dim2 : ℕ) (T : Tableaus) (pivot : ℤ) (x : ℤ → ℚ) :
    Decidable (Solves dim1 dim2 T pivot x) :=
  inferInstanceAs (Decidable (∀ i < active_rows dim1 dim2 pivot, _))

/-! ## Double arithmetic: the pivot step, the run and the equilibrium

The definitions of `algorithm.c` above compute with exact rationals.  The
definitions below are the same code with the result of every division,
product, sum and difference rounded to double, each operation on its own (the
product of line 129 is stored in the `double` variable `agg` before it is
added). -/

/-- `ratio_body` in double arithmetic: the ratio of line 66 and the difference
`min-eps` of line 71 are rounded. -/
def ratio_body_fl (t : Tableau) (column : ℕ) (s : Scan) (i : ℕ) : Scan :=
  if cell t i column > -eps_fl then s
  else
    if !s.updated || decide (fl (-(cell t i 1) / cell t i column) < fl (s.min - eps_fl)) then
      { min := fl (-(cell t i 1) / cell t i column), updated := true, index := i }
    else s

/-- `ratio_test` in double arithmetic. -/
def ratio_test_fl (t : Tableau) (nlines column : ℕ) : Scan :=
  (List.range nlines).foldl (ratio_body_fl t column) { min := 0, updated := false, index := 0 }

/-- `pivot_row` in double arithmetic: each quotient of line 115 is rounded. -/
def pivot_row_fl (dim1 dim2 : ℕ) (t : Tableau) (index column : ℕ) (pivot newpivot : ℤ) :
    Tableau :=
  let ta := setCell t index (get_column dim1 dim2 newpivot).toNat (-1)
  let tb := setCell ta index 0 (pivot : ℚ)
  let coeff := -(cell tb index column)
  let tc := (List.range' 1 (dim1 + dim2 + 1)).foldl
    (fun u i => setCell u index i (fl (cell u index i / coeff))) tb
  setCell tc index column 0

/-- `eliminate_row` in double arithmetic: the product `agg` of line 129 and the
sum of line 130 are rounded. -/
def eliminate_row_fl (dim1 dim2 : ℕ) (index column : ℕ) (t : Tableau) (i : ℕ) : Tableau :=
  if cell t i column < -eps_fl ∨ cell t i column > eps_fl then
    setCell ((List.range' 1 (dim1 + dim2 + 1)).foldl
      (fun u j => setCell u i j (fl (cell u i j + fl (cell u i column * cell u index j)))) t)
      i column 0
  else t

/-- `eliminate` in double arithmetic. -/
def eliminate_fl (dim1 dim2 : ℕ) (t : Tableau) (nlines index column : ℕ) : Tableau :=
  (List.range nlines).foldl (eliminate_row_fl dim1 dim2 index column) t

/-- `pivot_step` in double arithmetic. -/
def pivot_step_fl (dim1 dim2 : ℕ) (T : Tableaus) (pivot : ℤ) : Except Fault (Tableaus × ℤ) :=
  let ntab := get_tableau dim1 dim2 pivot
  if ntab = -1 then .error .undefined
  else
    let nlines := if ntab = 0 then dim1 else dim2
    let column := (get_column dim1 dim2 pivot).toNat
    let t := getTab T ntab
    let s := ratio_test_fl t nlines column
    if !s.updated then .error .assertion
    else
      let newpivot := toInt (cell t s.index 0)
      if get_column dim1 dim2 newpivot < 0 then .error .undefined
      else
        let tr := pivot_row_fl dim1 dim2 t s.index column pivot newpivot
        .ok (putTab T ntab (eliminate_fl dim1 dim2 tr nlines s.index column), newpivot)

/-- `lh_loop` in double arithmetic. -/
def lh_loop_fl (dim1 dim2 : ℕ) (startpivot : ℤ) :
    ℕ → Tableaus → ℤ → ℤ → Except Fault (Tableaus × ℤ)
  | 0, _, _, _ => .error .fuel
  | fuel + 1, T, pivot, steps =>
    match pivot_step_fl dim1 dim2 T pivot with
    | .error e => .error e
    | .ok (T', newpivot) =>
      if newpivot = startpivot ∨ newpivot = -startpivot then .ok (T', steps + 1)
      else lh_loop_fl dim1 dim2 startpivot fuel T' (-newpivot) (steps + 1)

/-- `lh_config` in double arithmetic: the tableau pair and the entering label
at the head of the `for(;;)` loop after `k` pivot steps. -/
def lh_config_fl (dim1 dim2 : ℕ) (startpivot : ℤ) : ℕ → Tableaus → ℤ → Option (Tableaus × ℤ)
  | 0, T, pivot => some (T, pivot)
  | k + 1, T, pivot =>
    match pivot_step_fl dim1 dim2 T pivot with
    | .error _ => none
    | .ok (T', newpivot) =>
      if newpivot = startpivot ∨ newpivot = -startpivot then none
      else lh_config_fl dim1 dim2 startpivot k T' (-newpivot)

/-- `total` in double arithmetic: each sum of lines 169 and 172 is rounded. -/
def total_fl (t : Tableau) (nlines : ℕ) : ℚ :=
  (List.range nlines).foldl
    (fun acc i => if cell t i 0 > 0 then fl (acc + cell t i 1) else acc) 0

/-- `add_rows` in double arithmetic: each quotient of lines 179 and 184 is
rounded. -/
def add_rows_fl (t : Tableau) (nlines : ℕ) (tot : ℚ) (eq : Equilibrium) : Equilibrium :=
  (List.range nlines).foldl
    (fun e i =>
      if cell t i 0 > 0 then add_strategy e (toInt (cell t i 0)) (fl (cell t i 1 / tot)) else e)
    eq

/-- `build_equilibrium` in double arithmetic. -/
def build_equilibrium_fl (dim1 dim2 : ℕ) (T : Tableaus) : Equilibrium :=
  add_rows_fl T.t1 dim2 (total_fl T.t1 dim2) (add_rows_fl T.t0 dim1 (total_fl T.t0 dim1) [])

/-- `lemke_howson_gen` in double arithmetic. -/
def lemke_howson_gen_fl (fuel : ℕ) (T : Tableaus) (dim1 dim2 : ℕ) (startpivot : ℤ) :
    Except Fault LHResult :=
  match lh_loop_fl dim1 dim2 startpivot fuel T (get_pivot_gen T dim1 dim2 startpivot) 0 with
  | .error e => .error e
  | .ok (T', steps) =>
    .ok { eq := build_equilibrium_fl dim1 dim2 T', tableaus := T', steps := steps }

/-- The tableau pairs on which the program starts a run of `lemke_howson_gen`:
the pair that `create_systems` builds and, as in `all_lemke_gen`, every pair
that a run from a start label in `1..dim1+dim2` on such a pair leaves behind. -/
inductive Reached (bimatrix : Bimatrix) (dim1 dim2 : ℕ) : Tableaus → Prop
  | start : Reached bimatrix dim1 dim2 (create_systems bimatrix dim1 dim2)
  | run (T : Tableaus) (s : ℤ) (fuel : ℕ) (r : LHResult) :
      Reached bimatrix dim1 dim2 T → 1 ≤ s → s ≤ (dim1 : ℤ) + dim2 →
      lemke_howson_gen_fl fuel T dim1 dim2 s = .ok r → Reached bimatrix dim1 dim2 r.tableaus

/-- Every label cell of the rows of tableau `t` holds an integer label `z` with
`1 ≤ |z| ≤ dim1+dim2` and `get_tableau z = t`. -/
def LabelsValid (dim1 dim2 : ℕ) (T : Tableaus) : Prop :=
  (∀ i < dim1, ∃ z : ℤ, cell T.t0 i 0 = (z : ℚ) ∧
    (z ≠ 0 ∧ -((dim1 : ℤ) + dim2) ≤ z ∧ z ≤ (dim1 : ℤ) + dim2) ∧
    get_tableau dim1 dim2 z = 0) ∧
  (∀ i < dim2, ∃ z : ℤ, cell T.t1 i 0 = (z : ℚ) ∧
    (z ≠ 0 ∧ -((dim1 : ℤ) + dim2) ≤ z ∧ z ≤ (dim1 : ℤ) + dim2) ∧
    get_tableau dim1 dim2 z = 1)

/-- A 1x2 bimatrix of doubles with the smallest entry -1e17: A = [[-1e17, 5]],
B = [[0, 1]]. -/
def game_huge : Bimatrix := [[-(10 ^ 17), 5], [0, 1]]

/-- A 1x2 bimatrix of doubles with the smallest entry -0.9, that is the double
-8106479329266893 / 2^53 nearest to it: A = [[-0.9, 0]], B = [[0.5, 1]]. -/
def game_tenths : Bimatrix := [[-8106479329266893 / 2 ^ 53, 0], [1 / 2, 1]]

/-- The tableau pair after the first pivot step of the run of `game_degenerate`
from label 1 in double arithmetic: row 2 of the second tableau has been
divided by 3. -/
def tableaus_thirds : Tableaus :=
  { t0 := [[-1, 1, 0, 0, -2, -1, -1], [-2, 1, 0, 0, -1, -2, -1]],
    t1 := [[-3, 3002399751580331 / 2 ^ 53, 0, 0, 6004799503160661 / 2 ^ 53, 0,
            -3002399751580331 / 2 ^ 53],
           [-4, 3002399751580331 / 2 ^ 52, 0, 0, 6004799503160661 / 2 ^ 54, 0,
            -3002399751580331 / 2 ^ 52],
           [1, 6004799503160661 / 2 ^ 54, 0, 0, -6004799503160661 / 2 ^ 54, 0,
            -6004799503160661 / 2 ^ 54]] }

/-- The assignment x[1] = 1, x[-3] = -1, x[-5] = -2 and x[l] = 0 for every
other label. -/
def assignment_thirds (l : ℤ) : ℚ :=
  if l = 1 then 1 else if l = -3 then -1 else if l = -5 then -2 else 0

/-! ## Theorems -/

theorem lex_cons_cons (a b : ℤ) (l₁ l₂ : List ℤ) :
    List.Lex (· < ·) (a :: l₁) (b :: l₂) ↔ a < b ∨ (a = b ∧ List.Lex (· < ·) l₁ l₂) := by
  constructor
  · intro h
    cases h with
    | cons h => exact Or.inr ⟨rfl, h⟩
    | rel h => exact Or.inl h
  · rintro (h | ⟨rfl, h⟩)
    · exact List.Lex.rel h
    · exact List.Lex.cons h

theorem lex_comp_range (x y : Equilibrium) :
    lex_comp x y = -1 ∨ lex_comp x y = 0 ∨ lex_comp x y = 1 := by
  induction x generalizing y with
  | nil => cases y <;> simp [lex_comp]
  | cons a xs ih =>
    cases y with
    | nil => simp [lex_comp]
    | cons b ys =>
      simp only [lex_comp]
      split_ifs
      · simp
      · simp
      · exact ih ys

theorem lex_comp_eq_zero_iff (x y : Equilibrium) :
    lex_comp x y = 0 ↔ labels x = labels y := by
  induction x generalizing y with
  | nil => cases y <;> simp [lex_comp, labels]
  | cons a xs ih =>
    cases y with
    | nil => simp [lex_comp, labels]
    | cons b ys =>
      simp only [lex_comp, labels, List.map_cons, List.cons.injEq]
      split_ifs with h1 h2
      · have : a.1 ≠ b.1 := ne_of_lt h1
        simp [this]
      · have : a.1 ≠ b.1 := ne_of_gt h2
        simp [this]
      · rw [ih ys]
        have : a.1 = b.1 := le_antisymm (not_lt.mp h2) (not_lt.mp h1)
        simp [labels, this]

theorem lex_comp_neg_iff (x y : Equilibrium) :
    lex_comp x y < 0 ↔ List.Lex (· < ·) (labels x) (labels y) := by
  induction x generalizing y with
  | nil => cases y <;> simp [lex_comp, labels, List.Lex.nil]
  | cons a xs ih =>
    cases y with
    | nil => simp [lex_comp, labels]
    | cons b ys =>
      simp only [lex_comp, labels, List.map_cons, lex_cons_cons]
      have ih' := ih ys
      simp only [labels] at ih'
      split_ifs with h1 h2
      · simp [h1]
      · constructor
        · intro h; omega
        · rintro (h | ⟨h, -⟩) <;> omega
      · rw [ih']
        have hab : a.1 = b.1 := le_antisymm (not_lt.mp h2) (not_lt.mp h1)
        simp [hab]

theorem lex_comp_pos_iff (x y : Equilibrium) :
    lex_comp x y > 0 ↔ List.Lex (· < ·) (labels y) (labels x) := by
  induction x generalizing y with
  | nil => cases y <;> simp [lex_comp, labels]
  | cons a xs ih =>
    cases y with
    | nil => simp [lex_comp, labels, List.Lex.nil]
    | cons b ys =>
      simp only [lex_comp, labels, List.map_cons, lex_cons_cons]
      have ih' := ih ys
      simp only [labels] at ih'
      split_ifs with h1 h2
      · constructor
        · intro h; omega
        · rintro (h | ⟨h, -⟩) <;> omega
      · simp [h2]
      · rw [ih']
        have hab : a.1 = b.1 := le_antisymm (not_lt.mp h2) (not_lt.mp h1)
        simp [hab]

theorem lex_comp_trans {x y z : Equilibrium} (h1 : lex_comp x y < 0) (h2 : lex_comp y z < 0) :
    lex_comp x z < 0 := by
  rw [lex_comp_neg_iff] at *
  exact lt_trans (α := List ℤ) h1 h2

theorem lex_comp_neg_of_eq_right {x y z : Equilibrium} (h1 : lex_comp x y < 0)
    (h2 : labels y = labels z) : lex_comp x z < 0 := by
  rw [lex_comp_neg_iff] at *
  rw [← h2]; exact h1

theorem lex_comp_neg_not_eq {x y : Equilibrium} (h1 : lex_comp x y < 0) :
    labels x ≠ labels y := by
  intro h
  rw [← lex_comp_eq_zero_iff] at h
  omega

theorem lex_comp_pos_flip {x y : Equilibrium} (h : lex_comp x y > 0) : lex_comp y x < 0 := by
  rw [lex_comp_pos_iff] at h
  rw [lex_comp_neg_iff]
  exact h

theorem lex_comp_neg_of_not {x y : Equilibrium} (h1 : ¬ lex_comp x y > 0)
    (h2 : ¬ lex_comp x y = 0) : lex_comp x y < 0 := by
  rcases lex_comp_range x y with h | h | h <;> omega

theorem search_add_loop_eq (eq : Equilibrium) (rest : Eqlist) (i : Equilibrium) :
    search_add_loop eq (i :: rest)
      = (i :: (store_insert eq rest).1, (store_insert eq rest).2) := by
  induction rest generalizing i with
  | nil => simp [search_add_loop, store_insert]
  | cons nxt rest ih =>
    simp only [search_add_loop, store_insert]
    by_cases h0 : lex_comp nxt eq = 0
    · have : ¬ lex_comp nxt eq > 0 := by omega
      simp [h0]
    · by_cases h1 : lex_comp nxt eq > 0
      · simp [h0, h1]
      · simp [h0, h1, ih nxt]

theorem search_add_eq_store_insert (list : Eqlist) (eq : Equilibrium) :
    search_add_equilibrium list eq = store_insert eq list := by
  cases list with
  | nil => simp [search_add_equilibrium, store_insert]
  | cons h rest =>
    simp only [search_add_equilibrium, store_insert]
    by_cases h1 : lex_comp h eq > 0
    · simp [h1]
    · by_cases h0 : lex_comp h eq = 0
      · simp [h0]
      · simp [h0, h1, search_add_loop_eq]

theorem ascending_tail {h : Equilibrium} {rest : Eqlist} (ha : Ascending (h :: rest)) :
    Ascending rest := List.Chain'.tail ha

theorem ascending_head_lt {h : Equilibrium} {rest : Eqlist} (ha : Ascending (h :: rest)) :
    ∀ e ∈ rest, lex_comp h e < 0 := by
  induction rest generalizing h with
  | nil => intro e he; cases he
  | cons b rest ih =>
    intro e he
    have hb : lex_comp h b < 0 := (List.chain'_cons.mp ha).1
    rcases List.mem_cons.mp he with rfl | he'
    · exact hb
    · exact lex_comp_trans hb (ih (List.chain'_cons.mp ha).2 e he')

theorem store_insert_found_iff (eq : Equilibrium) (l : Eqlist) (ha : Ascending l) :
    (store_insert eq l).2 = true ↔ ∃ e ∈ l, labels e = labels eq := by
  induction l with
  | nil => simp [store_insert]
  | cons h rest ih =>
    simp only [store_insert]
    by_cases h1 : lex_comp h eq > 0
    · simp only [h1, if_true, Bool.false_eq_true, false_iff]
      rintro ⟨e, he, hlab⟩
      have hlt : lex_comp eq h < 0 := lex_comp_pos_flip h1
      rcases List.mem_cons.mp he with rfl | he'
      · exact lex_comp_neg_not_eq hlt hlab.symm
      · exact lex_comp_neg_not_eq (lex_comp_trans hlt (ascending_head_lt ha e he')) hlab.symm
    · by_cases h0 : lex_comp h eq = 0
      · have hm : ∃ e ∈ h :: rest, labels e = labels eq :=
          ⟨h, List.mem_cons_self _ _, (lex_comp_eq_zero_iff _ _).mp h0⟩
        rw [if_neg h1, if_pos h0]
        exact ⟨fun _ => hm, fun _ => rfl⟩
      · simp only [h1, h0, if_false]
        rw [ih (ascending_tail ha)]
        constructor
        · rintro ⟨e, he, hlab⟩
          exact ⟨e, List.mem_cons_of_mem _ he, hlab⟩
        · rintro ⟨e, he, hlab⟩
          rcases List.mem_cons.mp he with rfl | he'
          · exact absurd ((lex_comp_eq_zero_iff _ _).mpr hlab) h0
          · exact ⟨e, he', hlab⟩

theorem store_insert_found_same (eq : Equilibrium) (l : Eqlist)
    (hf : (store_insert eq l).2 = true) : (store_insert eq l).1 = l := by
  induction l with
  | nil => simp [store_insert] at hf
  | cons h rest ih =>
    simp only [store_insert] at hf ⊢
    by_cases h1 : lex_comp h eq > 0
    · simp [h1] at hf
    · by_cases h0 : lex_comp h eq = 0
      · simp [h1, h0]
      · simp only [h1, h0, if_false] at hf ⊢
        rw [ih hf]

theorem store_insert_new_split (eq : Equilibrium) (l : Eqlist)
    (hf : (store_insert eq l).2 = false) :
    ∃ l₁ l₂, l = l₁ ++ l₂ ∧ (store_insert eq l).1 = l₁ ++ eq :: l₂ := by
  induction l with
  | nil => exact ⟨[], [], rfl, rfl⟩
  | cons h rest ih =>
    simp only [store_insert] at hf ⊢
    by_cases h1 : lex_comp h eq > 0
    · exact ⟨[], h :: rest, rfl, by simp [h1]⟩
    · by_cases h0 : lex_comp h eq = 0
      · simp [h1, h0] at hf
      · simp only [h1, h0, if_false] at hf ⊢
        obtain ⟨l₁, l₂, e1, e2⟩ := ih hf
        exact ⟨h :: l₁, l₂, by rw [e1]; rfl, by rw [e2]; rfl⟩

theorem store_insert_head (eq : Equilibrium) (l : Eqlist) (x : Equilibrium)
    (hx : x ∈ (store_insert eq l).1.head?) : x = eq ∨ x ∈ l.head? := by
  cases l with
  | nil => left; simpa [store_insert, eq_comm] using hx
  | cons h rest =>
    simp only [store_insert] at hx
    by_cases h1 : lex_comp h eq > 0
    · left; simpa [h1, eq_comm] using hx
    · by_cases h0 : lex_comp h eq = 0
      · right; simpa [h1, h0] using hx
      · right; simpa [h1, h0] using hx

theorem store_insert_ascending (eq : Equilibrium) (l : Eqlist) (ha : Ascending l)
    (hf : (store_insert eq l).2 = false) : Ascending (store_insert eq l).1 := by
  induction l with
  | nil => simp [store_insert, Ascending]
  | cons h rest ih =>
    simp only [store_insert] at hf ⊢
    by_cases h1 : lex_comp h eq > 0
    · simp only [h1, if_true]
      exact List.chain'_cons.mpr ⟨lex_comp_pos_flip h1, ha⟩
    · by_cases h0 : lex_comp h eq = 0
      · simp [h1, h0] at hf
      · simp only [h1, h0, if_false] at hf ⊢
        have hrest := ih (ascending_tail ha) hf
        refine List.chain'_cons'.mpr ⟨?_, hrest⟩
        intro x hx
        rcases store_insert_head eq rest x hx with rfl | hx'
        · exact lex_comp_neg_of_not h1 h0
        · exact (List.chain'_cons'.mp ha).1 x hx'

theorem foldlM_except_inv {σ α ε : Type} (P : σ → Prop) (f : σ → α → Except ε σ)
    (hf : ∀ s a s', P s → f s a = .ok s' → P s') :
    ∀ (l : List α) (s s' : σ), P s → l.foldlM f s = .ok s' → P s' := by
  intro l
  induction l with
  | nil =>
    intro s s' hs h
    simp only [List.foldlM, pure, Except.pure, Except.ok.injEq] at h
    exact h ▸ hs
  | cons a l ih =>
    intro s s' hs h
    simp only [List.foldlM, bind, Except.bind] at h
    cases hfa : f s a with
    | error e => rw [hfa] at h; cases h
    | ok s₁ =>
      rw [hfa] at h
      exact ih s₁ s' (hf s a s₁ hs hfa) h

theorem search_add_good (l : Eqlist) (eq : Equilibrium) (hl : GoodList l) (he : eq ≠ []) :
    GoodList (search_add_equilibrium l eq).1 := by
  rw [search_add_eq_store_insert]
  cases hf : (store_insert eq l).2 with
  | true => rw [store_insert_found_same eq l hf]; exact hl
  | false =>
    refine ⟨store_insert_ascending eq l hl.1 hf, ?_⟩
    obtain ⟨l₁, l₂, e1, e2⟩ := store_insert_new_split eq l hf
    intro e hmem
    rw [e2] at hmem
    rcases List.mem_append.mp hmem with h | h
    · exact hl.2 e (by rw [e1]; exact List.mem_append_left _ h)
    · rcases List.mem_cons.mp h with rfl | h'
      · exact he
      · exact hl.2 e (by rw [e1]; exact List.mem_append_right _ h')

theorem all_lemke_body_good (lhfuel dim1 dim2 : ℕ) (taboo : ℤ)
    (recurse : Tableaus → ℤ → Eqlist → Except Fault (Tableaus × Eqlist))
    (hrec : ∀ T t l r, GoodList l → recurse T t l = .ok r → GoodList r.2)
    (st : Tableaus × Eqlist) (pivot : ℤ) (st' : Tableaus × Eqlist)
    (hst : GoodList st.2) (h : all_lemke_body lhfuel dim1 dim2 taboo recurse st pivot = .ok st') :
    GoodList st'.2 := by
  unfold all_lemke_body at h
  by_cases hp : pivot ≠ taboo
  · rw [if_pos hp] at h
    cases hr : lemke_howson_gen lhfuel st.1 dim1 dim2 pivot with
    | error e => rw [hr] at h; cases h
    | ok r =>
      rw [hr] at h
      simp only at h
      by_cases hart : is_artificial r.eq = true
      · simp only [hart, Bool.not_true, Bool.false_eq_true, if_false] at h
        cases hr2 : lemke_howson_gen lhfuel r.tableaus dim1 dim2 pivot with
        | error e => rw [hr2] at h; cases h
        | ok r₂ =>
          rw [hr2] at h
          simp only [Except.ok.injEq] at h
          rw [← h]; exact hst
      · have hne : r.eq ≠ [] := by
          intro h0; apply hart; simp [is_artificial, h0]
        have hgood := search_add_good st.2 r.eq hst hne
        simp only [hart, Bool.not_false, if_true] at h
        by_cases hfound : (search_add_equilibrium st.2 r.eq).2 = true
        · simp only [hfound, Bool.not_true, Bool.false_eq_true, if_false] at h
          cases hr2 : lemke_howson_gen lhfuel r.tableaus dim1 dim2 pivot with
          | error e => rw [hr2] at h; cases h
          | ok r₂ =>
            rw [hr2] at h
            simp only [Except.ok.injEq] at h
            rw [← h]; exact hgood
        · simp only [hfound, Bool.not_false, if_true] at h
          cases hrc : recurse r.tableaus pivot (search_add_equilibrium st.2 r.eq).1 with
          | error e => rw [hrc] at h; cases h
          | ok q =>
            rw [hrc] at h
            obtain ⟨T₂, lista₂⟩ := q
            simp only at h
            cases hr2 : lemke_howson_gen lhfuel T₂ dim1 dim2 pivot with
            | error e => rw [hr2] at h; cases h
            | ok r₂ =>
              rw [hr2] at h
              simp only [Except.ok.injEq] at h
              rw [← h]
              exact hrec _ _ _ (T₂, lista₂) hgood hrc
  · rw [if_neg hp] at h
    simp only [Except.ok.injEq] at h
    rw [← h]; exact hst

theorem all_lemke_gen_good (lhfuel dim1 dim2 : ℕ) :
    ∀ (depth : ℕ) (T : Tableaus) (taboo : ℤ) (l : Eqlist) (r : Tableaus × Eqlist),
      GoodList l → all_lemke_gen lhfuel dim1 dim2 depth T taboo l = .ok r → GoodList r.2 := by
  intro depth
  induction depth with
  | zero => intro T taboo l r _ h; simp [all_lemke_gen] at h
  | succ depth ih =>
    intro T taboo l r hl h
    simp only [all_lemke_gen] at h
    exact foldlM_except_inv (fun st : Tableaus × Eqlist => GoodList st.2) _
      (fun s a s' hs hf => all_lemke_body_good lhfuel dim1 dim2 taboo _ ih s a s' hs hf)
      _ (T, l) r hl h

theorem ascending_pairwise (l : Eqlist) (ha : Ascending l) :
    l.Pairwise (fun a b => lex_comp a b < 0) := by
  induction l with
  | nil => exact List.Pairwise.nil
  | cons h rest ih =>
    exact List.Pairwise.cons (ascending_head_lt ha) (ih (ascending_tail ha))

theorem getD_set_row (t : Tableau) (i i' : ℕ) (r : Row) :
    (t.set i r).getD i' [] = if i' = i ∧ i < t.length then r else t.getD i' [] := by
  simp only [List.getD_eq_getElem?_getD, List.getElem?_set]
  by_cases h : i = i'
  · subst h
    by_cases hl : i < t.length
    · simp [hl]
    · simp [hl, List.getElem?_eq_none (not_lt.mp hl)]
  · have h' : ¬ i' = i := fun e => h e.symm
    simp [h, h']

theorem cell_setCell (t : Tableau) (i j : ℕ) (v : ℚ) (i' j' : ℕ) :
    cell (setCell t i j v) i' j'
      = if i' = i ∧ j' = j ∧ i < t.length ∧ j < (t.getD i []).length then v
        else cell t i' j' := by
  unfold cell setCell
  rw [getD_set_row]
  by_cases h : i' = i ∧ i < t.length
  · rw [if_pos h]
    obtain ⟨rfl, hl⟩ := h
    simp only [List.getD_eq_getElem?_getD, List.getElem?_set, true_and, hl]
    by_cases hj : j = j'
    · subst hj
      by_cases hjl : j < (t[i']?.getD []).length
      · simp [hjl]
      · simp [hjl, List.getElem?_eq_none (not_lt.mp hjl)]
    · have hj' : ¬ j' = j := fun e => hj e.symm
      simp [hj, hj']
  · rw [if_neg h]
    have : ¬ (i' = i ∧ j' = j ∧ i < t.length ∧ j < (t.getD i []).length) := by
      rintro ⟨h1, -, h3, -⟩
      exact h ⟨h1, h3⟩
    rw [if_neg this]

theorem length_setCell (t : Tableau) (i j : ℕ) (v : ℚ) : (setCell t i j v).length = t.length := by
  simp [setCell]

theorem row_length_setCell (t : Tableau) (i j : ℕ) (v : ℚ) (i' : ℕ) :
    ((setCell t i j v).getD i' []).length = (t.getD i' []).length := by
  unfold setCell
  rw [getD_set_row]
  by_cases h : i' = i ∧ i < t.length
  · rw [if_pos h, List.length_set, h.1]
  · rw [if_neg h]

theorem keeps_refl (t : Tableau) : Keeps t t := ⟨rfl, fun _ => rfl, fun _ => rfl⟩

theorem keeps_trans {t u w : Tableau} (h1 : Keeps t u) (h2 : Keeps u w) : Keeps t w :=
  ⟨h2.1.trans h1.1, fun i => (h2.2.1 i).trans (h1.2.1 i), fun i => (h2.2.2 i).trans (h1.2.2 i)⟩

theorem keeps_setCell (t : Tableau) (i j : ℕ) (v : ℚ) (hj : j ≠ 0) : Keeps t (setCell t i j v) := by
  refine ⟨length_setCell t i j v, row_length_setCell t i j v, fun i' => ?_⟩
  rw [cell_setCell]
  have : ¬ (i' = i ∧ 0 = j ∧ i < t.length ∧ j < (t.getD i []).length) := by
    rintro ⟨-, h, -, -⟩
    exact hj h.symm
  rw [if_neg this]

theorem keeps_foldl {α : Type} (f : Tableau → α → Tableau) (l : List α)
    (hf : ∀ u, ∀ x ∈ l, Keeps u (f u x)) : ∀ t, Keeps t (l.foldl f t) := by
  induction l with
  | nil => intro t; exact keeps_refl t
  | cons x l ih =>
    intro t
    simp only [List.foldl_cons]
    exact keeps_trans (hf t x (List.mem_cons_self _ _))
      (ih (fun u y hy => hf u y (List.mem_cons_of_mem _ hy)) (f t x))

theorem rect_of_keeps {t t' : Tableau} {n m : ℕ} (h : Keeps t t') (hr : Rect t n m) :
    Rect t' n m :=
  ⟨h.1.trans hr.1, fun i hi => (h.2.1 i).trans (hr.2 i hi)⟩

theorem ratio_body_updated (t : Tableau) (column : ℕ) (s : Scan) (i : ℕ) :
    (ratio_body t column s i).updated = true →
      (ratio_body t column s i).index = i ∨
        (s.updated = true ∧ (ratio_body t column s i).index = s.index) := by
  unfold ratio_body
  intro h
  by_cases h1 : cell t i column > -eps
  · rw [if_pos h1] at h ⊢
    exact Or.inr ⟨h, rfl⟩
  · rw [if_neg h1] at h ⊢
    by_cases h2 : (!s.updated || decide (-(cell t i 1) / cell t i column < s.min - eps)) = true
    · rw [if_pos h2]
      exact Or.inl rfl
    · rw [if_neg h2] at h ⊢
      exact Or.inr ⟨h, rfl⟩

theorem ratio_test_succ (t : Tableau) (n column : ℕ) :
    ratio_test t (n + 1) column = ratio_body t column (ratio_test t n column) n := by
  simp [ratio_test, List.range_succ, List.foldl_append]

theorem ratio_test_index_lt (t : Tableau) (column : ℕ) :
    ∀ n, (ratio_test t n column).updated = true → (ratio_test t n column).index < n := by
  intro n
  induction n with
  | zero => intro h; simp [ratio_test] at h
  | succ n ih =>
    intro h
    rw [ratio_test_succ] at h ⊢
    rcases ratio_body_updated t column _ n h with h1 | ⟨h1, h2⟩
    · omega
    · have := ih h1
      omega

theorem get_column_ge_two (dim1 dim2 : ℕ) (p : ℤ) (h : get_tableau dim1 dim2 p ≠ -1) :
    2 ≤ get_column dim1 dim2 p := by
  unfold get_tableau at h
  unfold get_column
  split_ifs at h ⊢ <;> omega

theorem get_tableau_cases (dim1 dim2 : ℕ) (p : ℤ) (h : get_tableau dim1 dim2 p ≠ -1) :
    get_tableau dim1 dim2 p = 0 ∨ get_tableau dim1 dim2 p = 1 := by
  unfold get_tableau at h ⊢
  split_ifs at h ⊢ <;> simp at h ⊢

theorem pivot_row_labels (dim1 dim2 : ℕ) (t : Tableau) (n m index column : ℕ) (pivot newpivot : ℤ)
    (hr : Rect t n m) (hm : 0 < m) (hi : index < n) (hc : column ≠ 0) :
    Rect (pivot_row dim1 dim2 t index column pivot newpivot) n m ∧
    ∀ i, cell (pivot_row dim1 dim2 t index column pivot newpivot) i 0
      = if i = index then (pivot : ℚ) else cell t i 0 := by
  unfold pivot_row
  set ta := setCell t index (get_column dim1 dim2 newpivot).toNat (-1) with hta
  set tb := setCell ta index 0 (pivot : ℚ) with htb
  have hra : Rect ta n m :=
    ⟨(length_setCell _ _ _ _).trans hr.1, fun i hi' => (row_length_setCell _ _ _ _ i).trans (hr.2 i hi')⟩
  have hrb : Rect tb n m :=
    ⟨(length_setCell _ _ _ _).trans hra.1, fun i hi' => (row_length_setCell _ _ _ _ i).trans (hra.2 i hi')⟩
  have hlab : ∀ i, cell tb i 0 = if i = index then (pivot : ℚ) else cell t i 0 := by
    intro i
    rw [htb, cell_setCell]
    by_cases hii : i = index
    · have : i = index ∧ 0 = 0 ∧ index < ta.length ∧ 0 < (ta.getD index []).length := by
        refine ⟨hii, rfl, ?_, ?_⟩
        · rw [hra.1]; exact hi
        · rw [hra.2 index hi]; exact hm
      rw [if_pos this, if_pos hii]
    · have : ¬ (i = index ∧ 0 = 0 ∧ index < ta.length ∧ 0 < (ta.getD index []).length) :=
        fun h => hii h.1
      rw [if_neg this, if_neg hii, hta, cell_setCell]
      have : ¬ (i = index ∧ 0 = (get_column dim1 dim2 newpivot).toNat ∧ index < t.length ∧
          (get_column dim1 dim2 newpivot).toNat < (t.getD index []).length) := fun h => hii h.1
      rw [if_neg this]
  have hk : Keeps tb (setCell ((List.range' 1 (dim1 + dim2 + 1)).foldl
      (fun u i => setCell u index i (cell u index i / -(cell tb index column))) tb) index column 0) := by
    refine keeps_trans (keeps_foldl _ _ ?_ tb) (keeps_setCell _ _ _ _ hc)
    intro u x hx
    have : 1 ≤ x := (List.mem_range'_1.mp hx).1
    exact keeps_setCell _ _ _ _ (by omega)
  exact ⟨rect_of_keeps hk hrb, fun i => (hk.2.2 i).trans (hlab i)⟩

theorem eliminate_row_keeps (dim1 dim2 index column : ℕ) (hc : column ≠ 0) (t : Tableau) (i : ℕ) :
    Keeps t (eliminate_row dim1 dim2 index column t i) := by
  unfold eliminate_row
  split_ifs
  · refine keeps_trans (keeps_foldl _ _ ?_ t) (keeps_setCell _ _ _ _ hc)
    intro u x hx
    have : 1 ≤ x := (List.mem_range'_1.mp hx).1
    exact keeps_setCell _ _ _ _ (by omega)
  · exact keeps_refl t

theorem eliminate_keeps (dim1 dim2 : ℕ) (t : Tableau) (nlines index column : ℕ) (hc : column ≠ 0) :
    Keeps t (eliminate dim1 dim2 t nlines index column) := by
  unfold eliminate
  exact keeps_foldl _ _ (fun u x _ => eliminate_row_keeps dim1 dim2 index column hc u x) t

theorem row_labels_replace (t t' : Tableau) (n index : ℕ) (v : ℚ) (hi : index < n)
    (h : ∀ i, cell t' i 0 = if i = index then v else cell t i 0) :
    ∃ l₁ l₂, row_labels t n = l₁ ++ cell t index 0 :: l₂ ∧ row_labels t' n = l₁ ++ v :: l₂ := by
  have hlen : index < (row_labels t n).length := by simp [row_labels, hi]
  have hset : row_labels t' n = (row_labels t n).set index v := by
    apply List.ext_getElem
    · simp [row_labels]
    · intro k h1 h2
      simp only [row_labels, List.getElem_map, List.getElem_range, List.getElem_set, h]
      by_cases hk : k = index
      · simp [hk]
      · have : ¬ index = k := fun e => hk e.symm
        simp [hk, this]
  refine ⟨(row_labels t n).take index, (row_labels t n).drop (index + 1), ?_, ?_⟩
  · have hget : cell t index 0 = (row_labels t n)[index] := by
      simp [row_labels]
    rw [hget]
    simp
  · rw [hset, List.set_eq_take_append_cons_drop, if_pos hlen]

theorem step_tab_labels (dim1 dim2 : ℕ) (t : Tableau) (n index column : ℕ) (pivot q : ℤ)
    (hr : Rect t n (dim1 + dim2 + 2)) (hi : index < n) (hc : column ≠ 0) :
    Rect (eliminate dim1 dim2 (pivot_row dim1 dim2 t index column pivot q) n index column)
      n (dim1 + dim2 + 2) ∧
    ∃ l₁ l₂, row_labels t n = l₁ ++ cell t index 0 :: l₂ ∧
      row_labels (eliminate dim1 dim2 (pivot_row dim1 dim2 t index column pivot q) n index column) n
        = l₁ ++ (pivot : ℚ) :: l₂ := by
  obtain ⟨hrect, hlab⟩ := pivot_row_labels dim1 dim2 t n (dim1 + dim2 + 2)
    index column pivot q hr (by omega) hi hc
  have hk := eliminate_keeps dim1 dim2 (pivot_row dim1 dim2 t index column pivot q) n
    index column hc
  exact ⟨rect_of_keeps hk hrect,
    row_labels_replace t _ n index (pivot : ℚ) hi (fun i => (hk.2.2 i).trans (hlab i))⟩

/-- What one pivot step does to the labels in basis: the label cell of one row,
which held the leaving label, now holds the entering label; the shape of the
tableau pair is kept. -/
theorem pivot_step_basis (dim1 dim2 : ℕ) (T T' : Tableaus) (pivot q : ℤ)
    (hs : Shape dim1 dim2 T) (h : pivot_step dim1 dim2 T pivot = .ok (T', q)) :
    Shape dim1 dim2 T' ∧
    ∃ l₁ l₂ c, basis dim1 dim2 T = l₁ ++ c :: l₂ ∧ toInt c = q ∧
      basis dim1 dim2 T' = l₁ ++ (pivot : ℚ) :: l₂ := by
  unfold pivot_step at h
  simp only at h
  by_cases hn : get_tableau dim1 dim2 pivot = -1
  · rw [if_pos hn] at h; cases h
  · rw [if_neg hn] at h
    have hcol : (get_column dim1 dim2 pivot).toNat ≠ 0 := by
      have := get_column_ge_two dim1 dim2 pivot hn
      omega
    rcases get_tableau_cases dim1 dim2 pivot hn with h0 | h1
    · rw [h0] at h
      simp only [if_true, getTab, putTab] at h
      by_cases hu : (ratio_test T.t0 dim1 (get_column dim1 dim2 pivot).toNat).updated = true
      · simp only [hu, Bool.not_true, Bool.false_eq_true, if_false] at h
        split_ifs at h with hneg
        simp only [Except.ok.injEq, Prod.mk.injEq] at h
        obtain ⟨hT, hq⟩ := h
        have hidx := ratio_test_index_lt _ _ _ hu
        obtain ⟨hrect, l₁, l₂, e1, e2⟩ := step_tab_labels dim1 dim2 T.t0 dim1 _
          (get_column dim1 dim2 pivot).toNat pivot q hs.1 hidx hcol
        rw [hq] at hT
        refine ⟨⟨by rw [← hT]; exact hrect, by rw [← hT]; exact hs.2⟩,
          l₁, l₂ ++ row_labels T.t1 dim2, _, ?_, hq, ?_⟩
        · simp [basis, e1]
        · rw [← hT]
          simp [basis, e2]
      · simp [hu] at h
    · rw [h1] at h
      simp only [one_ne_zero, if_false, getTab, putTab] at h
      by_cases hu : (ratio_test T.t1 dim2 (get_column dim1 dim2 pivot).toNat).updated = true
      · simp only [hu, Bool.not_true, Bool.false_eq_true, if_false] at h
        split_ifs at h with hneg
        simp only [Except.ok.injEq, Prod.mk.injEq] at h
        obtain ⟨hT, hq⟩ := h
        have hidx := ratio_test_index_lt _ _ _ hu
        obtain ⟨hrect, l₁, l₂, e1, e2⟩ := step_tab_labels dim1 dim2 T.t1 dim2 _
          (get_column dim1 dim2 pivot).toNat pivot q hs.2 hidx hcol
        rw [hq] at hT
        refine ⟨⟨by rw [← hT]; exact hs.1, by rw [← hT]; exact hrect⟩,
          row_labels T.t0 dim1 ++ l₁, l₂, _, ?_, hq, ?_⟩
        · simp [basis, e1]
        · rw [← hT]
          simp [basis, e2]
      · simp [hu] at h

/-- First step of a run, on the set of basic labels `q` and `M`: `p` enters
and `q` leaves a complementary basis. -/
theorem compl_step (n s p q : ℤ) (M : ℤ → Prop)
    (hs : 1 ≤ s ∧ s ≤ n) (hq0 : q ≠ 0) (hqn : -n ≤ q ∧ q ≤ n)
    (hp : p = s ∨ p = -s) (hqM : ¬ M q) (hpq : p ≠ q) (hpM : ¬ M p)
    (hc : ∀ l : ℤ, 1 ≤ l → l ≤ n → Xor' (l = q ∨ M l) (-l = q ∨ M (-l))) :
    ((q = s ∨ q = -s) →
      ∀ l : ℤ, 1 ≤ l → l ≤ n → Xor' (l = p ∨ M l) (-l = p ∨ M (-l))) ∧
    (¬ (q = s ∨ q = -s) →
      (s = p ∨ M s) ∧ (-s = p ∨ M (-s)) ∧ ¬ (-q = p ∨ M (-q)) ∧ ¬ (- -q = p ∨ M (- -q)) ∧
      ∀ l : ℤ, 1 ≤ l → l ≤ n → l ≠ s → l ≠ -q → l ≠ - -q →
        Xor' (l = p ∨ M l) (-l = p ∨ M (-l))) := by
  have hcs := hc s hs.1 hs.2
  have hpneg : ¬ M p := hpM
  -- `-p` is basic before the step
  have hnegp : -p = q ∨ M (-p) := by
    rcases hp with rfl | rfl
    · rcases hcs with ⟨h1, _⟩ | ⟨h1, _⟩
      · rcases h1 with h | h
        · exact absurd h hpq
        · exact absurd h hpM
      · exact h1
    · rw [neg_neg]
      rcases hcs with ⟨h1, _⟩ | ⟨h1, _⟩
      · exact h1
      · rcases h1 with h | h
        · exact absurd h hpq
        · exact absurd h hpM
  constructor
  · intro hqs l hl1 hln
    have hqp : q = -p := by rcases hp with rfl | rfl <;> rcases hqs with h | h <;> omega
    have hcl := hc l hl1 hln
    by_cases hls : l = s
    · subst hls
      rcases hp with rfl | rfl
      · left
        refine ⟨Or.inl rfl, ?_⟩
        rintro (h | h)
        · omega
        · rw [hqp] at hqM; exact hqM h
      · right
        refine ⟨Or.inl rfl, ?_⟩
        rintro (h | h)
        · omega
        · rw [hqp] at hqM; simp only [neg_neg] at hqM; exact hqM h
    · have h1 : l ≠ q := by rcases hp with rfl | rfl <;> omega
      have h2 : -l ≠ q := by rcases hp with rfl | rfl <;> omega
      have h3 : l ≠ p := by rcases hp with rfl | rfl <;> omega
      have h4 : -l ≠ p := by rcases hp with rfl | rfl <;> omega
      simpa [h1, h2, h3, h4] using hcl
  · intro hqs
    have hqs1 : q ≠ s := fun h => hqs (Or.inl h)
    have hqs2 : q ≠ -s := fun h => hqs (Or.inr h)
    have hMnegp : M (-p) := by
      rcases hnegp with h | h
      · exfalso; rcases hp with rfl | rfl <;> omega
      · exact h
    -- exactly one of `q`, `-q` was basic, and `q` was
    have hnegq : ¬ M (-q) := by
      by_cases hpos : 0 < q
      · rcases hc q (by omega) hqn.2 with ⟨_, h2⟩ | ⟨_, h2⟩
        · exact fun h => h2 (Or.inr h)
        · exact absurd (Or.inl rfl) h2
      · rcases hc (-q) (by omega) (by omega) with ⟨_, h2⟩ | ⟨_, h2⟩
        · exact absurd (Or.inl (neg_neg q)) h2
        · exact fun h => h2 (Or.inr h)
    refine ⟨?_, ?_, ?_, ?_, ?_⟩
    · rcases hp with rfl | rfl
      · exact Or.inl rfl
      · right; simpa using hMnegp
    · rcases hp with rfl | rfl
      · right; exact hMnegp
      · exact Or.inl rfl
    · rintro (h | h)
      · rcases hp with rfl | rfl <;> omega
      · exact hnegq h
    · simp only [neg_neg]
      rintro (h | h)
      · exact hpq h.symm
      · exact hqM h
    · intro l hl1 hln hls hlq1 hlq2
      have h1 : l ≠ q := by omega
      have h2 : -l ≠ q := by omega
      have h3 : l ≠ p := by rcases hp with rfl | rfl <;> omega
      have h4 : -l ≠ p := by rcases hp with rfl | rfl <;> omega
      simpa [h1, h2, h3, h4] using hc l hl1 hln

/-- A later step of a run, on the set of basic labels `q` and `M`: `p` enters
and `q` leaves an almost complementary basis. -/
theorem almost_step (n s p q : ℤ) (M : ℤ → Prop)
    (hs : 1 ≤ s ∧ s ≤ n) (hq0 : q ≠ 0) (hqn : -n ≤ q ∧ q ≤ n) (hp0 : p ≠ 0) (hqM : ¬ M q)
    (h1 : s = q ∨ M s) (h2 : -s = q ∨ M (-s)) (h3 : ¬ (p = q ∨ M p)) (h4 : ¬ (-p = q ∨ M (-p)))
    (hc : ∀ l : ℤ, 1 ≤ l → l ≤ n → l ≠ s → l ≠ p → l ≠ -p →
      Xor' (l = q ∨ M l) (-l = q ∨ M (-l))) :
    ((q = s ∨ q = -s) →
      ∀ l : ℤ, 1 ≤ l → l ≤ n → Xor' (l = p ∨ M l) (-l = p ∨ M (-l))) ∧
    (¬ (q = s ∨ q = -s) →
      (s = p ∨ M s) ∧ (-s = p ∨ M (-s)) ∧ ¬ (-q = p ∨ M (-q)) ∧ ¬ (- -q = p ∨ M (- -q)) ∧
      ∀ l : ℤ, 1 ≤ l → l ≤ n → l ≠ s → l ≠ -q → l ≠ - -q →
        Xor' (l = p ∨ M l) (-l = p ∨ M (-l))) := by
  have hpq : p ≠ q := fun h => h3 (Or.inl h)
  have hpM : ¬ M p := fun h => h3 (Or.inr h)
  have hnpq : -p ≠ q := fun h => h4 (Or.inl h)
  have hnpM : ¬ M (-p) := fun h => h4 (Or.inr h)
  -- the labels `p` and `-p` after the step
  have hatp : ∀ l : ℤ, l = p ∨ l = -p → Xor' (l = p ∨ M l) (-l = p ∨ M (-l)) := by
    rintro l (rfl | rfl)
    · left
      refine ⟨Or.inl rfl, ?_⟩
      rintro (h | h)
      · omega
      · exact hnpM h
    · right
      refine ⟨Or.inl (neg_neg p), ?_⟩
      rintro (h | h)
      · omega
      · exact hnpM h
  constructor
  · intro hqs l hl1 hln
    by_cases hlp : l = p ∨ l = -p
    · exact hatp l hlp
    · have hlp1 : l ≠ p := fun h => hlp (Or.inl h)
      have hlp2 : l ≠ -p := fun h => hlp (Or.inr h)
      have hlp3 : -l ≠ p := by omega
      by_cases hls : l = s
      · subst hls
        rcases hqs with rfl | rfl
        · right
          refine ⟨?_, ?_⟩
          · rcases h2 with h | h
            · omega
            · exact Or.inr h
          · rintro (h | h)
            · exact hlp1 h
            · exact hqM h
        · left
          refine ⟨?_, ?_⟩
          · rcases h1 with h | h
            · omega
            · exact Or.inr h
          · rintro (h | h)
            · exact hlp3 h
            · exact hqM h
      · have e1 : l ≠ q := by rcases hqs with rfl | rfl <;> omega
        have e2 : -l ≠ q := by rcases hqs with rfl | rfl <;> omega
        simpa [e1, e2, hlp1, hlp3] using hc l hl1 hln hls hlp1 hlp2
  · intro hqs
    have hqs1 : q ≠ s := fun h => hqs (Or.inl h)
    have hqs2 : q ≠ -s := fun h => hqs (Or.inr h)
    have hnegq : ¬ M (-q) := by
      by_cases hpos : 0 < q
      · rcases hc q (by omega) hqn.2 hqs1 (by omega) (by omega) with ⟨_, h⟩ | ⟨_, h⟩
        · exact fun h' => h (Or.inr h')
        · exact absurd (Or.inl rfl) h
      · rcases hc (-q) (by omega) (by omega) (by omega) (by omega) (by omega)
          with ⟨_, h⟩ | ⟨_, h⟩
        · exact absurd (Or.inl (neg_neg q)) h
        · exact fun h' => h (Or.inr h')
    refine ⟨?_, ?_, ?_, ?_, ?_⟩
    · rcases h1 with h | h
      · exact absurd h.symm hqs1
      · exact Or.inr h
    · rcases h2 with h | h
      · exact absurd h.symm hqs2
      · exact Or.inr h
    · rintro (h | h)
      · omega
      · exact hnegq h
    · rw [neg_neg]
      rintro (h | h)
      · exact hpq h.symm
      · exact hqM h
    · intro l hl1 hln hls hlq1 hlq2
      by_cases hlp : l = p ∨ l = -p
      · exact hatp l hlp
      · have hlp1 : l ≠ p := fun h => hlp (Or.inl h)
        have hlp2 : l ≠ -p := fun h => hlp (Or.inr h)
        have hlp3 : -l ≠ p := by omega
        have e1 : l ≠ q := by omega
        have e2 : -l ≠ q := by omega
        simpa [e1, e2, hlp1, hlp3] using hc l hl1 hln hls hlp1 hlp2

theorem toInt_intCast (z : ℤ) : toInt (z : ℚ) = z := by
  simp [toInt]

/-- One pivot step on a basis of distinct integer labels: the leaving label `q`
was basic, and the basic labels are `q` and `M` before, `p` and `M` after. -/
theorem pivot_step_labels (dim1 dim2 : ℕ) (T T' : Tableaus) (p q : ℤ)
    (hok : LabelsOK dim1 dim2 T) (hp : p ≠ 0 ∧ -((dim1 : ℤ) + dim2) ≤ p ∧ p ≤ (dim1 : ℤ) + dim2)
    (hpb : ¬ Basic dim1 dim2 T p)
    (h : pivot_step dim1 dim2 T p = .ok (T', q)) :
    LabelsOK dim1 dim2 T' ∧ (q ≠ 0 ∧ -((dim1 : ℤ) + dim2) ≤ q ∧ q ≤ (dim1 : ℤ) + dim2) ∧
    ∃ M : ℤ → Prop, ¬ M q ∧ (∀ x, Basic dim1 dim2 T x ↔ (x = q ∨ M x)) ∧
      (∀ x, Basic dim1 dim2 T' x ↔ (x = p ∨ M x)) := by
  obtain ⟨hshape, bz, hbz, hnd, hrange⟩ := hok
  obtain ⟨hshape', l₁, l₂, c, e1, hq, e2⟩ := pivot_step_basis dim1 dim2 T T' p q hshape h
  rw [hbz] at e1
  obtain ⟨z₁, zr, hz, hz1, hzr⟩ := List.map_eq_append_iff.mp e1
  obtain ⟨zc, z₂, hzr', hzc, hz2⟩ := List.map_eq_cons_iff.mp hzr
  subst hzr'
  have hqc : q = zc := by rw [← hq, ← hzc, toInt_intCast]
  subst hqc
  have hmem : ∀ x : ℤ, Basic dim1 dim2 T x ↔ x ∈ bz := by
    intro x
    unfold Basic
    rw [hbz, List.mem_map]
    constructor
    · rintro ⟨a, ha, hax⟩
      have : a = x := by exact_mod_cast hax
      exact this ▸ ha
    · intro hx; exact ⟨x, hx, rfl⟩
  have hbz' : basis dim1 dim2 T' = List.map (fun z : ℤ => (z : ℚ)) (z₁ ++ p :: z₂) := by
    rw [e2, ← hz1, ← hz2]; simp
  have hmem' : ∀ x : ℤ, Basic dim1 dim2 T' x ↔ x ∈ z₁ ++ p :: z₂ := by
    intro x
    unfold Basic
    rw [hbz', List.mem_map]
    constructor
    · rintro ⟨a, ha, hax⟩
      have : a = x := by exact_mod_cast hax
      exact this ▸ ha
    · intro hx; exact ⟨x, hx, rfl⟩
  rw [hz] at hnd hrange hmem
  have hnd2 : (q :: (z₁ ++ z₂)).Nodup := List.nodup_middle.mp hnd
  have hpn : p ∉ z₁ ++ z₂ := by
    intro hx
    apply hpb
    rw [hmem]
    rcases List.mem_append.mp hx with h' | h'
    · exact List.mem_append_left _ h'
    · exact List.mem_append_right _ (List.mem_cons_of_mem _ h')
  refine ⟨⟨hshape', z₁ ++ p :: z₂, hbz', ?_, ?_⟩, hrange q (by simp), fun x => x ∈ z₁ ++ z₂,
    (List.nodup_cons.mp hnd2).1, ?_, ?_⟩
  · exact List.nodup_middle.mpr (List.nodup_cons.mpr ⟨hpn, (List.nodup_cons.mp hnd2).2⟩)
  · intro z hzmem
    rcases List.mem_append.mp hzmem with h' | h'
    · exact hrange z (List.mem_append_left _ h')
    · rcases List.mem_cons.mp h' with rfl | h''
      · exact hp
      · exact hrange z (List.mem_append_right _ (List.mem_cons_of_mem _ h''))
  · intro x
    rw [hmem]
    simp only [List.mem_append, List.mem_cons]
    tauto
  · intro x
    rw [hmem']
    simp only [List.mem_append, List.mem_cons]
    tauto

theorem create_systems_shape (bimatrix : Bimatrix) (dim1 dim2 : ℕ) :
    Shape dim1 dim2 (create_systems bimatrix dim1 dim2) := by
  refine ⟨⟨by simp [create_systems], ?_⟩, ⟨by simp [create_systems], ?_⟩⟩
  · intro i hi
    simp [create_systems, create_row0, List.getElem?_range hi]
    omega
  · intro i hi
    simp [create_systems, create_row1, List.getElem?_range hi]
    omega

theorem create_systems_label0 (bimatrix : Bimatrix) (dim1 dim2 i : ℕ) (hi : i < dim1) :
    cell (create_systems bimatrix dim1 dim2).t0 i 0 = ((-(i : ℤ) - 1 : ℤ) : ℚ) := by
  have h0 : 0 < 2 + dim1 + dim2 := by omega
  simp [cell, create_systems, create_row0, List.getElem?_range hi, List.getElem?_range h0]

theorem create_systems_label1 (bimatrix : Bimatrix) (dim1 dim2 i : ℕ) (hi : i < dim2) :
    cell (create_systems bimatrix dim1 dim2).t1 i 0 = ((-((dim1 + i : ℕ) : ℤ) - 1 : ℤ) : ℚ) := by
  have h0 : 0 < 2 + dim1 + dim2 := by omega
  simp [cell, create_systems, create_row1, List.getElem?_range hi, List.getElem?_range h0]
  ring

theorem create_systems_basis (bimatrix : Bimatrix) (dim1 dim2 : ℕ) :
    basis dim1 dim2 (create_systems bimatrix dim1 dim2)
      = List.map (fun z : ℤ => (z : ℚ)) (List.map (fun i : ℕ => -(i : ℤ) - 1) (List.range (dim1 + dim2))) := by
  rw [List.range_add, List.map_append, List.map_append]
  unfold basis row_labels
  congr 1
  · rw [List.map_map]
    apply List.map_congr_left
    intro i hi
    rw [create_systems_label0 bimatrix dim1 dim2 i (List.mem_range.mp hi)]
    rfl
  · rw [List.map_map, List.map_map]
    apply List.map_congr_left
    intro i hi
    rw [create_systems_label1 bimatrix dim1 dim2 i (List.mem_range.mp hi)]
    rfl

theorem create_systems_labelsOK (bimatrix : Bimatrix) (dim1 dim2 : ℕ) :
    LabelsOK dim1 dim2 (create_systems bimatrix dim1 dim2) := by
  refine ⟨create_systems_shape bimatrix dim1 dim2, _, create_systems_basis bimatrix dim1 dim2, ?_, ?_⟩
  · apply List.Nodup.map _ (List.nodup_range _)
    intro a b hab
    simp only at hab
    omega
  · intro z hz
    obtain ⟨i, hi, rfl⟩ := List.mem_map.mp hz
    have := List.mem_range.mp hi
    omega

theorem create_systems_basic_iff (bimatrix : Bimatrix) (dim1 dim2 : ℕ) (x : ℤ) :
    Basic dim1 dim2 (create_systems bimatrix dim1 dim2) x
      ↔ (-((dim1 : ℤ) + dim2) ≤ x ∧ x ≤ -1) := by
  unfold Basic
  rw [create_systems_basis, List.mem_map]
  constructor
  · rintro ⟨a, ha, hax⟩
    have hax' : a = x := by exact_mod_cast hax
    subst hax'
    obtain ⟨i, hi, rfl⟩ := List.mem_map.mp ha
    have := List.mem_range.mp hi
    omega
  · intro hx
    refine ⟨x, List.mem_map.mpr ⟨(-x - 1).toNat, List.mem_range.mpr (by omega), by omega⟩, rfl⟩

theorem create_systems_complementary (bimatrix : Bimatrix) (dim1 dim2 : ℕ) :
    Complementary dim1 dim2 (create_systems bimatrix dim1 dim2) := by
  intro l hl1 hln
  right
  rw [create_systems_basic_iff, create_systems_basic_iff]
  constructor <;> omega

/-- `get_pivot_gen` returns the complement of a basic label and the label
itself otherwise. -/
theorem get_pivot_gen_eq (dim1 dim2 : ℕ) (T : Tableaus) (s : ℤ) :
    get_pivot_gen T dim1 dim2 s = if Basic dim1 dim2 T s then -s else s := by
  unfold get_pivot_gen Basic basis row_labels
  by_cases h0 : (List.range dim1).any (fun i => decide (cell T.t0 i 0 = (s : ℚ))) = true
  · rw [if_pos h0]
    have : (s : ℚ) ∈ List.map (fun i => cell T.t0 i 0) (List.range dim1) ++
        List.map (fun i => cell T.t1 i 0) (List.range dim2) := by
      simp only [List.any_eq_true, decide_eq_true_eq] at h0
      obtain ⟨i, hi, he⟩ := h0
      exact List.mem_append_left _ (List.mem_map.mpr ⟨i, hi, he⟩)
    rw [if_pos this]
  · rw [if_neg h0]
    by_cases h1 : (List.range dim2).any (fun i => decide (cell T.t1 i 0 = (s : ℚ))) = true
    · rw [if_pos h1]
      have : (s : ℚ) ∈ List.map (fun i => cell T.t0 i 0) (List.range dim1) ++
          List.map (fun i => cell T.t1 i 0) (List.range dim2) := by
        simp only [List.any_eq_true, decide_eq_true_eq] at h1
        obtain ⟨i, hi, he⟩ := h1
        exact List.mem_append_right _ (List.mem_map.mpr ⟨i, hi, he⟩)
      rw [if_pos this]
    · rw [if_neg h1]
      have : ¬ (s : ℚ) ∈ List.map (fun i => cell T.t0 i 0) (List.range dim1) ++
          List.map (fun i => cell T.t1 i 0) (List.range dim2) := by
        intro hmem
        rcases List.mem_append.mp hmem with h | h
        · obtain ⟨i, hi, he⟩ := List.mem_map.mp h
          exact h0 (List.any_eq_true.mpr ⟨i, hi, by simpa using he⟩)
        · obtain ⟨i, hi, he⟩ := List.mem_map.mp h
          exact h1 (List.any_eq_true.mpr ⟨i, hi, by simpa using he⟩)
      rw [if_neg this]

theorem run_step (dim1 dim2 : ℕ) (s : ℤ) (T T' : Tableaus) (p q : ℤ)
    (hs : 1 ≤ s ∧ s ≤ (dim1 : ℤ) + dim2) (hinv : RunInv dim1 dim2 s T p)
    (h : pivot_step dim1 dim2 T p = .ok (T', q)) :
    LabelsOK dim1 dim2 T' ∧
    ((q = s ∨ q = -s) → Complementary dim1 dim2 T') ∧
    (¬ (q = s ∨ q = -s) →
      RunInv dim1 dim2 s T' (-q) ∧ AlmostComplementary dim1 dim2 T' s (-q)) := by
  obtain ⟨hok, hp, hcase⟩ := hinv
  have hpb : ¬ Basic dim1 dim2 T p := by
    rcases hcase with ⟨_, _, h3⟩ | ⟨_, _, h3, _⟩
    · exact h3
    · exact h3
  obtain ⟨hok', hq, M, hqM, hB, hB'⟩ := pivot_step_labels dim1 dim2 T T' p q hok hp hpb h
  have hpq : p ≠ q := by
    intro e
    apply hpb
    rw [hB]
    exact Or.inl e
  have hpM : ¬ M p := by
    intro hm
    apply hpb
    rw [hB]
    exact Or.inr hm
  have hnq : -q ≠ 0 ∧ -((dim1 : ℤ) + dim2) ≤ -q ∧ -q ≤ (dim1 : ℤ) + dim2 := by
    obtain ⟨h1, h2, h3⟩ := hq
    refine ⟨by omega, by omega, by omega⟩
  rcases hcase with ⟨hc, hps, _⟩ | ⟨a1, a2, a3, a4, a5⟩
  · have hc' : ∀ l : ℤ, 1 ≤ l → l ≤ (dim1 : ℤ) + dim2 →
        Xor' (l = q ∨ M l) (-l = q ∨ M (-l)) := by
      intro l h1 h2
      have := hc l h1 h2
      rwa [hB, hB] at this
    obtain ⟨r1, r2⟩ := compl_step ((dim1 : ℤ) + dim2) s p q M hs hq.1 hq.2 hps hqM hpq hpM hc'
    refine ⟨hok', ?_, ?_⟩
    · intro hqs l h1 h2
      rw [hB', hB']
      exact r1 hqs l h1 h2
    · intro hqs
      obtain ⟨b1, b2, b3, b4, b5⟩ := r2 hqs
      have halmost : AlmostComplementary dim1 dim2 T' s (-q) := by
        refine ⟨?_, ?_, ?_, ?_, ?_⟩
        · rw [hB']; exact b1
        · rw [hB']; exact b2
        · rw [hB']; exact b3
        · rw [hB']; exact b4
        · intro l h1 h2 h3 h4 h5
          rw [hB', hB']
          exact b5 l h1 h2 h3 h4 h5
      exact ⟨⟨hok', hnq, Or.inr halmost⟩, halmost⟩
  · rw [hB] at a1 a2 a3 a4
    have hc' : ∀ l : ℤ, 1 ≤ l → l ≤ (dim1 : ℤ) + dim2 → l ≠ s → l ≠ p → l ≠ -p →
        Xor' (l = q ∨ M l) (-l = q ∨ M (-l)) := by
      intro l h1 h2 h3 h4 h5
      have := a5 l h1 h2 h3 h4 h5
      rwa [hB, hB] at this
    obtain ⟨r1, r2⟩ := almost_step ((dim1 : ℤ) + dim2) s p q M hs hq.1 hq.2 hp.1 hqM
      a1 a2 a3 a4 hc'
    refine ⟨hok', ?_, ?_⟩
    · intro hqs l h1 h2
      rw [hB', hB']
      exact r1 hqs l h1 h2
    · intro hqs
      obtain ⟨b1, b2, b3, b4, b5⟩ := r2 hqs
      have halmost : AlmostComplementary dim1 dim2 T' s (-q) := by
        refine ⟨?_, ?_, ?_, ?_, ?_⟩
        · rw [hB']; exact b1
        · rw [hB']; exact b2
        · rw [hB']; exact b3
        · rw [hB']; exact b4
        · intro l h1 h2 h3 h4 h5
          rw [hB', hB']
          exact b5 l h1 h2 h3 h4 h5
      exact ⟨⟨hok', hnq, Or.inr halmost⟩, halmost⟩

theorem lh_config_inv (dim1 dim2 : ℕ) (s : ℤ) (hs : 1 ≤ s ∧ s ≤ (dim1 : ℤ) + dim2) :
    ∀ (k : ℕ) (T : Tableaus) (p : ℤ) (T' : Tableaus) (p' : ℤ),
      RunInv dim1 dim2 s T p → lh_config dim1 dim2 s k T p = some (T', p') →
      RunInv dim1 dim2 s T' p' ∧ (0 < k → AlmostComplementary dim1 dim2 T' s p') := by
  intro k
  induction k with
  | zero =>
    intro T p T' p' hinv h
    simp only [lh_config, Option.some.injEq, Prod.mk.injEq] at h
    obtain ⟨rfl, rfl⟩ := h
    exact ⟨hinv, fun h0 => absurd h0 (lt_irrefl 0)⟩
  | succ k ih =>
    intro T p T' p' hinv h
    simp only [lh_config] at h
    cases hstep : pivot_step dim1 dim2 T p with
    | error e => rw [hstep] at h; cases h
    | ok r =>
      obtain ⟨T₁, q⟩ := r
      rw [hstep] at h
      simp only at h
      obtain ⟨_, _, hgo⟩ := run_step dim1 dim2 s T T₁ p q hs hinv hstep
      by_cases hqs : q = s ∨ q = -s
      · rw [if_pos hqs] at h; cases h
      · rw [if_neg hqs] at h
        obtain ⟨hinv₁, halm⟩ := hgo hqs
        obtain ⟨r1, r2⟩ := ih T₁ (-q) T' p' hinv₁ h
        refine ⟨r1, fun _ => ?_⟩
        by_cases hk : 0 < k
        · exact r2 hk
        · have hk0 : k = 0 := by omega
          subst hk0
          simp only [lh_config, Option.some.injEq, Prod.mk.injEq] at h
          obtain ⟨rfl, rfl⟩ := h
          exact halm

theorem lh_loop_final (dim1 dim2 : ℕ) (s : ℤ) (hs : 1 ≤ s ∧ s ≤ (dim1 : ℤ) + dim2) :
    ∀ (fuel : ℕ) (T : Tableaus) (p steps : ℤ) (T' : Tableaus) (steps' : ℤ),
      RunInv dim1 dim2 s T p → lh_loop dim1 dim2 s fuel T p steps = .ok (T', steps') →
      LabelsOK dim1 dim2 T' ∧ Complementary dim1 dim2 T' := by
  intro fuel
  induction fuel with
  | zero => intro T p steps T' steps' _ h; simp [lh_loop] at h
  | succ fuel ih =>
    intro T p steps T' steps' hinv h
    simp only [lh_loop] at h
    cases hstep : pivot_step dim1 dim2 T p with
    | error e => rw [hstep] at h; cases h
    | ok r =>
      obtain ⟨T₁, q⟩ := r
      rw [hstep] at h
      simp only at h
      obtain ⟨hok₁, hstop, hgo⟩ := run_step dim1 dim2 s T T₁ p q hs hinv hstep
      by_cases hqs : q = s ∨ q = -s
      · rw [if_pos hqs] at h
        simp only [Except.ok.injEq, Prod.mk.injEq] at h
        obtain ⟨rfl, _⟩ := h
        exact ⟨hok₁, hstop hqs⟩
      · rw [if_neg hqs] at h
        exact ih T₁ (-q) (steps + 1) T' steps' (hgo hqs).1 h

theorem runInv_initial (bimatrix : Bimatrix) (dim1 dim2 : ℕ) (s : ℤ)
    (hs : 1 ≤ s ∧ s ≤ (dim1 : ℤ) + dim2) :
    RunInv dim1 dim2 s (create_systems bimatrix dim1 dim2)
      (get_pivot_gen (create_systems bimatrix dim1 dim2) dim1 dim2 s) := by
  have hnb : ¬ Basic dim1 dim2 (create_systems bimatrix dim1 dim2) s := by
    rw [create_systems_basic_iff]; omega
  rw [get_pivot_gen_eq, if_neg hnb]
  exact ⟨create_systems_labelsOK bimatrix dim1 dim2, ⟨by omega, by omega, by omega⟩,
    Or.inl ⟨create_systems_complementary bimatrix dim1 dim2, Or.inl rfl, hnb⟩⟩

theorem lh_loop_mono (dim1 dim2 : ℕ) (s : ℤ) :
    ∀ (fuel : ℕ) (T : Tableaus) (p steps : ℤ) (x : Except Fault (Tableaus × ℤ)),
      lh_loop dim1 dim2 s fuel T p steps = x → x ≠ .error .fuel →
      ∀ k, lh_loop dim1 dim2 s (fuel + k) T p steps = x := by
  intro fuel
  induction fuel with
  | zero =>
    intro T p steps x h hx
    simp only [lh_loop] at h
    exact absurd h.symm hx
  | succ fuel ih =>
    intro T p steps x h hx k
    rw [Nat.add_right_comm]
    simp only [lh_loop] at h ⊢
    cases hstep : pivot_step dim1 dim2 T p with
    | error e => rw [hstep] at h; exact h
    | ok r =>
      obtain ⟨T₁, q⟩ := r
      rw [hstep] at h
      simp only at h ⊢
      by_cases hqs : q = s ∨ q = -s
      · rw [if_pos hqs] at h ⊢; exact h
      · rw [if_neg hqs] at h ⊢
        exact ih T₁ (-q) (steps + 1) x h hx k

theorem lemke_howson_gen_mono (fuel : ℕ) (T : Tableaus) (dim1 dim2 : ℕ) (s : ℤ)
    (x : Except Fault LHResult) (h : lemke_howson_gen fuel T dim1 dim2 s = x)
    (hx : x ≠ .error .fuel) (k : ℕ) : lemke_howson_gen (fuel + k) T dim1 dim2 s = x := by
  unfold lemke_howson_gen at h ⊢
  cases hl : lh_loop dim1 dim2 s fuel T (get_pivot_gen T dim1 dim2 s) 0 with
  | error e =>
    rw [hl] at h
    have he : (Except.error e : Except Fault (Tableaus × ℤ)) ≠ .error .fuel := by
      intro h'
      simp only [Except.error.injEq] at h'
      subst h'
      exact hx h.symm
    rw [lh_loop_mono dim1 dim2 s fuel T _ 0 _ hl he k]
    exact h
  | ok r =>
    rw [hl] at h
    rw [lh_loop_mono dim1 dim2 s fuel T _ 0 _ hl (by simp) k]
    exact h

theorem lemke_howson_gen_unique (f₁ f₂ : ℕ) (T : Tableaus) (dim1 dim2 : ℕ) (s : ℤ)
    (r₁ r₂ : LHResult) (h₁ : lemke_howson_gen f₁ T dim1 dim2 s = .ok r₁)
    (h₂ : lemke_howson_gen f₂ T dim1 dim2 s = .ok r₂) : r₁ = r₂ := by
  have e₁ := lemke_howson_gen_mono f₁ T dim1 dim2 s _ h₁ (by simp) f₂
  have e₂ := lemke_howson_gen_mono f₂ T dim1 dim2 s _ h₂ (by simp) f₁
  rw [Nat.add_comm] at e₂
  rw [e₁] at e₂
  simpa using e₂

/-- C1, at a failing input.  For the 1x2 game A = [[1, 1]], B = [[5e20, 1e21]]
(all payoffs positive) and start label 1 the run ends after two steps and
returns x = (1), y = (1, 0), which is not a Nash equilibrium: the second
column pays 1e21 against x, more than the 5e20 of y. -/
theorem lh_large_payoffs_not_nash :
    (∀ row ∈ game_large, ∀ v ∈ row, (0 : ℚ) < v) ∧
    lemke_howson_gen 2 (create_systems game_large 1 2) 1 2 1
      = .ok { eq := [(1, 1), (2, 1)],
              tableaus := { t0 := [[2, 1, -1, 0, -1]],
                            t1 := [[1, 1 / (5 * 10 ^ 20), -1 / (5 * 10 ^ 20), 0, 0],
                                   [-3, -1, 2, 0, 0]] },
              steps := 2 } ∧
    ¬ IsNash game_large 1 2 [(1, 1), (2, 1)] ∧
    col_payoff game_large 1 [(1, 1), (2, 1)] 1 = 10 ^ 21 ∧
    sumTo 2 (fun k => col_payoff game_large 1 [(1, 1), (2, 1)] k
      * strategy_y 1 [(1, 1), (2, 1)] k) = 5 * 10 ^ 20 := by
  decide!

/-- C2, at a failing input.  For the 2x3 game A = [[2, 1, 1], [1, 2, 1]],
B = [[2, 1, 3], [1, 1, 1]] (all payoffs positive) and start label 2, the first
run from the initial tableau pair ends after 5 steps and the second run ends
after 4 steps in the basis of another equilibrium: the label cell of row 0 of
the first tableau holds 3, where the initial tableau pair holds -1. -/
theorem lh_twice_not_restored :
    (∀ row ∈ game_degenerate, ∀ v ∈ row, (0 : ℚ) < v) ∧
    lh_twice 5 (create_systems game_degenerate 2 3) 2 3 2
      = .ok { t0 := [[3, 1 / 3, -2 / 3, 1 / 3, 0, 0, -1 / 3],
                     [4, 1 / 3, 1 / 3, -2 / 3, 0, 0, -1 / 3]],
              t1 := [[2, 1, 1, -2, 0, 0, 0], [-5, 0, 2, -1, 0, 0, 0], [1, 0, -1, 1, 0, 0, 0]] } ∧
    create_systems game_degenerate 2 3
      = { t0 := [[-1, 1, 0, 0, -2, -1, -1], [-2, 1, 0, 0, -1, -2, -1]],
          t1 := [[-3, 1, 0, 0, 0, -2, -1], [-4, 1, 0, 0, 0, -1, -1], [-5, 1, 0, 0, 0, -3, -1]] } ∧
    eps < (3 : ℚ) - (-1) := by
  decide!

/-- C3 as stated fails: no run of the 1x1 game A = [[1]], B = [[1]] from label
1 ends with step count 1. -/
theorem lh_one_by_one_not_one_step :
    ¬ ∃ fuel r, lemke_howson_gen fuel (create_systems game_one 1 1) 1 1 1 = .ok r ∧
      r.steps = 1 := by
  rintro ⟨fuel, r, h, hsteps⟩
  have h2 : lemke_howson_gen 2 (create_systems game_one 1 1) 1 1 1
      = .ok { eq := [(1, 1), (2, 1)],
              tableaus := { t0 := [[2, 1, -1, 0]], t1 := [[1, 1, -1, 0]] }, steps := 2 } := by
    decide!
  have := lemke_howson_gen_unique fuel 2 _ 1 1 1 _ _ h h2
  rw [this] at hsteps
  exact absurd hsteps (by decide)

/-- C3, amended.  For the 1x1 game A = [[1]], B = [[1]] the run from label 1
has not ended after one pivot step, and it ends after exactly 2 pivot steps
(step count 2) with the equilibrium [(1, 1), (2, 1)]. -/
theorem lh_one_by_one_two_steps :
    lemke_howson_gen 1 (create_systems game_one 1 1) 1 1 1 = .error .fuel ∧
    ∀ fuel, lemke_howson_gen (2 + fuel) (create_systems game_one 1 1) 1 1 1
      = .ok { eq := [(1, 1), (2, 1)],
              tableaus := { t0 := [[2, 1, -1, 0]], t1 := [[1, 1, -1, 0]] }, steps := 2 } := by
  refine ⟨by decide!, fun fuel => ?_⟩
  exact lemke_howson_gen_mono 2 _ 1 1 1 _ (by decide!) (by simp) fuel

/-- C5.  If `all_lemke_gen`, called with taboo = -1 and an empty list, returns,
the returned list is strictly ascending in the lexicographic order on label
sequences, no two of its equilibria have the same label sequence, and it
contains no artificial (empty) equilibrium. -/
theorem all_lemke_gen_ascending (lhfuel dim1 dim2 depth : ℕ) (T : Tableaus)
    (r : Tableaus × Eqlist)
    (h : all_lemke_gen lhfuel dim1 dim2 depth T (-1) [] = .ok r) :
    r.2.Pairwise (fun a b => List.Lex (· < ·) (labels a) (labels b)) ∧
    r.2.Pairwise (fun a b => labels a ≠ labels b) ∧
    ∀ e ∈ r.2, is_artificial e = false := by
  have hgood : GoodList r.2 :=
    all_lemke_gen_good lhfuel dim1 dim2 depth T (-1) [] r
      ⟨List.chain'_nil, fun e he => absurd he (List.not_mem_nil e)⟩ h
  have hpw := ascending_pairwise r.2 hgood.1
  refine ⟨hpw.imp (fun hab => (lex_comp_neg_iff _ _).mp hab),
    hpw.imp (fun hab => lex_comp_neg_not_eq hab), ?_⟩
  · intro e he
    have := hgood.2 e he
    cases e with
    | nil => exact absurd rfl this
    | cons a l => rfl

/-- The enumeration theorem applied to the 2x2 game A = [[2, 1], [1, 2]],
B = [[2, 1], [1, 2]] returns three equilibria. -/
theorem all_lemke_gen_ascending_witness :
    all_lemke_gen 10 2 2 4 (create_systems game_coord 2 2) (-1) []
      = .ok (({ t0 := [[-1, 1, 0, 0, -2, -1], [-2, 1, 0, 0, -1, -2]],
                t1 := [[-3, 1, 0, 0, -2, -1], [-4, 1, 0, 0, -1, -2]] } : Tableaus),
          [[(1, 1 / 2), (2, 1 / 2), (3, 1 / 2), (4, 1 / 2)], [(1, 1), (3, 1)],
            [(2, 1), (4, 1)]]) ∧
    ([[(1, 1 / 2), (2, 1 / 2), (3, 1 / 2), (4, 1 / 2)], [(1, 1), (3, 1)],
        [(2, 1), (4, 1)]] : Eqlist).Pairwise
      (fun a b => List.Lex (· < ·) (labels a) (labels b)) :=
  ⟨by decide!,
    (all_lemke_gen_ascending 10 2 2 4 (create_systems game_coord 2 2)
      (({ t0 := [[-1, 1, 0, 0, -2, -1], [-2, 1, 0, 0, -1, -2]],
          t1 := [[-3, 1, 0, 0, -2, -1], [-4, 1, 0, 0, -1, -2]] } : Tableaus),
        [[(1, 1 / 2), (2, 1 / 2), (3, 1 / 2), (4, 1 / 2)], [(1, 1), (3, 1)],
          [(2, 1), (4, 1)]]) (by decide!)).1⟩

/-- C6.  On a list that is strictly ascending under `lex_comp`,
`search_add_equilibrium` sets found = 1 exactly when the list holds an element
with the label sequence of `eq`, and found = 0 otherwise. -/
theorem search_add_found_iff (list : Eqlist) (eq : Equilibrium) (ha : Ascending list) :
    ((search_add_equilibrium list eq).2 = true ↔ ∃ e ∈ list, labels e = labels eq) ∧
    ((search_add_equilibrium list eq).2 = false ↔ ¬ ∃ e ∈ list, labels e = labels eq) := by
  rw [search_add_eq_store_insert]
  have h := store_insert_found_iff eq list ha
  refine ⟨h, ?_⟩
  rw [← h]
  simp

/-- The search theorem applied to `store_two`: an equilibrium with a stored support and other
probabilities is found. -/
theorem search_add_found_iff_witness :
    Ascending store_two ∧ (search_add_equilibrium store_two [(2, 1 / 3), (3, 2 / 3)]).2 = true ∧
    ∃ e ∈ store_two, labels e = labels [(2, 1 / 3), (3, 2 / 3)] :=
  have ha : Ascending store_two := List.chain'_cons.mpr ⟨by decide, List.chain'_singleton _⟩
  ⟨ha, by decide,
    (search_add_found_iff store_two [(2, 1 / 3), (3, 2 / 3)] ha).1.mp (by decide)⟩

/-- C7.  On a list that is strictly ascending under `lex_comp`, when
`search_add_equilibrium` reports found = 0 the returned list is again strictly
ascending and is the old list with `eq` inserted at one place. -/
theorem search_add_new_ascending (list : Eqlist) (eq : Equilibrium) (ha : Ascending list)
    (hf : (search_add_equilibrium list eq).2 = false) :
    Ascending (search_add_equilibrium list eq).1 ∧
    ∃ l₁ l₂, list = l₁ ++ l₂ ∧ (search_add_equilibrium list eq).1 = l₁ ++ eq :: l₂ := by
  rw [search_add_eq_store_insert] at hf ⊢
  exact ⟨store_insert_ascending eq list ha hf, store_insert_new_split eq list hf⟩

/-- The insertion theorem applied to `store_two`: a new support is inserted
between the two stored ones. -/
theorem search_add_new_ascending_witness :
    Ascending store_two ∧ (search_add_equilibrium store_two [(1, 1), (4, 1)]).2 = false ∧
    (search_add_equilibrium store_two [(1, 1), (4, 1)]).1
      = [[(1, 1 / 2), (3, 1 / 2)], [(1, 1), (4, 1)], [(2, 1), (3, 1)]] ∧
    Ascending (search_add_equilibrium store_two [(1, 1), (4, 1)]).1 :=
  have ha : Ascending store_two := List.chain'_cons.mpr ⟨by decide, List.chain'_singleton _⟩
  ⟨ha, by decide, by decide!,
    (search_add_new_ascending store_two [(1, 1), (4, 1)] ha (by decide)).1⟩

/-- C8.  On a list that is strictly ascending under `lex_comp`, when the label
sequence of `eq` equals that of a stored element, `search_add_equilibrium`
returns the list unchanged, each stored element with its own probabilities,
and reports found = 1. -/
theorem search_add_dup_unchanged (list : Eqlist) (eq : Equilibrium) (ha : Ascending list)
    (hdup : ∃ e ∈ list, labels e = labels eq) :
    search_add_equilibrium list eq = (list, true) := by
  have hf : (search_add_equilibrium list eq).2 = true := by
    rw [search_add_eq_store_insert]
    exact (store_insert_found_iff eq list ha).mpr hdup
  have hl : (search_add_equilibrium list eq).1 = list := by
    rw [search_add_eq_store_insert] at hf ⊢
    exact store_insert_found_same eq list hf
  exact Prod.ext hl hf

/-- The duplicate theorem applied to `store_two`: the stored equilibrium keeps
the probabilities (1, 1). -/
theorem search_add_dup_unchanged_witness :
    Ascending store_two ∧ (∃ e ∈ store_two, labels e = labels [(2, 1 / 3), (3, 2 / 3)]) ∧
    search_add_equilibrium store_two [(2, 1 / 3), (3, 2 / 3)]
      = ([[(1, 1 / 2), (3, 1 / 2)], [(2, 1), (3, 1)]], true) :=
  have ha : Ascending store_two := List.chain'_cons.mpr ⟨by decide, List.chain'_singleton _⟩
  have hd : ∃ e ∈ store_two, labels e = labels [(2, 1 / 3), (3, 2 / 3)] :=
    ⟨[(2, 1), (3, 1)], by decide, by decide⟩
  ⟨ha, hd, search_add_dup_unchanged store_two [(2, 1 / 3), (3, 2 / 3)] ha hd⟩

/-- C9 as stated fails between two pivot steps: in the run of the 1x1 game
A = [[1]], B = [[1]] from label 1, after the first pivot step the labels 1 and
-1 are both basic and neither 2 nor -2 is. -/
theorem lh_complementarity_breaks :
    lh_config 1 1 1 1 (create_systems game_one 1 1)
        (get_pivot_gen (create_systems game_one 1 1) 1 1 1)
      = some ({ t0 := [[-1, 1, 0, -1]], t1 := [[1, 1, -1, 0]] }, 2) ∧
    ¬ Complementary 1 1 { t0 := [[-1, 1, 0, -1]], t1 := [[1, 1, -1, 0]] } := by
  refine ⟨by decide!, fun h => ?_⟩
  rcases h 2 (by decide) (by decide) with ⟨h1, _⟩ | ⟨h1, _⟩
  · exact absurd h1 (by decide!)
  · exact absurd h1 (by decide!)

/-- C9, amended.  In a run of `lemke_howson_gen` from the tableau pair of
`create_systems` with a start label s in [1, dim1+dim2]: before the first pivot
step and after the last one, for every l in 1..dim1+dim2 exactly one of l and
-l is basic; between two consecutive pivot steps, with p the label that enters
next, s and -s are both basic, neither p nor -p is basic, and for every other
l in 1..dim1+dim2 exactly one of l and -l is basic. -/
theorem lh_almost_complementary_run (bimatrix : Bimatrix) (dim1 dim2 : ℕ) (s : ℤ)
    (hs : 1 ≤ s ∧ s ≤ (dim1 : ℤ) + dim2) :
    Complementary dim1 dim2 (create_systems bimatrix dim1 dim2) ∧
    (∀ k T p, lh_config dim1 dim2 s (k + 1) (create_systems bimatrix dim1 dim2)
        (get_pivot_gen (create_systems bimatrix dim1 dim2) dim1 dim2 s) = some (T, p) →
      AlmostComplementary dim1 dim2 T s p) ∧
    (∀ fuel r, lemke_howson_gen fuel (create_systems bimatrix dim1 dim2) dim1 dim2 s = .ok r →
      Complementary dim1 dim2 r.tableaus) := by
  have hinit := runInv_initial bimatrix dim1 dim2 s hs
  refine ⟨create_systems_complementary bimatrix dim1 dim2, ?_, ?_⟩
  · intro k T p h
    exact (lh_config_inv dim1 dim2 s hs (k + 1) _ _ T p hinit h).2 (Nat.succ_pos k)
  · intro fuel r h
    unfold lemke_howson_gen at h
    cases hl : lh_loop dim1 dim2 s fuel (create_systems bimatrix dim1 dim2)
        (get_pivot_gen (create_systems bimatrix dim1 dim2) dim1 dim2 s) 0 with
    | error e => rw [hl] at h; cases h
    | ok x =>
      obtain ⟨T', steps'⟩ := x
      rw [hl] at h
      simp only [Except.ok.injEq] at h
      rw [← h]
      exact (lh_loop_final dim1 dim2 s hs fuel _ _ 0 T' steps' hinit hl).2

/-- The complementarity theorem applied to the run of the 1x1 game from label 1, between its
two pivot steps and at its end. -/
theorem lh_almost_complementary_run_witness :
    (1 ≤ (1 : ℤ) ∧ (1 : ℤ) ≤ ((1 : ℕ) : ℤ) + (1 : ℕ)) ∧
    AlmostComplementary 1 1 { t0 := [[-1, 1, 0, -1]], t1 := [[1, 1, -1, 0]] } 1 2 ∧
    Complementary 1 1 { t0 := [[2, 1, -1, 0]], t1 := [[1, 1, -1, 0]] } :=
  ⟨by decide,
    (lh_almost_complementary_run game_one 1 1 1 (by decide)).2.1 0
      { t0 := [[-1, 1, 0, -1]], t1 := [[1, 1, -1, 0]] } 2 (by decide!),
    (lh_almost_complementary_run game_one 1 1 1 (by decide)).2.2 2
      { eq := [(1, 1), (2, 1)], tableaus := { t0 := [[2, 1, -1, 0]], t1 := [[1, 1, -1, 0]] },
        steps := 2 } (by decide!)⟩

/-- C10, at a failing input.  For the 2x2 game A = [[1, 1], [2, 1]],
B = [[1e21, 5e20], [4, 1]] (all payoffs at least 1) and start label 1, the
third pivot step finds no eligible row and the assertion `updated != 0`
fails: the entering column holds -4e-21, which is above -eps, and 1. -/
theorem lh_assertion_reached :
    (∀ row ∈ game_abort, ∀ v ∈ row, (1 : ℚ) ≤ v) ∧
    lh_config 2 2 1 2 (create_systems game_abort 2 2)
        (get_pivot_gen (create_systems game_abort 2 2) 2 2 1)
      = some ({ t0 := [[-1, 1 / 2, 0, 1 / 2, 0, -1 / 2], [3, 1 / 2, 0, -1 / 2, 0, -1 / 2]],
                t1 := [[1, 1 / 10 ^ 21, -1 / 10 ^ 21, 0, 0, -4 / 10 ^ 21],
                       [-4, 1 / 2, 1 / 2, 0, 0, 1]] }, 2) ∧
    (∀ fuel, lemke_howson_gen (3 + fuel) (create_systems game_abort 2 2) 2 2 1
      = .error .assertion) := by
  refine ⟨by decide!, by decide!, fun fuel => ?_⟩
  exact lemke_howson_gen_mono 3 _ 2 2 1 _ (by decide!) (by simp) fuel

/-! ## Cell-wise description of the update loops -/

theorem sameDims_refl (t : Tableau) : SameDims t t := ⟨rfl, fun _ => rfl⟩

theorem sameDims_trans {t u w : Tableau} (h1 : SameDims t u) (h2 : SameDims u w) :
    SameDims t w :=
  ⟨h2.1.trans h1.1, fun i => (h2.2 i).trans (h1.2 i)⟩

theorem sameDims_setCell (t : Tableau) (i j : ℕ) (v : ℚ) : SameDims t (setCell t i j v) :=
  ⟨length_setCell t i j v, row_length_setCell t i j v⟩

theorem rect_of_sameDims {t t' : Tableau} {n m : ℕ} (h : SameDims t t') (hr : Rect t n m) :
    Rect t' n m :=
  ⟨h.1.trans hr.1, fun i hi => (h.2 i).trans (hr.2 i hi)⟩

/-- A loop `for (j = a; j < a + len; j++) t[i][j] = F(t, j)` over one row: when
`F` at step `j` yields `G j` on every state that still holds the old cells
outside the cells already written and `G` in those, the loop writes `G j` to
the cells `a..a+len-1` of row `i` and changes nothing else. -/
theorem foldl_setCell_row (t : Tableau) (i a : ℕ) (F : Tableau → ℕ → ℚ) (G : ℕ → ℚ)
    (hi : i < t.length) :
    ∀ len, a + len ≤ (t.getD i []).length →
      (∀ u j, a ≤ j → j < a + len →
        (∀ i' j', (i' ≠ i ∨ j ≤ j' ∨ j' < a) → cell u i' j' = cell t i' j') →
        (∀ j', a ≤ j' → j' < j → cell u i j' = G j') → F u j = G j) →
      SameDims t ((List.range' a len).foldl (fun u j => setCell u i j (F u j)) t) ∧
      ∀ i' j', cell ((List.range' a len).foldl (fun u j => setCell u i j (F u j)) t) i' j'
        = if i' = i ∧ a ≤ j' ∧ j' < a + len then G j' else cell t i' j' := by
  intro len
  induction len with
  | zero =>
    intro _ _
    refine ⟨sameDims_refl t, fun i' j' => ?_⟩
    have : ¬ (i' = i ∧ a ≤ j' ∧ j' < a + 0) := by omega
    simp only [List.range'_zero, List.foldl_nil]
    rw [if_neg this]
  | succ len ih =>
    intro hm hF
    obtain ⟨hd, hc⟩ := ih (by omega) (fun u j h1 h2 => hF u j h1 (by omega))
    rw [List.range'_1_concat, List.foldl_append]
    simp only [List.foldl_cons, List.foldl_nil]
    set u := (List.range' a len).foldl (fun u j => setCell u i j (F u j)) t with hu
    have hFu : F u (a + len) = G (a + len) := by
      apply hF u (a + len) (by omega) (by omega)
      · intro i' j' h
        rw [hc]
        have : ¬ (i' = i ∧ a ≤ j' ∧ j' < a + len) := by
          rintro ⟨h1, h2, h3⟩
          rcases h with h | h | h <;> omega
        rw [if_neg this]
      · intro j' h1 h2
        rw [hc]
        rw [if_pos ⟨rfl, h1, h2⟩]
    refine ⟨sameDims_trans hd (sameDims_setCell _ _ _ _), fun i' j' => ?_⟩
    rw [cell_setCell, hFu, hc]
    have hlen : i < u.length := by rw [hd.1]; exact hi
    have hrow : a + len < (u.getD i []).length := by rw [hd.2 i]; omega
    by_cases h1 : i' = i ∧ j' = a + len
    · obtain ⟨rfl, rfl⟩ := h1
      rw [if_pos ⟨rfl, rfl, hlen, hrow⟩, if_pos ⟨rfl, by omega, by omega⟩]
    · have hn : ¬ (i' = i ∧ j' = a + len ∧ i < u.length ∧ a + len < (u.getD i []).length) :=
        fun h => h1 ⟨h.1, h.2.1⟩
      rw [if_neg hn]
      by_cases h2 : i' = i ∧ a ≤ j' ∧ j' < a + len
      · rw [if_pos h2, if_pos ⟨h2.1, h2.2.1, by omega⟩]
      · rw [if_neg h2]
        have : ¬ (i' = i ∧ a ≤ j' ∧ j' < a + (len + 1)) := by
          rintro ⟨e1, e2, e3⟩
          by_cases e4 : j' = a + len
          · exact h1 ⟨e1, e4⟩
          · exact h2 ⟨e1, e2, by omega⟩
        rw [if_neg this]

/-- A loop over the rows `0..n-1` whose step `i` rewrites row `i` to `R i`,
on every state that still holds the old rows from `i` on and `R` in the rows
before, and keeps the other rows: the loop rewrites every row `i < n` to
`R i` and changes nothing else. -/
theorem foldl_rows (t : Tableau) (step : Tableau → ℕ → Tableau) (R : ℕ → ℕ → ℚ) :
    ∀ n, (∀ u i, i < n → SameDims t u →
        (∀ i' j', i ≤ i' → cell u i' j' = cell t i' j') →
        (∀ i' j', i' < i → cell u i' j' = R i' j') →
        SameDims t (step u i) ∧
          ∀ i' j', cell (step u i) i' j' = if i' = i then R i j' else cell u i' j') →
      SameDims t ((List.range n).foldl step t) ∧
      ∀ i' j', cell ((List.range n).foldl step t) i' j'
        = if i' < n then R i' j' else cell t i' j' := by
  intro n
  induction n with
  | zero =>
    intro _
    exact ⟨sameDims_refl t, fun i' j' => by simp⟩
  | succ n ih =>
    intro hstep
    obtain ⟨hd, hc⟩ := ih (fun u i hi => hstep u i (by omega))
    rw [List.range_succ, List.foldl_append]
    simp only [List.foldl_cons, List.foldl_nil]
    obtain ⟨hd', hc'⟩ := hstep _ n (by omega) hd
      (fun i' j' h => by rw [hc]; exact if_neg (by omega))
      (fun i' j' h => by rw [hc]; exact if_pos h)
    refine ⟨hd', fun i' j' => ?_⟩
    rw [hc', hc]
    by_cases h1 : i' = n
    · subst h1; simp
    · by_cases h2 : i' < n
      · rw [if_neg h1, if_pos h2, if_pos (by omega)]
      · rw [if_neg h1, if_neg h2, if_neg (by omega)]

theorem eps_pos : 0 < eps := by
  unfold eps
  positivity

/-- The cells of the tableau after the update of the chosen row (lines
106-116): row `index` holds the entering label, `0` in the entering column and
its other cells, with `-1` written to the column of the leaving label, divided
by `coeff`; the other rows are untouched. -/
theorem pivot_row_cells (dim1 dim2 : ℕ) (t : Tableau) (n index column : ℕ) (pivot newpivot : ℤ)
    (hr : Rect t n (dim1 + dim2 + 2)) (hi : index < n) (hc1 : 1 ≤ column)
    (hc2 : column < dim1 + dim2 + 2) :
    SameDims t (pivot_row dim1 dim2 t index column pivot newpivot) ∧
    ∀ i' j', cell (pivot_row dim1 dim2 t index column pivot newpivot) i' j'
      = if i' = index then
          (if j' = column then 0
           else if j' = 0 then (pivot : ℚ)
           else if j' < dim1 + dim2 + 2 then
             (if j' = (get_column dim1 dim2 newpivot).toNat then -1 else cell t index j')
               / -(if column = (get_column dim1 dim2 newpivot).toNat then -1
                    else cell t index column)
           else cell t index j')
        else cell t i' j' := by
  unfold pivot_row
  set cL := (get_column dim1 dim2 newpivot).toNat with hcL
  set ta := setCell t index cL (-1) with hta
  set tb := setCell ta index 0 (pivot : ℚ) with htb
  have hda : SameDims t ta := sameDims_setCell _ _ _ _
  have hdb : SameDims t tb := sameDims_trans hda (sameDims_setCell _ _ _ _)
  have hlen : index < t.length := by rw [hr.1]; exact hi
  have hrow : (t.getD index []).length = dim1 + dim2 + 2 := hr.2 index hi
  -- the cells of `tb`
  have hb : ∀ i' j', cell tb i' j'
      = if i' = index then
          (if j' = 0 then (pivot : ℚ)
           else if j' = cL ∧ cL < dim1 + dim2 + 2 then -1 else cell t index j')
        else cell t i' j' := by
    intro i' j'
    rw [htb, cell_setCell, hta, cell_setCell, length_setCell, row_length_setCell, hrow]
    by_cases h1 : i' = index
    · subst h1
      by_cases h2 : j' = 0
      · subst h2
        simp [hlen]
      · have : ¬ (i' = i' ∧ j' = 0 ∧ i' < t.length ∧ 0 < dim1 + dim2 + 2) := fun h => h2 h.2.1
        rw [if_neg this, if_pos rfl, if_neg h2]
        by_cases h3 : j' = cL ∧ cL < dim1 + dim2 + 2
        · rw [if_pos h3, if_pos ⟨rfl, h3.1, hlen, h3.2⟩]
        · rw [if_neg h3]
          have : ¬ (i' = i' ∧ j' = cL ∧ i' < t.length ∧ cL < dim1 + dim2 + 2) :=
            fun h => h3 ⟨h.2.1, h.2.2.2⟩
          rw [if_neg this]
    · have e1 : ¬ (i' = index ∧ j' = 0 ∧ index < t.length ∧ 0 < dim1 + dim2 + 2) :=
        fun h => h1 h.1
      have e2 : ¬ (i' = index ∧ j' = cL ∧ index < t.length ∧ cL < dim1 + dim2 + 2) :=
        fun h => h1 h.1
      rw [if_neg e1, if_neg e2, if_neg h1]
  -- the division loop
  obtain ⟨hdc, hcc⟩ := foldl_setCell_row tb index 1
    (fun u i => cell u index i / -(cell tb index column))
    (fun j => cell tb index j / -(cell tb index column))
    (by rw [hdb.1]; exact hlen) (dim1 + dim2 + 1)
    (by rw [hdb.2 index, hrow]; omega)
    (fun u j _ _ h1 _ => by
      show cell u index j / -(cell tb index column) = cell tb index j / -(cell tb index column)
      rw [h1 index j (Or.inr (Or.inl (le_refl j)))])
  refine ⟨sameDims_trans (sameDims_trans hdb hdc) (sameDims_setCell _ _ _ _), fun i' j' => ?_⟩
  rw [cell_setCell, hcc, hdc.1, hdc.2 index, hdb.1, hdb.2 index, hrow]
  have hbc : cell tb index column = if column = cL then -1 else cell t index column := by
    rw [hb, if_pos rfl, if_neg (by omega)]
    by_cases h : column = cL
    · rw [if_pos ⟨h, by omega⟩, if_pos h]
    · rw [if_neg (fun h' => h h'.1), if_neg h]
  by_cases h1 : i' = index
  · subst h1
    rw [if_pos rfl]
    by_cases h2 : j' = column
    · subst h2
      rw [if_pos ⟨rfl, rfl, hlen, hc2⟩, if_pos rfl]
    · have : ¬ (i' = i' ∧ j' = column ∧ i' < t.length ∧ column < dim1 + dim2 + 2) :=
        fun h => h2 h.2.1
      rw [if_neg this, if_neg h2]
      by_cases h3 : j' = 0
      · subst h3
        have : ¬ (i' = i' ∧ 1 ≤ 0 ∧ 0 < 1 + (dim1 + dim2 + 1)) := by omega
        rw [if_neg this, if_pos rfl, hb, if_pos rfl, if_pos rfl]
      · rw [if_neg h3]
        by_cases h4 : j' < dim1 + dim2 + 2
        · rw [if_pos ⟨rfl, by omega, by omega⟩, if_pos h4, hbc, hb, if_pos rfl, if_neg h3]
          by_cases h5 : j' = cL
          · rw [if_pos ⟨h5, by omega⟩, if_pos h5]
          · rw [if_neg (fun h' => h5 h'.1), if_neg h5]
        · have : ¬ (i' = i' ∧ 1 ≤ j' ∧ j' < 1 + (dim1 + dim2 + 1)) := by omega
          rw [if_neg this, if_neg h4, hb, if_pos rfl, if_neg h3]
          have : ¬ (j' = cL ∧ cL < dim1 + dim2 + 2) := by omega
          rw [if_neg this]
  · have e1 : ¬ (i' = index ∧ j' = column ∧ index < t.length ∧ column < dim1 + dim2 + 2) :=
      fun h => h1 h.1
    have e2 : ¬ (i' = index ∧ 1 ≤ j' ∧ j' < 1 + (dim1 + dim2 + 1)) := fun h => h1 h.1
    rw [if_neg e1, if_neg e2, if_neg h1, hb, if_neg h1]

/-- The cells after the update of row `i` from the pivoted row `index`
(lines 126-134), when the pivoted row holds `0` in the entering column: a row
with a coefficient beyond `eps` gets `0` in the entering column and
`t[i][j] + t[i][column] * t[index][j]` in its other cells; nothing else
changes. -/
theorem eliminate_row_cells (dim1 dim2 index column : ℕ) (u : Tableau) (i : ℕ)
    (hi : i < u.length) (hrow : (u.getD i []).length = dim1 + dim2 + 2)
    (hc2 : column < dim1 + dim2 + 2) (hz : cell u index column = 0) :
    SameDims u (eliminate_row dim1 dim2 index column u i) ∧
    ∀ i' j', cell (eliminate_row dim1 dim2 index column u i) i' j'
      = if i' = i ∧ (cell u i column < -eps ∨ cell u i column > eps) then
          (if j' = column then 0
           else if 1 ≤ j' ∧ j' < dim1 + dim2 + 2 then
             cell u i j' + cell u i column * cell u index j'
           else cell u i j')
        else cell u i' j' := by
  unfold eliminate_row
  by_cases hcond : cell u i column < -eps ∨ cell u i column > eps
  · rw [if_pos hcond]
    have hne : i ≠ index := by
      intro e
      rw [e, hz] at hcond
      have := eps_pos
      rcases hcond with h | h
      · linarith
      · linarith
    obtain ⟨hd, hc⟩ := foldl_setCell_row u i 1
      (fun w j => cell w i j + cell w i column * cell w index j)
      (fun j => cell u i j + cell u i column * cell u index j) hi (dim1 + dim2 + 1)
      (by rw [hrow]; omega)
      (fun w j hj1 hj2 h1 h2 => by
        show cell w i j + cell w i column * cell w index j
          = cell u i j + cell u i column * cell u index j
        rw [h1 i j (Or.inr (Or.inl (le_refl j))), h1 index j (Or.inl (Ne.symm hne))]
        have hk : cell w i column = cell u i column := by
          by_cases hv : 1 ≤ column ∧ column < j
          · have := h2 column hv.1 hv.2
            simp only at this
            rw [this, hz, mul_zero, add_zero]
          · exact h1 i column (Or.inr (by omega))
        rw [hk])
    refine ⟨sameDims_trans hd (sameDims_setCell _ _ _ _), fun i' j' => ?_⟩
    rw [cell_setCell, hc, hd.1, hd.2 i, hrow]
    by_cases h1 : i' = i
    · subst h1
      by_cases h2 : j' = column
      · subst h2
        rw [if_pos ⟨rfl, rfl, hi, hc2⟩, if_pos ⟨rfl, hcond⟩, if_pos rfl]
      · have : ¬ (i' = i' ∧ j' = column ∧ i' < u.length ∧ column < dim1 + dim2 + 2) :=
          fun h => h2 h.2.1
        rw [if_neg this]
        by_cases h3 : 1 ≤ j' ∧ j' < dim1 + dim2 + 2
        · rw [if_pos ⟨rfl, h3.1, by omega⟩, if_pos ⟨rfl, hcond⟩, if_neg h2, if_pos h3]
        · have : ¬ (i' = i' ∧ 1 ≤ j' ∧ j' < 1 + (dim1 + dim2 + 1)) := by omega
          rw [if_neg this, if_pos ⟨rfl, hcond⟩, if_neg h2, if_neg h3]
    · have e1 : ¬ (i' = i ∧ j' = column ∧ i < u.length ∧ column < dim1 + dim2 + 2) :=
        fun h => h1 h.1
      have e2 : ¬ (i' = i ∧ 1 ≤ j' ∧ j' < 1 + (dim1 + dim2 + 1)) := fun h => h1 h.1
      have e3 : ¬ (i' = i ∧ (cell u i column < -eps ∨ cell u i column > eps)) :=
        fun h => h1 h.1
      rw [if_neg e1, if_neg e2, if_neg e3]
  · rw [if_neg hcond]
    refine ⟨sameDims_refl u, fun i' j' => ?_⟩
    have : ¬ (i' = i ∧ (cell u i column < -eps ∨ cell u i column > eps)) := fun h => hcond h.2
    rw [if_neg this]

/-- The cells after the elimination loop (lines 124-136) on a tableau `p` whose
row `index` holds `0` in the entering column. -/
theorem eliminate_cells (dim1 dim2 : ℕ) (p : Tableau) (n index column : ℕ)
    (hr : Rect p n (dim1 + dim2 + 2)) (hc2 : column < dim1 + dim2 + 2)
    (hz : cell p index column = 0) :
    SameDims p (eliminate dim1 dim2 p n index column) ∧
    ∀ i' j', cell (eliminate dim1 dim2 p n index column) i' j'
      = if i' < n ∧ (cell p i' column < -eps ∨ cell p i' column > eps) then
          (if j' = column then 0
           else if 1 ≤ j' ∧ j' < dim1 + dim2 + 2 then
             cell p i' j' + cell p i' column * cell p index j'
           else cell p i' j')
        else cell p i' j' := by
  unfold eliminate
  have hnr : ¬ (cell p index column < -eps ∨ cell p index column > eps) := by
    rw [hz]
    have := eps_pos
    rintro (h | h) <;> linarith
  obtain ⟨hd, hc⟩ := foldl_rows p (eliminate_row dim1 dim2 index column)
    (fun i j => if cell p i column < -eps ∨ cell p i column > eps then
        (if j = column then 0
         else if 1 ≤ j ∧ j < dim1 + dim2 + 2 then cell p i j + cell p i column * cell p index j
         else cell p i j)
      else cell p i j) n
    (fun u i hi hdu hge hlt => by
      have hrowu : ∀ j, cell u index j = cell p index j := by
        intro j
        by_cases h : i ≤ index
        · exact hge index j h
        · rw [hlt index j (by omega)]
          beta_reduce
          rw [if_neg hnr]
      obtain ⟨hd1, hc1⟩ := eliminate_row_cells dim1 dim2 index column u i
        (by rw [hdu.1, hr.1]; exact hi) (by rw [hdu.2 i]; exact hr.2 i hi) hc2
        (by rw [hrowu, hz])
      refine ⟨sameDims_trans hdu hd1, fun i' j' => ?_⟩
      rw [hc1]
      beta_reduce
      by_cases h1 : i' = i
      · subst h1
        rw [if_pos rfl, hge i' column (le_refl _)]
        by_cases hcond : cell p i' column < -eps ∨ cell p i' column > eps
        · rw [if_pos ⟨rfl, hcond⟩, if_pos hcond, hge i' j' (le_refl _), hrowu]
        · rw [if_neg (fun h => hcond h.2), if_neg hcond, hge i' j' (le_refl _)]
      · rw [if_neg (fun h => h1 h.1), if_neg h1])
  refine ⟨hd, fun i' j' => ?_⟩
  rw [hc]
  by_cases h1 : i' < n
  · by_cases hcond : cell p i' column < -eps ∨ cell p i' column > eps
    · simp only [h1, hcond, if_true, true_and]
    · simp only [h1, hcond, if_true, if_false, and_false]
  · simp only [h1, if_false, false_and]

/-! ## The minimum ratio test -/

theorem pivot_step_unfold (dim1 dim2 : ℕ) (T : Tableaus) (pivot : ℤ) :
    pivot_step dim1 dim2 T pivot
      = if get_tableau dim1 dim2 pivot = -1 then .error .undefined
        else if !(step_scan dim1 dim2 T pivot).updated then .error .assertion
        else if get_column dim1 dim2
            (toInt (cell (active dim1 dim2 T pivot) (step_scan dim1 dim2 T pivot).index 0)) < 0
          then .error .undefined
        else .ok (putTab T (get_tableau dim1 dim2 pivot)
          (eliminate dim1 dim2
            (pivot_row dim1 dim2 (active dim1 dim2 T pivot) (step_scan dim1 dim2 T pivot).index
              (entering_column dim1 dim2 pivot) pivot
              (toInt (cell (active dim1 dim2 T pivot) (step_scan dim1 dim2 T pivot).index 0)))
            (active_rows dim1 dim2 pivot) (step_scan dim1 dim2 T pivot).index
            (entering_column dim1 dim2 pivot)),
          toInt (cell (active dim1 dim2 T pivot) (step_scan dim1 dim2 T pivot).index 0)) := by
  rfl

theorem ratio_body_eligible (t : Tableau) (column : ℕ) (s : Scan) (i : ℕ)
    (h : Eligible t column i) :
    ratio_body t column s i
      = if s.updated = false ∨ ratio_of t column i < s.min - eps then
          { min := ratio_of t column i, updated := true, index := i }
        else s := by
  unfold ratio_body ratio_of
  unfold Eligible at h
  rw [if_neg h]
  by_cases h1 : s.updated = false
  · simp [h1]
  · have h1' : s.updated = true := by simpa using h1
    by_cases h2 : -(cell t i 1) / cell t i column < s.min - eps
    · simp [h1', h2]
    · simp [h1', h2]

theorem ratio_body_not_eligible (t : Tableau) (column : ℕ) (s : Scan) (i : ℕ)
    (h : ¬ Eligible t column i) : ratio_body t column s i = s := by
  unfold ratio_body
  unfold Eligible at h
  rw [if_pos (not_not.mp h)]

/-- The state of the minimum ratio scan after the rows `0..n-1`. -/
theorem ratio_test_spec (t : Tableau) (column : ℕ) :
    ∀ n,
      ((ratio_test t n column).updated = false → ∀ j < n, ¬ Eligible t column j) ∧
      ((ratio_test t n column).updated = true →
        (ratio_test t n column).index < n ∧
        Eligible t column (ratio_test t n column).index ∧
        (ratio_test t n column).min = ratio_of t column (ratio_test t n column).index ∧
        (∀ j < (ratio_test t n column).index, Eligible t column j →
          (ratio_test t n column).min < ratio_of t column j) ∧
        (∀ j < n, Eligible t column j →
          (ratio_test t n column).min - eps ≤ ratio_of t column j)) := by
  intro n
  induction n with
  | zero =>
    refine ⟨fun _ j hj => absurd hj (Nat.not_lt_zero j), fun h => ?_⟩
    simp [ratio_test] at h
  | succ n ih =>
    obtain ⟨ih0, ih1⟩ := ih
    rw [ratio_test_succ]
    set s := ratio_test t n column with hs
    have hpos := eps_pos
    by_cases he : Eligible t column n
    · rw [ratio_body_eligible t column s n he]
      by_cases hu : s.updated = false
      · rw [if_pos (Or.inl hu)]
        refine ⟨fun h => by simp at h, fun _ => ⟨Nat.lt_succ_self n, he, rfl, ?_, ?_⟩⟩
        · intro j hj hej
          exact absurd hej (ih0 hu j hj)
        · intro j hj hej
          by_cases hjn : j = n
          · subst hjn
            show ratio_of t column j - eps ≤ ratio_of t column j
            linarith
          · exact absurd hej (ih0 hu j (by omega))
      · have hu' : s.updated = true := by simpa using hu
        obtain ⟨i1, i2, i3, i4, i5⟩ := ih1 hu'
        by_cases hlt : ratio_of t column n < s.min - eps
        · rw [if_pos (Or.inr hlt)]
          refine ⟨fun h => by simp at h, fun _ => ⟨Nat.lt_succ_self n, he, rfl, ?_, ?_⟩⟩
          · intro j hj hej
            show ratio_of t column n < ratio_of t column j
            have := i5 j hj hej
            linarith
          · intro j hj hej
            show ratio_of t column n - eps ≤ ratio_of t column j
            by_cases hjn : j = n
            · subst hjn; linarith
            · have := i5 j (by omega) hej
              linarith
        · rw [if_neg (by rintro (h | h); exact hu h; exact hlt h)]
          refine ⟨fun h => absurd h hu, fun _ => ⟨by omega, i2, i3, i4, ?_⟩⟩
          intro j hj hej
          by_cases hjn : j = n
          · subst hjn; linarith
          · exact i5 j (by omega) hej
    · rw [ratio_body_not_eligible t column s n he]
      refine ⟨fun h j hj => ?_, fun h => ?_⟩
      · by_cases hjn : j = n
        · subst hjn; exact he
        · exact ih0 h j (by omega)
      · obtain ⟨i1, i2, i3, i4, i5⟩ := ih1 h
        refine ⟨by omega, i2, i3, i4, ?_⟩
        intro j hj hej
        by_cases hjn : j = n
        · subst hjn; exact absurd hej he
        · exact i5 j (by omega) hej

theorem ratio_test_updated_iff (t : Tableau) (n column : ℕ) :
    (ratio_test t n column).updated = true ↔ ∃ j < n, Eligible t column j := by
  obtain ⟨h0, h1⟩ := ratio_test_spec t column n
  constructor
  · intro h
    obtain ⟨i1, i2, _⟩ := h1 h
    exact ⟨_, i1, i2⟩
  · rintro ⟨j, hj, hej⟩
    by_contra hne
    have : (ratio_test t n column).updated = false := by simpa using hne
    exact h0 this j hj hej

theorem get_column_range (dim1 dim2 : ℕ) (q : ℤ) (h0 : q ≠ 0)
    (h1 : -((dim1 : ℤ) + dim2) ≤ q) (h2 : q ≤ (dim1 : ℤ) + dim2) :
    2 ≤ get_column dim1 dim2 q ∧ get_column dim1 dim2 q ≤ (dim1 : ℤ) + dim2 + 1 := by
  unfold get_column
  split_ifs <;> constructor <;> omega

theorem getTab_putTab (T : Tableaus) (ntab : ℤ) (t : Tableau) :
    getTab (putTab T ntab t) ntab = t := by
  unfold getTab putTab
  split_ifs <;> rfl

theorem active_rect (dim1 dim2 : ℕ) (T : Tableaus) (pivot : ℤ) (hs : Shape dim1 dim2 T) :
    Rect (active dim1 dim2 T pivot) (active_rows dim1 dim2 pivot) (dim1 + dim2 + 2) := by
  unfold active active_rows getTab
  split_ifs
  · exact hs.1
  · exact hs.2

/-- What a pivot step that returns has done: the scan found a row, the leaving
label is the cast of that row's label cell, and the active tableau is the
result of the row update followed by the elimination loop. -/
theorem pivot_step_ok (dim1 dim2 : ℕ) (T T' : Tableaus) (pivot q : ℤ)
    (h : pivot_step dim1 dim2 T pivot = .ok (T', q)) :
    get_tableau dim1 dim2 pivot ≠ -1 ∧ (step_scan dim1 dim2 T pivot).updated = true ∧
    q = toInt (cell (active dim1 dim2 T pivot) (step_scan dim1 dim2 T pivot).index 0) ∧
    T' = putTab T (get_tableau dim1 dim2 pivot)
      (eliminate dim1 dim2
        (pivot_row dim1 dim2 (active dim1 dim2 T pivot) (step_scan dim1 dim2 T pivot).index
          (entering_column dim1 dim2 pivot) pivot q)
        (active_rows dim1 dim2 pivot) (step_scan dim1 dim2 T pivot).index
        (entering_column dim1 dim2 pivot)) := by
  rw [pivot_step_unfold] at h
  by_cases hn : get_tableau dim1 dim2 pivot = -1
  · rw [if_pos hn] at h; cases h
  · rw [if_neg hn] at h
    by_cases hu : (!(step_scan dim1 dim2 T pivot).updated) = true
    · rw [if_pos hu] at h; cases h
    · rw [if_neg hu] at h
      split_ifs at h
      simp only [Except.ok.injEq, Prod.mk.injEq] at h
      obtain ⟨hT, hq⟩ := h
      refine ⟨hn, by simpa using hu, hq.symm, ?_⟩
      rw [← hT, hq]

theorem cell_out_of_row (t : Tableau) (i j : ℕ) (h : (t.getD i []).length ≤ j) :
    cell t i j = 0 := by
  unfold cell
  rw [List.getD_eq_getElem?_getD (t.getD i []) j 0, List.getElem?_eq_none h]
  rfl

/-- The row chosen by the scan of a pivot step whose assertion holds. -/
theorem step_scan_spec (dim1 dim2 : ℕ) (T : Tableaus) (pivot : ℤ)
    (hu : (step_scan dim1 dim2 T pivot).updated = true) :
    (step_scan dim1 dim2 T pivot).index < active_rows dim1 dim2 pivot ∧
    Eligible (active dim1 dim2 T pivot) (entering_column dim1 dim2 pivot)
      (step_scan dim1 dim2 T pivot).index ∧
    (∀ j < (step_scan dim1 dim2 T pivot).index,
      Eligible (active dim1 dim2 T pivot) (entering_column dim1 dim2 pivot) j →
      ratio_of (active dim1 dim2 T pivot) (entering_column dim1 dim2 pivot)
          (step_scan dim1 dim2 T pivot).index
        < ratio_of (active dim1 dim2 T pivot) (entering_column dim1 dim2 pivot) j) ∧
    (∀ j < active_rows dim1 dim2 pivot,
      Eligible (active dim1 dim2 T pivot) (entering_column dim1 dim2 pivot) j →
      ratio_of (active dim1 dim2 T pivot) (entering_column dim1 dim2 pivot)
          (step_scan dim1 dim2 T pivot).index - eps
        ≤ ratio_of (active dim1 dim2 T pivot) (entering_column dim1 dim2 pivot) j) := by
  obtain ⟨i1, i2, i3, i4, i5⟩ := (ratio_test_spec (active dim1 dim2 T pivot)
    (entering_column dim1 dim2 pivot) (active_rows dim1 dim2 pivot)).2 hu
  refine ⟨i1, i2, fun j hj he => ?_, fun j hj he => ?_⟩
  · have := i4 j hj he
    rw [i3] at this
    exact this
  · have := i5 j hj he
    rw [i3] at this
    exact this

/-- The facts about the selected row of a pivot step that returns. -/
theorem pivot_step_selected (dim1 dim2 : ℕ) (T T' : Tableaus) (pivot q : ℤ)
    (hs : Shape dim1 dim2 T) (h : pivot_step dim1 dim2 T pivot = .ok (T', q)) :
    (step_scan dim1 dim2 T pivot).index < active_rows dim1 dim2 pivot ∧
    Eligible (active dim1 dim2 T pivot) (entering_column dim1 dim2 pivot)
      (step_scan dim1 dim2 T pivot).index ∧
    2 ≤ entering_column dim1 dim2 pivot ∧ entering_column dim1 dim2 pivot < dim1 + dim2 + 2 := by
  obtain ⟨hn, hu, _, _⟩ := pivot_step_ok dim1 dim2 T T' pivot q h
  obtain ⟨i1, i2, _⟩ := step_scan_spec dim1 dim2 T pivot hu
  have hc := get_column_ge_two dim1 dim2 pivot hn
  refine ⟨i1, i2, by unfold entering_column; omega, ?_⟩
  by_contra hge
  have hrow := (active_rect dim1 dim2 T pivot hs).2 _ i1
  have hz := cell_out_of_row (active dim1 dim2 T pivot) (step_scan dim1 dim2 T pivot).index
    (entering_column dim1 dim2 pivot) (by rw [hrow]; omega)
  apply i2
  rw [hz]
  have := eps_pos
  linarith

/-- The cells of the active tableau after a pivot step that returns. -/
theorem pivot_step_cells (dim1 dim2 : ℕ) (T T' : Tableaus) (pivot q : ℤ)
    (hs : Shape dim1 dim2 T) (h : pivot_step dim1 dim2 T pivot = .ok (T', q)) :
    Rect (active dim1 dim2 T' pivot) (active_rows dim1 dim2 pivot) (dim1 + dim2 + 2) ∧
    ∀ i' j', cell (active dim1 dim2 T' pivot) i' j'
      = if i' = (step_scan dim1 dim2 T pivot).index then
          pivoted_cell dim1 dim2 (active dim1 dim2 T pivot) (step_scan dim1 dim2 T pivot).index
            (entering_column dim1 dim2 pivot) pivot q j'
        else if i' < active_rows dim1 dim2 pivot ∧
            (cell (active dim1 dim2 T pivot) i' (entering_column dim1 dim2 pivot) < -eps ∨
              cell (active dim1 dim2 T pivot) i' (entering_column dim1 dim2 pivot) > eps) then
          (if j' = entering_column dim1 dim2 pivot then 0
           else if 1 ≤ j' ∧ j' < dim1 + dim2 + 2 then
             cell (active dim1 dim2 T pivot) i' j'
               + cell (active dim1 dim2 T pivot) i' (entering_column dim1 dim2 pivot)
                 * pivoted_cell dim1 dim2 (active dim1 dim2 T pivot)
                     (step_scan dim1 dim2 T pivot).index (entering_column dim1 dim2 pivot)
                     pivot q j'
           else cell (active dim1 dim2 T pivot) i' j')
        else cell (active dim1 dim2 T pivot) i' j' := by
  obtain ⟨_, _, _, hT⟩ := pivot_step_ok dim1 dim2 T T' pivot q h
  obtain ⟨hr, _, hc1, hc2⟩ := pivot_step_selected dim1 dim2 T T' pivot q hs h
  have hrect := active_rect dim1 dim2 T pivot hs
  set t := active dim1 dim2 T pivot with ht
  set r := (step_scan dim1 dim2 T pivot).index with hrdef
  set c := entering_column dim1 dim2 pivot with hcdef
  set n := active_rows dim1 dim2 pivot with hn
  obtain ⟨hdp, hcp⟩ := pivot_row_cells dim1 dim2 t n r c pivot q hrect hr (by omega) hc2
  have hprc : ∀ j, cell (pivot_row dim1 dim2 t r c pivot q) r j
      = pivoted_cell dim1 dim2 t r c pivot q j := by
    intro j
    rw [hcp, if_pos rfl]
    rfl
  have hpo : ∀ i j, i ≠ r → cell (pivot_row dim1 dim2 t r c pivot q) i j = cell t i j := by
    intro i j hi
    rw [hcp, if_neg hi]
  have hz : cell (pivot_row dim1 dim2 t r c pivot q) r c = 0 := by
    rw [hprc]
    unfold pivoted_cell
    rw [if_pos rfl]
  obtain ⟨hde, hce⟩ := eliminate_cells dim1 dim2 (pivot_row dim1 dim2 t r c pivot q) n r c
    (rect_of_sameDims hdp hrect) hc2 hz
  have hact : active dim1 dim2 T' pivot
      = eliminate dim1 dim2 (pivot_row dim1 dim2 t r c pivot q) n r c := by
    rw [hT]
    unfold active
    rw [getTab_putTab]
  rw [hact]
  refine ⟨rect_of_sameDims (sameDims_trans hdp hde) hrect, fun i' j' => ?_⟩
  rw [hce]
  by_cases h1 : i' = r
  · rw [h1, hz]
    have hno : ¬ (r < n ∧ ((0 : ℚ) < -eps ∨ (0 : ℚ) > eps)) := by
      have := eps_pos
      rintro ⟨_, h | h⟩ <;> linarith
    rw [if_neg hno, if_pos rfl, hprc]
  · rw [if_neg h1, hpo i' _ h1, hpo i' _ h1, hprc]

/-- C14 as stated fails at the boundary: in the first pivot step of the 1x1
game A = [[1]], B = [[1e-20]] from label 1, no row of the active tableau has a
coefficient below -eps in the entering column 3 (the only one is -eps itself),
and the step does not abort. -/
theorem pivot_step_boundary_candidate :
    (∀ i < active_rows 1 1 1,
      ¬ cell (active 1 1 (create_systems game_boundary 1 1) 1) i (entering_column 1 1 1) < -eps) ∧
    cell (active 1 1 (create_systems game_boundary 1 1) 1) 0 (entering_column 1 1 1) = -eps ∧
    pivot_step 1 1 (create_systems game_boundary 1 1) 1
      = .ok ({ t0 := [[-1, 1, 0, -1]], t1 := [[1, 10 ^ 20, -(10 ^ 20), 0]] }, -2) := by
  decide!

/-- C14, amended.  In a pivot step with entering column c in the active tableau
t, the step aborts (the assertion `updated != 0` fails) if and only if no row
i of t satisfies t[i][c] <= -eps; a row is a candidate of the minimum ratio
test exactly when t[i][c] <= -eps: the loop body leaves the scan unchanged on
every other row and leaves `updated` set on a candidate. -/
theorem pivot_step_aborts_iff (dim1 dim2 : ℕ) (T : Tableaus) (pivot : ℤ)
    (hn : get_tableau dim1 dim2 pivot ≠ -1) :
    (pivot_step dim1 dim2 T pivot = .error .assertion ↔
      ∀ i < active_rows dim1 dim2 pivot,
        ¬ cell (active dim1 dim2 T pivot) i (entering_column dim1 dim2 pivot) ≤ -eps) ∧
    (∀ (t : Tableau) (c : ℕ) (s : Scan) (i : ℕ),
      (¬ cell t i c ≤ -eps → ratio_body t c s i = s) ∧
      (cell t i c ≤ -eps → (ratio_body t c s i).updated = true)) := by
  constructor
  · rw [pivot_step_unfold, if_neg hn]
    have hiff := ratio_test_updated_iff (active dim1 dim2 T pivot) (active_rows dim1 dim2 pivot)
      (entering_column dim1 dim2 pivot)
    constructor
    · intro h i hi hle
      have hu : (step_scan dim1 dim2 T pivot).updated = true :=
        hiff.mpr ⟨i, hi, not_lt.mpr hle⟩
      rw [hu] at h
      simp only [Bool.not_true, Bool.false_eq_true, if_false] at h
      split_ifs at h
      · exact absurd h (by decide)
    · intro h
      have hu : (step_scan dim1 dim2 T pivot).updated = false := by
        by_contra hne
        have hne' : (step_scan dim1 dim2 T pivot).updated = true := by simpa using hne
        obtain ⟨j, hj, hej⟩ := hiff.mp hne'
        exact h j hj (not_lt.mp hej)
      rw [hu]
      simp
  · intro t c s i
    constructor
    · intro h
      exact ratio_body_not_eligible t c s i (fun he => h (not_lt.mp he))
    · intro h
      rw [ratio_body_eligible t c s i (not_lt.mpr h)]
      split_ifs with h1
      · rfl
      · cases hu : s.updated with
        | true => rfl
        | false => exact absurd (Or.inl hu) h1

/-- The abort theorem applied to the third pivot step of the run of
`game_abort` from label 1: label 2 enters, no row is a candidate and the step
aborts. -/
theorem pivot_step_aborts_iff_witness :
    get_tableau 2 2 2 ≠ -1 ∧
    pivot_step 2 2
      { t0 := [[-1, 1 / 2, 0, 1 / 2, 0, -1 / 2], [3, 1 / 2, 0, -1 / 2, 0, -1 / 2]],
        t1 := [[1, 1 / 10 ^ 21, -1 / 10 ^ 21, 0, 0, -4 / 10 ^ 21],
               [-4, 1 / 2, 1 / 2, 0, 0, 1]] } 2 = .error .assertion ∧
    ∀ i < active_rows 2 2 2,
      ¬ cell (active 2 2
        { t0 := [[-1, 1 / 2, 0, 1 / 2, 0, -1 / 2], [3, 1 / 2, 0, -1 / 2, 0, -1 / 2]],
          t1 := [[1, 1 / 10 ^ 21, -1 / 10 ^ 21, 0, 0, -4 / 10 ^ 21],
                 [-4, 1 / 2, 1 / 2, 0, 0, 1]] } 2) i (entering_column 2 2 2) ≤ -eps :=
  ⟨by decide, by decide!,
    (pivot_step_aborts_iff 2 2
      { t0 := [[-1, 1 / 2, 0, 1 / 2, 0, -1 / 2], [3, 1 / 2, 0, -1 / 2, 0, -1 / 2]],
        t1 := [[1, 1 / 10 ^ 21, -1 / 10 ^ 21, 0, 0, -4 / 10 ^ 21],
               [-4, 1 / 2, 1 / 2, 0, 0, 1]] } 2 (by decide)).1.mp (by decide!)⟩

/-- C17, at a failing input.  For the 1x2 game A = [[1, 1]],
B = [[5e20, 1e21]] (all payoffs positive) and start label 1, after the first
pivot step the value cell of row 1 of the second tableau is -1, below -eps. -/
theorem lh_value_cell_negative :
    (∀ row ∈ game_large, ∀ v ∈ row, (0 : ℚ) < v) ∧
    lh_config 1 2 1 1 (create_systems game_large 1 2)
        (get_pivot_gen (create_systems game_large 1 2) 1 2 1)
      = some ({ t0 := [[-1, 1, 0, -1, -1]],
                t1 := [[1, 1 / (5 * 10 ^ 20), -1 / (5 * 10 ^ 20), 0, 0], [-3, -1, 2, 0, 0]] }, 2) ∧
    cell ({ t0 := [[-1, 1, 0, -1, -1]],
            t1 := [[1, 1 / (5 * 10 ^ 20), -1 / (5 * 10 ^ 20), 0, 0],
                   [-3, -1, 2, 0, 0]] } : Tableaus).t1 1 1 = -1 ∧
    (-1 : ℚ) < -eps := by
  decide!

/-! ## The equilibrium builder -/

theorem lex_comp_labels (x y : Equilibrium) :
    lex_comp x y
      = lex_comp ((labels x).map (fun l => (l, (0 : ℚ)))) ((labels y).map (fun l => (l, (0 : ℚ)))) := by
  induction x generalizing y with
  | nil => cases y <;> simp [lex_comp, labels]
  | cons a xs ih =>
    cases y with
    | nil => simp [lex_comp, labels]
    | cons b ys =>
      simp only [lex_comp, labels, List.map_cons]
      have := ih ys
      simp only [labels] at this
      rw [this]

theorem lex_comp_antisymm (x y : Equilibrium) : lex_comp x y = -lex_comp y x := by
  induction x generalizing y with
  | nil => cases y <;> simp [lex_comp]
  | cons a xs ih =>
    cases y with
    | nil => simp [lex_comp]
    | cons b ys =>
      simp only [lex_comp]
      by_cases h1 : a.1 < b.1
      · have h2 : ¬ b.1 < a.1 := by omega
        have h3 : b.1 > a.1 := h1
        simp [h1, h2, h3]
      · by_cases h2 : a.1 > b.1
        · have h3 : b.1 < a.1 := h2
          simp [h1, h2, h3]
        · have h3 : ¬ b.1 < a.1 := h2
          have h4 : ¬ b.1 > a.1 := h1
          simp [h1, h2, h3, h4, ih ys]

theorem lex_prefix (l : List ℤ) (a : ℤ) (m : List ℤ) : List.Lex (· < ·) l (l ++ a :: m) := by
  induction l with
  | nil => exact List.Lex.nil
  | cons b l ih => exact List.Lex.cons ih

/-- C13.  `lex_comp` is the lexicographic comparison of the label sequences:
it returns 0 exactly for equal label sequences, -1 exactly when the label
sequence of x is lexicographically smaller than that of y (a proper prefix
being smaller) and 1 in every other case; its result is that of the
comparison of the label sequences alone, with every probability replaced by
0; and `lex_comp x y = -lex_comp y x`. -/
theorem lex_comp_lexicographic (x y : Equilibrium) :
    (lex_comp x y = 0 ↔ labels x = labels y) ∧
    (lex_comp x y = -1 ↔ List.Lex (· < ·) (labels x) (labels y)) ∧
    (lex_comp x y = 1 ↔ (labels x ≠ labels y ∧ ¬ List.Lex (· < ·) (labels x) (labels y))) ∧
    (∀ (l : List ℤ) (a : ℤ) (m : List ℤ), List.Lex (· < ·) l (l ++ a :: m)) ∧
    lex_comp x y
      = lex_comp ((labels x).map (fun l => (l, (0 : ℚ)))) ((labels y).map (fun l => (l, (0 : ℚ)))) ∧
    lex_comp x y = -lex_comp y x := by
  have h0 := lex_comp_eq_zero_iff x y
  have hneg := lex_comp_neg_iff x y
  have hr := lex_comp_range x y
  refine ⟨h0, ?_, ?_, lex_prefix, lex_comp_labels x y, lex_comp_antisymm x y⟩
  · rw [← hneg]
    constructor
    · intro h; omega
    · intro h; rcases hr with h' | h' | h' <;> omega
  · rw [← hneg, ne_eq, ← h0]
    constructor
    · intro h; constructor <;> omega
    · rintro ⟨h1, h2⟩; rcases hr with h' | h' | h' <;> omega

/-! ## The cells of `create_systems` -/

theorem create_systems_cell0 (bimatrix : Bimatrix) (dim1 dim2 i j : ℕ) (hi : i < dim1)
    (hj : j < dim1 + dim2 + 2) :
    cell (create_systems bimatrix dim1 dim2).t0 i j
      = if j = 0 then -(i : ℚ) - 1
        else if j = 1 then 1
        else if 2 + dim1 ≤ j then -(entry bimatrix i (j - 2 - dim1))
        else 0 := by
  have hj' : j < 2 + dim1 + dim2 := by omega
  simp [cell, create_systems, create_row0, List.getElem?_range hi, List.getElem?_range hj']

theorem create_systems_cell1 (bimatrix : Bimatrix) (dim1 dim2 i j : ℕ) (hi : i < dim2)
    (hj : j < dim1 + dim2 + 2) :
    cell (create_systems bimatrix dim1 dim2).t1 i j
      = if j = 0 then -(i : ℚ) - dim1 - 1
        else if j = 1 then 1
        else if 2 + dim2 ≤ j then -(entry bimatrix (dim1 + (j - 2 - dim2)) i)
        else 0 := by
  have hj' : j < 2 + dim1 + dim2 := by omega
  simp [cell, create_systems, create_row1, List.getElem?_range hi, List.getElem?_range hj']

theorem create_systems_basis_nodup (bimatrix : Bimatrix) (dim1 dim2 : ℕ) :
    (basis dim1 dim2 (create_systems bimatrix dim1 dim2)).Nodup := by
  rw [create_systems_basis]
  apply List.Nodup.map
  · intro a b hab
    simp only at hab
    exact_mod_cast hab
  · apply List.Nodup.map _ (List.nodup_range _)
    intro a b hab
    simp only at hab
    omega

/-- C18.  `create_systems` builds a first tableau with dim1 rows and a second
with dim2 rows, every row with dim1+dim2+2 cells.  Row i of the first has
label -(i+1), value 1, -A[i][k] at column get_column(dim1+1+k) for every
k < dim2 and 0 in the other coefficient cells; row j of the second has label
-(dim1+j+1), value 1, -B[i][j] at column get_column(i+1) for every i < dim1 and
0 in the other coefficient cells.  Hence every slack label -1..-(dim1+dim2) is
basic exactly once and no positive label is basic. -/
theorem create_systems_cells (bimatrix : Bimatrix) (dim1 dim2 : ℕ) :
    Shape dim1 dim2 (create_systems bimatrix dim1 dim2) ∧
    (∀ i < dim1,
      cell (create_systems bimatrix dim1 dim2).t0 i 0 = -((i : ℚ) + 1) ∧
      cell (create_systems bimatrix dim1 dim2).t0 i 1 = 1 ∧
      (∀ k < dim2,
        cell (create_systems bimatrix dim1 dim2).t0 i
            (get_column dim1 dim2 ((dim1 : ℤ) + 1 + k)).toNat
          = -(entry bimatrix i k)) ∧
      (∀ j, 2 ≤ j → j < 2 + dim1 → cell (create_systems bimatrix dim1 dim2).t0 i j = 0)) ∧
    (∀ j < dim2,
      cell (create_systems bimatrix dim1 dim2).t1 j 0 = -((dim1 : ℚ) + j + 1) ∧
      cell (create_systems bimatrix dim1 dim2).t1 j 1 = 1 ∧
      (∀ i < dim1,
        cell (create_systems bimatrix dim1 dim2).t1 j (get_column dim1 dim2 ((i : ℤ) + 1)).toNat
          = -(entry bimatrix (dim1 + i) j)) ∧
      (∀ k, 2 ≤ k → k < 2 + dim2 → cell (create_systems bimatrix dim1 dim2).t1 j k = 0)) ∧
    (∀ l : ℤ, 1 ≤ l → l ≤ (dim1 : ℤ) + dim2 →
      (basis dim1 dim2 (create_systems bimatrix dim1 dim2)).count (((-l : ℤ)) : ℚ) = 1 ∧
      ¬ Basic dim1 dim2 (create_systems bimatrix dim1 dim2) l) := by
  refine ⟨create_systems_shape bimatrix dim1 dim2, ?_, ?_, ?_⟩
  · intro i hi
    refine ⟨?_, ?_, ?_, ?_⟩
    · rw [create_systems_cell0 _ _ _ _ _ hi (by omega), if_pos rfl]
      ring
    · rw [create_systems_cell0 _ _ _ _ _ hi (by omega), if_neg (by omega), if_pos rfl]
    · intro k hk
      have hcol : (get_column dim1 dim2 ((dim1 : ℤ) + 1 + k)).toNat = 2 + dim1 + k := by
        unfold get_column
        rw [if_neg (by omega), if_pos (by omega)]
        omega
      rw [hcol, create_systems_cell0 _ _ _ _ _ hi (by omega), if_neg (by omega),
        if_neg (by omega), if_pos (by omega)]
      congr 2
      omega
    · intro j hj1 hj2
      rw [create_systems_cell0 _ _ _ _ _ hi (by omega), if_neg (by omega), if_neg (by omega),
        if_neg (by omega)]
  · intro j hj
    refine ⟨?_, ?_, ?_, ?_⟩
    · rw [create_systems_cell1 _ _ _ _ _ hj (by omega), if_pos rfl]
      ring
    · rw [create_systems_cell1 _ _ _ _ _ hj (by omega), if_neg (by omega), if_pos rfl]
    · intro i hi
      have hcol : (get_column dim1 dim2 ((i : ℤ) + 1)).toNat = 2 + dim2 + i := by
        unfold get_column
        rw [if_pos (by omega)]
        omega
      rw [hcol, create_systems_cell1 _ _ _ _ _ hj (by omega), if_neg (by omega),
        if_neg (by omega), if_pos (by omega)]
      congr 3
      omega
    · intro k hk1 hk2
      rw [create_systems_cell1 _ _ _ _ _ hj (by omega), if_neg (by omega), if_neg (by omega),
        if_neg (by omega)]
  · intro l hl1 hln
    constructor
    · apply List.count_eq_one_of_mem (create_systems_basis_nodup bimatrix dim1 dim2)
      exact (create_systems_basic_iff bimatrix dim1 dim2 (-l)).mpr ⟨by omega, by omega⟩
    · rw [create_systems_basic_iff]
      omega

/-! ## `positivize_bimatrix` and `single_lemke_exec` -/

/-- C12.  `single_lemke_exec` rejects the starting pivot, before
`positivize_bimatrix`, `create_systems` and `lemke_howson_gen` are called, if
and only if it is <= 0 or > dim1+dim2; the labels 0 and dim1+dim2+1 are
rejected, whatever the bimatrix, and not clamped into the range. -/
theorem single_lemke_exec_rejects (fuel : ℕ) (bimatrix : Bimatrix) (dim1 dim2 : ℕ)
    (pivot : ℤ) (min : ℚ) :
    (single_lemke_exec fuel bimatrix dim1 dim2 pivot min = .rejected ↔
      (pivot ≤ 0 ∨ pivot > (dim1 : ℤ) + dim2)) ∧
    single_lemke_exec fuel bimatrix dim1 dim2 0 min = .rejected ∧
    single_lemke_exec fuel bimatrix dim1 dim2 ((dim1 : ℤ) + dim2 + 1) min = .rejected ∧
    single_lemke_exec fuel bimatrix dim1 dim2 pivot min
      = (if pivot ≤ 0 ∨ pivot > (dim1 : ℤ) + dim2 then Exec.rejected
         else Exec.ran (lemke_howson_gen fuel
          (create_systems (positivize_bimatrix bimatrix dim1 dim2 min) dim1 dim2)
          dim1 dim2 pivot)) := by
  refine ⟨?_, ?_, ?_, rfl⟩
  · unfold single_lemke_exec
    by_cases h : pivot ≤ 0 ∨ pivot > (dim1 : ℤ) + dim2
    · simp [h]
    · simp [h]
  · unfold single_lemke_exec
    rw [if_pos (Or.inl (le_refl 0))]
  · unfold single_lemke_exec
    rw [if_pos (Or.inr (by omega))]

/-! ## The enumeration restores the tableau pair -/

theorem foldlM_except_inv_mem {σ α ε : Type} (P : σ → Prop) (f : σ → α → Except ε σ) :
    ∀ (l : List α), (∀ s a s', a ∈ l → P s → f s a = .ok s' → P s') →
      ∀ (s s' : σ), P s → l.foldlM f s = .ok s' → P s' := by
  intro l
  induction l with
  | nil =>
    intro _ s s' hs h
    simp only [List.foldlM, pure, Except.pure, Except.ok.injEq] at h
    exact h ▸ hs
  | cons a l ih =>
    intro hf s s' hs h
    simp only [List.foldlM, bind, Except.bind] at h
    cases hfa : f s a with
    | error e => rw [hfa] at h; cases h
    | ok s₁ =>
      rw [hfa] at h
      exact ih (fun t b t' hb => hf t b t' (List.mem_cons_of_mem _ hb)) s₁ s'
        (hf s a s₁ (List.mem_cons_self _ _) hs hfa) h

theorem all_lemke_body_restores (lhfuel dim1 dim2 : ℕ) (S : Tableaus → Prop)
    (hclosed : ∀ T, S T → ∀ s : ℤ, 1 ≤ s → s ≤ (dim1 : ℤ) + dim2 → ∀ fuel r,
      lemke_howson_gen fuel T dim1 dim2 s = .ok r → S r.tableaus)
    (hrev : ∀ T, S T → ∀ s : ℤ, 1 ≤ s → s ≤ (dim1 : ℤ) + dim2 → ∀ fuel fuel' r r',
      lemke_howson_gen fuel T dim1 dim2 s = .ok r →
      lemke_howson_gen fuel' r.tableaus dim1 dim2 s = .ok r' → r'.tableaus = T)
    (taboo : ℤ) (recurse : Tableaus → ℤ → Eqlist → Except Fault (Tableaus × Eqlist))
    (hrec : ∀ T t l r, S T → recurse T t l = .ok r → r.1 = T)
    (T : Tableaus) (hT : S T) (st : Tableaus × Eqlist) (pivot : ℤ) (st' : Tableaus × Eqlist)
    (hp : 1 ≤ pivot ∧ pivot ≤ (dim1 : ℤ) + dim2) (hst : st.1 = T)
    (h : all_lemke_body lhfuel dim1 dim2 taboo recurse st pivot = .ok st') : st'.1 = T := by
  unfold all_lemke_body at h
  by_cases hpt : pivot ≠ taboo
  · rw [if_pos hpt] at h
    cases hr : lemke_howson_gen lhfuel st.1 dim1 dim2 pivot with
    | error e => rw [hr] at h; cases h
    | ok r =>
      rw [hr] at h
      simp only at h
      have hr' : lemke_howson_gen lhfuel T dim1 dim2 pivot = .ok r := by rw [← hst]; exact hr
      have hSr : S r.tableaus := hclosed T hT pivot hp.1 hp.2 lhfuel r hr'
      -- the tableau pair before the restoring run is the one the first run left
      have key : ∀ (T₂ : Tableaus) (l₂ : Eqlist), T₂ = r.tableaus →
          (match lemke_howson_gen lhfuel T₂ dim1 dim2 pivot with
            | .error e => (Except.error e : Except Fault (Tableaus × Eqlist))
            | .ok r₂ => .ok (r₂.tableaus, l₂)) = .ok st' → st'.1 = T := by
        intro T₂ l₂ hT₂ h2
        cases hr2 : lemke_howson_gen lhfuel T₂ dim1 dim2 pivot with
        | error e => rw [hr2] at h2; cases h2
        | ok r₂ =>
          rw [hr2] at h2
          simp only [Except.ok.injEq] at h2
          rw [← h2]
          rw [hT₂] at hr2
          exact hrev T hT pivot hp.1 hp.2 lhfuel lhfuel r r₂ hr' hr2
      by_cases hart : is_artificial r.eq = true
      · simp only [hart, Bool.not_true, Bool.false_eq_true, if_false] at h
        exact key r.tableaus st.2 rfl h
      · simp only [hart, Bool.not_false, if_true] at h
        by_cases hfound : (search_add_equilibrium st.2 r.eq).2 = true
        · simp only [hfound, Bool.not_true, Bool.false_eq_true, if_false] at h
          exact key r.tableaus _ rfl h
        · simp only [hfound, Bool.not_false, if_true] at h
          cases hrc : recurse r.tableaus pivot (search_add_equilibrium st.2 r.eq).1 with
          | error e => rw [hrc] at h; cases h
          | ok x =>
            rw [hrc] at h
            obtain ⟨T₂, l₂⟩ := x
            simp only at h
            exact key T₂ l₂ (hrec _ _ _ (T₂, l₂) hSr hrc) h
  · rw [if_neg hpt] at h
    simp only [Except.ok.injEq] at h
    rw [← h]; exact hst

/-- C20.  Let S be a set of tableau pairs that is closed under
`lemke_howson_gen` for every start label in [1, dim1+dim2] and on which two
consecutive runs from the same start label return the starting tableau pair.
Then for every tableau pair in S, every taboo and every list, if
`all_lemke_gen` returns, the tableau pair it leaves is the one it was called
with. -/
theorem all_lemke_gen_restores (dim1 dim2 : ℕ) (S : Tableaus → Prop)
    (hclosed : ∀ T, S T → ∀ s : ℤ, 1 ≤ s → s ≤ (dim1 : ℤ) + dim2 → ∀ fuel r,
      lemke_howson_gen fuel T dim1 dim2 s = .ok r → S r.tableaus)
    (hrev : ∀ T, S T → ∀ s : ℤ, 1 ≤ s → s ≤ (dim1 : ℤ) + dim2 → ∀ fuel fuel' r r',
      lemke_howson_gen fuel T dim1 dim2 s = .ok r →
      lemke_howson_gen fuel' r.tableaus dim1 dim2 s = .ok r' → r'.tableaus = T)
    (lhfuel depth : ℕ) (T : Tableaus) (hT : S T) (taboo : ℤ) (lista : Eqlist)
    (res : Tableaus × Eqlist)
    (h : all_lemke_gen lhfuel dim1 dim2 depth T taboo lista = .ok res) : res.1 = T := by
  induction depth generalizing T taboo lista res with
  | zero => simp [all_lemke_gen] at h
  | succ depth ih =>
    simp only [all_lemke_gen] at h
    refine foldlM_except_inv_mem (fun st : Tableaus × Eqlist => st.1 = T) _ _ ?_ (T, lista) res
      rfl h
    intro s a s' ha hs hf
    obtain ⟨k, hk, rfl⟩ := List.mem_map.mp ha
    have hk' := List.mem_range.mp hk
    exact all_lemke_body_restores lhfuel dim1 dim2 S hclosed hrev taboo _
      (fun T' t l r hT' hr => ih T' hT' t l r hr) T hT s _ s' ⟨by omega, by omega⟩ hs hf

theorem states_one_runs (T : Tableaus) (hT : states_one T) (s : ℤ) (h1 : 1 ≤ s)
    (h2 : s ≤ ((1 : ℕ) : ℤ) + (1 : ℕ)) (fuel : ℕ) (r : LHResult)
    (hr : lemke_howson_gen fuel T 1 1 s = .ok r) :
    (T = { t0 := [[-1, 1, 0, -1]], t1 := [[-2, 1, 0, -1]] } ∧
      r.tableaus = { t0 := [[2, 1, -1, 0]], t1 := [[1, 1, -1, 0]] }) ∨
    (T = { t0 := [[2, 1, -1, 0]], t1 := [[1, 1, -1, 0]] } ∧
      r.tableaus = { t0 := [[-1, 1, 0, -1]], t1 := [[-2, 1, 0, -1]] }) := by
  have hs : s = 1 ∨ s = 2 := by omega
  rcases hT with rfl | rfl <;> rcases hs with rfl | rfl
  · left
    have h := lemke_howson_gen_unique fuel 2 _ 1 1 1 r
      { eq := [(1, 1), (2, 1)], tableaus := { t0 := [[2, 1, -1, 0]], t1 := [[1, 1, -1, 0]] },
        steps := 2 } hr (by decide!)
    exact ⟨rfl, by rw [h]⟩
  · left
    have h := lemke_howson_gen_unique fuel 2 _ 1 1 2 r
      { eq := [(1, 1), (2, 1)], tableaus := { t0 := [[2, 1, -1, 0]], t1 := [[1, 1, -1, 0]] },
        steps := 2 } hr (by decide!)
    exact ⟨rfl, by rw [h]⟩
  · right
    have h := lemke_howson_gen_unique fuel 2 _ 1 1 1 r
      { eq := [], tableaus := { t0 := [[-1, 1, 0, -1]], t1 := [[-2, 1, 0, -1]] },
        steps := 2 } hr (by decide!)
    exact ⟨rfl, by rw [h]⟩
  · right
    have h := lemke_howson_gen_unique fuel 2 _ 1 1 2 r
      { eq := [], tableaus := { t0 := [[-1, 1, 0, -1]], t1 := [[-2, 1, 0, -1]] },
        steps := 2 } hr (by decide!)
    exact ⟨rfl, by rw [h]⟩

theorem states_one_closed (T : Tableaus) (hT : states_one T) (s : ℤ) (h1 : 1 ≤ s)
    (h2 : s ≤ ((1 : ℕ) : ℤ) + (1 : ℕ)) (fuel : ℕ) (r : LHResult)
    (hr : lemke_howson_gen fuel T 1 1 s = .ok r) : states_one r.tableaus := by
  rcases states_one_runs T hT s h1 h2 fuel r hr with ⟨_, h⟩ | ⟨_, h⟩
  · exact Or.inr h
  · exact Or.inl h

theorem states_one_reversible (T : Tableaus) (hT : states_one T) (s : ℤ) (h1 : 1 ≤ s)
    (h2 : s ≤ ((1 : ℕ) : ℤ) + (1 : ℕ)) (fuel fuel' : ℕ) (r r' : LHResult)
    (hr : lemke_howson_gen fuel T 1 1 s = .ok r)
    (hr' : lemke_howson_gen fuel' r.tableaus 1 1 s = .ok r') : r'.tableaus = T := by
  have hS := states_one_closed T hT s h1 h2 fuel r hr
  rcases states_one_runs T hT s h1 h2 fuel r hr with ⟨e1, e2⟩ | ⟨e1, e2⟩
  · rcases states_one_runs r.tableaus hS s h1 h2 fuel' r' hr' with ⟨e3, _⟩ | ⟨_, e4⟩
    · rw [e2] at e3
      exact absurd e3 (by decide!)
    · rw [e4, e1]
  · rcases states_one_runs r.tableaus hS s h1 h2 fuel' r' hr' with ⟨_, e4⟩ | ⟨e3, _⟩
    · rw [e4, e1]
    · rw [e2] at e3
      exact absurd e3 (by decide!)

/-- The restoration theorem applied to the 1x1 game A = [[1]], B = [[1]], whose
two tableau pairs form a closed set on which two runs restore the tableau
pair: the enumeration returns the tableau pair of `create_systems`. -/
theorem all_lemke_gen_restores_witness :
    states_one (create_systems game_one 1 1) ∧
    all_lemke_gen 5 1 1 3 (create_systems game_one 1 1) (-1) []
      = .ok (({ t0 := [[-1, 1, 0, -1]], t1 := [[-2, 1, 0, -1]] } : Tableaus),
          [[(1, 1), (2, 1)]]) ∧
    ((({ t0 := [[-1, 1, 0, -1]], t1 := [[-2, 1, 0, -1]] } : Tableaus),
        ([[(1, 1), (2, 1)]] : Eqlist)) : Tableaus × Eqlist).1
      = create_systems game_one 1 1 :=
  have hT : states_one (create_systems game_one 1 1) := Or.inl (by decide!)
  ⟨hT, by decide!,
    all_lemke_gen_restores 1 1 states_one states_one_closed states_one_reversible 5 3
      (create_systems game_one 1 1) hT (-1) []
      (({ t0 := [[-1, 1, 0, -1]], t1 := [[-2, 1, 0, -1]] } : Tableaus), [[(1, 1), (2, 1)]])
      (by decide!)⟩

/-! ## The label maps `get_tableau` and `get_column` -/

theorem column_label_spec (dim1 dim2 : ℕ) (t c : ℤ) (ht : t = 0 ∨ t = 1) (h2 : 2 ≤ c)
    (hc : c ≤ (dim1 : ℤ) + dim2 + 1) :
    (column_label dim1 dim2 t c ≠ 0 ∧ -((dim1 : ℤ) + dim2) ≤ column_label dim1 dim2 t c ∧
      column_label dim1 dim2 t c ≤ (dim1 : ℤ) + dim2) ∧
    get_tableau dim1 dim2 (column_label dim1 dim2 t c) = t ∧
    get_column dim1 dim2 (column_label dim1 dim2 t c) = c := by
  unfold column_label get_tableau get_column
  rcases ht with rfl | rfl
  · simp only [if_true]
    split_ifs <;> omega
  · simp only [one_ne_zero, if_false]
    split_ifs <;> omega

theorem label_map_injective (dim1 dim2 : ℕ) (l l' : ℤ)
    (hl : l ≠ 0 ∧ -((dim1 : ℤ) + dim2) ≤ l ∧ l ≤ (dim1 : ℤ) + dim2)
    (hl' : l' ≠ 0 ∧ -((dim1 : ℤ) + dim2) ≤ l' ∧ l' ≤ (dim1 : ℤ) + dim2)
    (ht : get_tableau dim1 dim2 l = get_tableau dim1 dim2 l')
    (hc : get_column dim1 dim2 l = get_column dim1 dim2 l') : l = l' := by
  unfold get_tableau at ht
  unfold get_column at hc
  split_ifs at ht hc <;> omega

theorem get_tableau_neg (dim1 dim2 : ℕ) (l : ℤ) (hl : l ≠ 0) :
    get_tableau dim1 dim2 (-l) ≠ get_tableau dim1 dim2 l := by
  unfold get_tableau
  split_ifs <;> omega

theorem column_label_get_column (dim1 dim2 : ℕ) (l : ℤ)
    (hl : l ≠ 0 ∧ -((dim1 : ℤ) + dim2) ≤ l ∧ l ≤ (dim1 : ℤ) + dim2) :
    column_label dim1 dim2 (get_tableau dim1 dim2 l) (get_column dim1 dim2 l) = l := by
  unfold column_label get_tableau get_column
  split_ifs <;> omega

/-- C22.  With n = dim1+dim2, the map l -> (get_tableau(l), get_column(l)) is a
bijection from the labels with 1 <= |l| <= n onto {0, 1} x {2, ..., n+1}:
get_tableau(l) is 0 or 1, get_column(l) lies in [2, n+1] and get_tableau(-l)
differs from get_tableau(l); two such labels with the same tableau and the
same column are equal; and every pair of a tableau in {0, 1} and a column in
[2, n+1] is the image of such a label. -/
theorem label_map_bijective (dim1 dim2 : ℕ) :
    (∀ l : ℤ, l ≠ 0 → -((dim1 : ℤ) + dim2) ≤ l → l ≤ (dim1 : ℤ) + dim2 →
      (get_tableau dim1 dim2 l = 0 ∨ get_tableau dim1 dim2 l = 1) ∧
      2 ≤ get_column dim1 dim2 l ∧ get_column dim1 dim2 l ≤ (dim1 : ℤ) + dim2 + 1 ∧
      get_tableau dim1 dim2 (-l) ≠ get_tableau dim1 dim2 l) ∧
    (∀ l l' : ℤ, l ≠ 0 → -((dim1 : ℤ) + dim2) ≤ l → l ≤ (dim1 : ℤ) + dim2 →
      l' ≠ 0 → -((dim1 : ℤ) + dim2) ≤ l' → l' ≤ (dim1 : ℤ) + dim2 →
      get_tableau dim1 dim2 l = get_tableau dim1 dim2 l' →
      get_column dim1 dim2 l = get_column dim1 dim2 l' → l = l') ∧
    (∀ t c : ℤ, (t = 0 ∨ t = 1) → 2 ≤ c → c ≤ (dim1 : ℤ) + dim2 + 1 →
      ∃ l : ℤ, (l ≠ 0 ∧ -((dim1 : ℤ) + dim2) ≤ l ∧ l ≤ (dim1 : ℤ) + dim2) ∧
        get_tableau dim1 dim2 l = t ∧ get_column dim1 dim2 l = c) := by
  refine ⟨fun l h0 h1 h2 => ⟨?_, ?_, ?_, get_tableau_neg dim1 dim2 l h0⟩,
    fun l l' h0 h1 h2 h0' h1' h2' ht hc =>
      label_map_injective dim1 dim2 l l' ⟨h0, h1, h2⟩ ⟨h0', h1', h2'⟩ ht hc,
    fun t c ht h2 hc => ⟨column_label dim1 dim2 t c, column_label_spec dim1 dim2 t c ht h2 hc⟩⟩
  · unfold get_tableau
    split_ifs <;> omega
  · exact (get_column_range dim1 dim2 l h0 h1 h2).1
  · exact (get_column_range dim1 dim2 l h0 h1 h2).2

/-! ## `add_strategy` -/

theorem add_strategy_loop_cons (label : ℤ) (prob : ℚ) (i : ℤ × ℚ) (rest : Equilibrium) :
    add_strategy_loop label prob (i :: rest) = i :: strategy_insert label prob rest := by
  induction rest generalizing i with
  | nil => simp [add_strategy_loop, strategy_insert]
  | cons nxt rest ih =>
    simp only [add_strategy_loop, strategy_insert]
    split_ifs
    · rfl
    · rw [ih]

theorem add_strategy_eq_insert (old : Equilibrium) (label : ℤ) (prob : ℚ) :
    add_strategy old label prob = strategy_insert label prob old := by
  cases old with
  | nil => simp [add_strategy, strategy_insert]
  | cons h rest =>
    simp only [add_strategy, strategy_insert]
    split_ifs
    · rfl
    · exact add_strategy_loop_cons label prob h rest

theorem strategy_insert_split (label : ℤ) (prob : ℚ) (old : Equilibrium) :
    ∃ l₁ l₂, old = l₁ ++ l₂ ∧ strategy_insert label prob old = l₁ ++ (label, prob) :: l₂ ∧
      (∀ x ∈ l₁, x.1 ≤ label) ∧ (∀ y, l₂.head? = some y → label < y.1) := by
  induction old with
  | nil => exact ⟨[], [], rfl, rfl, by simp, by simp⟩
  | cons h rest ih =>
    simp only [strategy_insert]
    by_cases hgt : h.1 > label
    · rw [if_pos hgt]
      refine ⟨[], h :: rest, rfl, rfl, by simp, ?_⟩
      intro y hy
      simp only [List.head?_cons, Option.some.injEq] at hy
      rw [← hy]
      exact hgt
    · rw [if_neg hgt]
      obtain ⟨l₁, l₂, e1, e2, h1, h2⟩ := ih
      refine ⟨h :: l₁, l₂, by rw [e1]; rfl, by rw [e2]; rfl, ?_, h2⟩
      intro x hx
      rcases List.mem_cons.mp hx with rfl | hx
      · omega
      · exact h1 x hx

/-- C21.  For an equilibrium list whose labels are in ascending order,
add_strategy returns a list whose labels are in ascending order; its pairs
are the old pairs in their old order with the new pair put in between (the
old list is l1 ++ l2 and the result l1 ++ (label, prob) :: l2); and if the
old labels are strictly ascending and do not contain the label, the labels of
the result are strictly ascending. -/
theorem add_strategy_ascending (old : Equilibrium) (label : ℤ) (prob : ℚ)
    (h : (labels old).Pairwise (· ≤ ·)) :
    (labels (add_strategy old label prob)).Pairwise (· ≤ ·) ∧
    (∃ l₁ l₂, old = l₁ ++ l₂ ∧ add_strategy old label prob = l₁ ++ (label, prob) :: l₂) ∧
    ((labels old).Pairwise (· < ·) → label ∉ labels old →
      (labels (add_strategy old label prob)).Pairwise (· < ·)) := by
  rw [add_strategy_eq_insert]
  obtain ⟨l₁, l₂, e1, e2, h1, h2⟩ := strategy_insert_split label prob old
  have hafter : ∀ y ∈ l₂, label < y.1 := by
    intro y hy
    cases l₂ with
    | nil => cases hy
    | cons z l₂ =>
      have hz : label < z.1 := h2 z rfl
      rcases List.mem_cons.mp hy with rfl | hy
      · exact hz
      · rw [e1] at h
        simp only [labels, List.map_append, List.map_cons] at h
        have h3 := (List.pairwise_append.mp h).2.1
        have := (List.pairwise_cons.mp h3).1 y.1 (List.mem_map_of_mem Prod.fst hy)
        omega
  refine ⟨?_, ⟨l₁, l₂, e1, e2⟩, ?_⟩
  · rw [e2]
    rw [e1] at h
    simp only [labels, List.map_append, List.map_cons] at h ⊢
    obtain ⟨p1, p2, p3⟩ := List.pairwise_append.mp h
    refine List.pairwise_append.mpr ⟨p1, List.pairwise_cons.mpr ⟨?_, p2⟩, ?_⟩
    · intro b hb
      obtain ⟨y, hy, rfl⟩ := List.mem_map.mp hb
      exact le_of_lt (hafter y hy)
    · intro a ha b hb
      rcases List.mem_cons.mp hb with rfl | hb
      · obtain ⟨x, hx, rfl⟩ := List.mem_map.mp ha
        exact h1 x hx
      · exact p3 a ha b hb
  · intro hs hn
    rw [e2]
    rw [e1] at hs hn
    simp only [labels, List.map_append, List.map_cons, List.mem_append, not_or] at hs hn ⊢
    obtain ⟨p1, p2, p3⟩ := List.pairwise_append.mp hs
    refine List.pairwise_append.mpr ⟨p1, List.pairwise_cons.mpr ⟨?_, p2⟩, ?_⟩
    · intro b hb
      obtain ⟨y, hy, rfl⟩ := List.mem_map.mp hb
      exact hafter y hy
    · intro a ha b hb
      rcases List.mem_cons.mp hb with hbl | hb
      · rw [hbl]
        obtain ⟨x, hx, rfl⟩ := List.mem_map.mp ha
        have := h1 x hx
        have hne : x.1 ≠ label := fun e => hn.1 (e ▸ List.mem_map_of_mem Prod.fst hx)
        omega
      · exact p3 a ha b hb

/-- The theorem on `add_strategy` applied to the list [(1, 1/2), (3, 1/2)] and
the new pair (2, 1/4): the result is [(1, 1/2), (2, 1/4), (3, 1/2)]. -/
theorem add_strategy_ascending_witness :
    (labels [(1, 1 / 2), (3, 1 / 2)]).Pairwise (· ≤ ·) ∧
    add_strategy [(1, 1 / 2), (3, 1 / 2)] 2 (1 / 4) = [(1, 1 / 2), (2, 1 / 4), (3, 1 / 2)] ∧
    (labels (add_strategy [(1, 1 / 2), (3, 1 / 2)] 2 (1 / 4))).Pairwise (· ≤ ·) :=
  ⟨by decide, by decide!,
    (add_strategy_ascending [(1, 1 / 2), (3, 1 / 2)] 2 (1 / 4) (by decide)).1⟩

/-! ## The frame of a pivot step -/

theorem cell_ne_zero_bounds (t : Tableau) (i j : ℕ) (h : cell t i j ≠ 0) :
    i < t.length ∧ j < (t.getD i []).length := by
  have hj : j < (t.getD i []).length := by
    by_contra hj
    exact h (cell_out_of_row t i j (not_lt.mp hj))
  refine ⟨?_, hj⟩
  by_contra hi
  have : t.getD i [] = [] := by
    simp [List.getD_eq_getElem?_getD, List.getElem?_eq_none (not_lt.mp hi)]
  rw [this] at hj
  simp at hj

theorem pivot_row_label_cells (dim1 dim2 : ℕ) (t : Tableau) (index column : ℕ)
    (pivot newpivot : ℤ) (hi : index < t.length) (hrow : 0 < (t.getD index []).length)
    (hc : column ≠ 0) :
    ∀ i, cell (pivot_row dim1 dim2 t index column pivot newpivot) i 0
      = if i = index then (pivot : ℚ) else cell t i 0 := by
  unfold pivot_row
  set ta := setCell t index (get_column dim1 dim2 newpivot).toNat (-1) with hta
  set tb := setCell ta index 0 (pivot : ℚ) with htb
  have hlab : ∀ i, cell tb i 0 = if i = index then (pivot : ℚ) else cell t i 0 := by
    intro i
    rw [htb, cell_setCell]
    by_cases hii : i = index
    · have : i = index ∧ 0 = 0 ∧ index < ta.length ∧ 0 < (ta.getD index []).length := by
        refine ⟨hii, rfl, ?_, ?_⟩
        · rw [hta, length_setCell]; exact hi
        · rw [hta, row_length_setCell]; exact hrow
      rw [if_pos this, if_pos hii]
    · have : ¬ (i = index ∧ 0 = 0 ∧ index < ta.length ∧ 0 < (ta.getD index []).length) :=
        fun h => hii h.1
      rw [if_neg this, if_neg hii, hta, cell_setCell]
      have : ¬ (i = index ∧ 0 = (get_column dim1 dim2 newpivot).toNat ∧ index < t.length ∧
          (get_column dim1 dim2 newpivot).toNat < (t.getD index []).length) := fun h => hii h.1
      rw [if_neg this]
  have hk : Keeps tb (setCell ((List.range' 1 (dim1 + dim2 + 1)).foldl
      (fun u i => setCell u index i (cell u index i / -(cell tb index column))) tb) index column 0) := by
    refine keeps_trans (keeps_foldl _ _ ?_ tb) (keeps_setCell _ _ _ _ hc)
    intro u x hx
    have : 1 ≤ x := (List.mem_range'_1.mp hx).1
    exact keeps_setCell _ _ _ _ (by omega)
  exact fun i => (hk.2.2 i).trans (hlab i)

theorem pivot_step_label_cells (dim1 dim2 : ℕ) (T T' : Tableaus) (pivot q : ℤ)
    (h : pivot_step dim1 dim2 T pivot = .ok (T', q)) :
    ∀ i, cell (active dim1 dim2 T' pivot) i 0
      = if i = (step_scan dim1 dim2 T pivot).index then (pivot : ℚ)
        else cell (active dim1 dim2 T pivot) i 0 := by
  obtain ⟨hn, hu, _, hT⟩ := pivot_step_ok dim1 dim2 T T' pivot q h
  obtain ⟨_, i2, _⟩ := step_scan_spec dim1 dim2 T pivot hu
  have hc := get_column_ge_two dim1 dim2 pivot hn
  have hcol : entering_column dim1 dim2 pivot ≠ 0 := by unfold entering_column; omega
  have hne : cell (active dim1 dim2 T pivot) (step_scan dim1 dim2 T pivot).index
      (entering_column dim1 dim2 pivot) ≠ 0 := by
    intro e
    apply i2
    rw [e]
    have := eps_pos
    linarith
  obtain ⟨b1, b2⟩ := cell_ne_zero_bounds _ _ _ hne
  have hlab := pivot_row_label_cells dim1 dim2 (active dim1 dim2 T pivot)
    (step_scan dim1 dim2 T pivot).index (entering_column dim1 dim2 pivot) pivot q b1
    (by omega) hcol
  have hk := eliminate_keeps dim1 dim2
    (pivot_row dim1 dim2 (active dim1 dim2 T pivot) (step_scan dim1 dim2 T pivot).index
      (entering_column dim1 dim2 pivot) pivot q)
    (active_rows dim1 dim2 pivot) (step_scan dim1 dim2 T pivot).index
    (entering_column dim1 dim2 pivot) hcol
  have hact : active dim1 dim2 T' pivot
      = eliminate dim1 dim2
          (pivot_row dim1 dim2 (active dim1 dim2 T pivot) (step_scan dim1 dim2 T pivot).index
            (entering_column dim1 dim2 pivot) pivot q)
          (active_rows dim1 dim2 pivot) (step_scan dim1 dim2 T pivot).index
          (entering_column dim1 dim2 pivot) := by
    rw [hT]
    unfold active
    rw [getTab_putTab]
  intro i
  rw [hact]
  exact (hk.2.2 i).trans (hlab i)

theorem pivot_step_other (dim1 dim2 : ℕ) (T T' : Tableaus) (pivot q : ℤ)
    (h : pivot_step dim1 dim2 T pivot = .ok (T', q)) :
    (get_tableau dim1 dim2 pivot = 0 → T'.t1 = T.t1) ∧
    (get_tableau dim1 dim2 pivot ≠ 0 → T'.t0 = T.t0) := by
  obtain ⟨_, _, _, hT⟩ := pivot_step_ok dim1 dim2 T T' pivot q h
  rw [hT]
  unfold putTab
  constructor
  · intro h0
    rw [if_pos h0]
  · intro h0
    rw [if_neg h0]

/-- C26.  One pivot step with entering label p changes only the tableau
get_tableau(p): the other tableau is unchanged; in the active tableau the
label cell of every row other than the selected row is unchanged and the
label cell of the selected row, which held the leaving label, holds p; so the
label cells of the rows of the active tableau after the step are those before
it with the leaving label replaced by p. -/
theorem pivot_step_frame (dim1 dim2 : ℕ) (T T' : Tableaus) (pivot q : ℤ)
    (h : pivot_step dim1 dim2 T pivot = .ok (T', q)) :
    (get_tableau dim1 dim2 pivot = 0 → T'.t1 = T.t1) ∧
    (get_tableau dim1 dim2 pivot ≠ 0 → T'.t0 = T.t0) ∧
    (∀ i, i ≠ (step_scan dim1 dim2 T pivot).index →
      cell (active dim1 dim2 T' pivot) i 0 = cell (active dim1 dim2 T pivot) i 0) ∧
    (step_scan dim1 dim2 T pivot).index < active_rows dim1 dim2 pivot ∧
    toInt (cell (active dim1 dim2 T pivot) (step_scan dim1 dim2 T pivot).index 0) = q ∧
    cell (active dim1 dim2 T' pivot) (step_scan dim1 dim2 T pivot).index 0 = (pivot : ℚ) ∧
    ∃ l₁ l₂,
      row_labels (active dim1 dim2 T pivot) (active_rows dim1 dim2 pivot)
        = l₁ ++ cell (active dim1 dim2 T pivot) (step_scan dim1 dim2 T pivot).index 0 :: l₂ ∧
      row_labels (active dim1 dim2 T' pivot) (active_rows dim1 dim2 pivot)
        = l₁ ++ (pivot : ℚ) :: l₂ := by
  obtain ⟨_, hu, hq, _⟩ := pivot_step_ok dim1 dim2 T T' pivot q h
  obtain ⟨i1, _⟩ := step_scan_spec dim1 dim2 T pivot hu
  have hlab := pivot_step_label_cells dim1 dim2 T T' pivot q h
  obtain ⟨o1, o2⟩ := pivot_step_other dim1 dim2 T T' pivot q h
  refine ⟨o1, o2, fun i hi => ?_, i1, hq.symm, ?_, ?_⟩
  · rw [hlab, if_neg hi]
  · rw [hlab, if_pos rfl]
  · exact row_labels_replace _ _ _ _ (pivot : ℚ) i1 hlab

/-- The frame theorem applied to the first pivot step of the run of
`game_coord` from label 1: the first tableau is unchanged and in the second
tableau the label -3 of row 0 is replaced by 1. -/
theorem pivot_step_frame_witness :
    pivot_step 2 2 (create_systems game_coord 2 2) 1
      = .ok ({ t0 := [[-1, 1, 0, 0, -2, -1], [-2, 1, 0, 0, -1, -2]],
               t1 := [[1, 1 / 2, -1 / 2, 0, 0, -1 / 2], [-4, 1 / 2, 1 / 2, 0, 0, -3 / 2]] }, -3) ∧
    get_tableau 2 2 1 ≠ 0 ∧
    ({ t0 := [[-1, 1, 0, 0, -2, -1], [-2, 1, 0, 0, -1, -2]],
       t1 := [[1, 1 / 2, -1 / 2, 0, 0, -1 / 2], [-4, 1 / 2, 1 / 2, 0, 0, -3 / 2]] } : Tableaus).t0
      = (create_systems game_coord 2 2).t0 :=
  ⟨by decide!, by decide,
    (pivot_step_frame 2 2 (create_systems game_coord 2 2)
      { t0 := [[-1, 1, 0, 0, -2, -1], [-2, 1, 0, 0, -1, -2]],
        t1 := [[1, 1 / 2, -1 / 2, 0, 0, -1 / 2], [-4, 1 / 2, 1 / 2, 0, 0, -3 / 2]] }
      1 (-3) (by decide!)).2.1 (by decide)⟩

/-! ## The first pivot step of a run -/

theorem lh_loop_steps (dim1 dim2 : ℕ) (s : ℤ) :
    ∀ (fuel : ℕ) (T : Tableaus) (p steps : ℤ) (T' : Tableaus) (steps' : ℤ),
      lh_loop dim1 dim2 s fuel T p steps = .ok (T', steps') → steps + 1 ≤ steps' := by
  intro fuel
  induction fuel with
  | zero => intro T p steps T' steps' h; simp [lh_loop] at h
  | succ fuel ih =>
    intro T p steps T' steps' h
    simp only [lh_loop] at h
    cases hstep : pivot_step dim1 dim2 T p with
    | error e => rw [hstep] at h; cases h
    | ok r =>
      obtain ⟨T₁, q⟩ := r
      rw [hstep] at h
      simp only at h
      by_cases hqs : q = s ∨ q = -s
      · rw [if_pos hqs] at h
        simp only [Except.ok.injEq, Prod.mk.injEq] at h
        omega
      · rw [if_neg hqs] at h
        have := ih T₁ (-q) (steps + 1) T' steps' h
        omega

theorem basic_of_row0 (dim1 dim2 : ℕ) (T : Tableaus) (i : ℕ) (hi : i < dim1) (z : ℤ)
    (hz : cell T.t0 i 0 = (z : ℚ)) : Basic dim1 dim2 T z := by
  unfold Basic basis row_labels
  rw [← hz]
  exact List.mem_append_left _ (List.mem_map.mpr ⟨i, List.mem_range.mpr hi, rfl⟩)

theorem basic_of_row1 (dim1 dim2 : ℕ) (T : Tableaus) (i : ℕ) (hi : i < dim2) (z : ℤ)
    (hz : cell T.t1 i 0 = (z : ℚ)) : Basic dim1 dim2 T z := by
  unfold Basic basis row_labels
  rw [← hz]
  exact List.mem_append_right _ (List.mem_map.mpr ⟨i, List.mem_range.mpr hi, rfl⟩)

/-- The label that leaves in a pivot step on a tableau pair whose basic labels
sit in their own tableaus is basic and belongs to the tableau of the entering
label. -/
theorem pivot_step_leaving_placed (dim1 dim2 : ℕ) (T T' : Tableaus) (p q : ℤ)
    (hpl : LabelsPlaced dim1 dim2 T) (h : pivot_step dim1 dim2 T p = .ok (T', q)) :
    Basic dim1 dim2 T q ∧ get_tableau dim1 dim2 q = get_tableau dim1 dim2 p := by
  obtain ⟨hn, hu, hq, _⟩ := pivot_step_ok dim1 dim2 T T' p q h
  obtain ⟨i1, _⟩ := step_scan_spec dim1 dim2 T p hu
  unfold active getTab at hq
  unfold active_rows at i1
  rcases get_tableau_cases dim1 dim2 p hn with h0 | h1
  · rw [h0] at hq i1 ⊢
    simp only [if_true] at hq i1
    obtain ⟨z, hz, hzt⟩ := hpl.1 _ i1
    rw [hz, toInt_intCast] at hq
    rw [hq]
    exact ⟨basic_of_row0 dim1 dim2 T _ i1 z hz, hzt⟩
  · rw [h1] at hq i1 ⊢
    simp only [one_ne_zero, if_false] at hq i1
    obtain ⟨z, hz, hzt⟩ := hpl.2 _ i1
    rw [hz, toInt_intCast] at hq
    rw [hq]
    exact ⟨basic_of_row1 dim1 dim2 T _ i1 z hz, hzt⟩

theorem get_pivot_gen_not_basic (dim1 dim2 : ℕ) (T : Tableaus) (s : ℤ)
    (hc : Complementary dim1 dim2 T) (hs : 1 ≤ s ∧ s ≤ (dim1 : ℤ) + dim2) :
    (get_pivot_gen T dim1 dim2 s = s ∨ get_pivot_gen T dim1 dim2 s = -s) ∧
    ¬ Basic dim1 dim2 T (get_pivot_gen T dim1 dim2 s) ∧
    Basic dim1 dim2 T (-(get_pivot_gen T dim1 dim2 s)) := by
  rw [get_pivot_gen_eq]
  have hx := hc s hs.1 hs.2
  by_cases hb : Basic dim1 dim2 T s
  · rw [if_pos hb]
    rcases hx with ⟨_, h2⟩ | ⟨_, h2⟩
    · exact ⟨Or.inr rfl, h2, by rw [neg_neg]; exact hb⟩
    · exact absurd hb h2
  · rw [if_neg hb]
    rcases hx with ⟨h1, _⟩ | ⟨h1, _⟩
    · exact absurd h1 hb
    · exact ⟨Or.inl rfl, hb, h1⟩

theorem create_systems_placed (bimatrix : Bimatrix) (dim1 dim2 : ℕ) :
    LabelsPlaced dim1 dim2 (create_systems bimatrix dim1 dim2) := by
  constructor
  · intro i hi
    refine ⟨-(i : ℤ) - 1, create_systems_label0 bimatrix dim1 dim2 i hi, ?_⟩
    unfold get_tableau
    split_ifs <;> omega
  · intro i hi
    refine ⟨-((dim1 + i : ℕ) : ℤ) - 1, create_systems_label1 bimatrix dim1 dim2 i hi, ?_⟩
    unfold get_tableau
    split_ifs <;> omega

/-- C23.  On a tableau pair in which every basic label of tableau t is a label
of tableau t (get_tableau(label) = t) and exactly one of l, -l is basic for
every l in 1..dim1+dim2, and for a start label s in [1, dim1+dim2]: the label
that leaves at the first pivot step of lemke_howson_gen is neither s nor -s,
and a run that terminates reports a step count of at least 2. -/
theorem lh_first_step_goes_on (dim1 dim2 : ℕ) (T : Tableaus) (s : ℤ)
    (hpl : LabelsPlaced dim1 dim2 T) (hc : Complementary dim1 dim2 T)
    (hs : 1 ≤ s ∧ s ≤ (dim1 : ℤ) + dim2) :
    (∀ T' q, pivot_step dim1 dim2 T (get_pivot_gen T dim1 dim2 s) = .ok (T', q) →
      q ≠ s ∧ q ≠ -s) ∧
    (∀ fuel r, lemke_howson_gen fuel T dim1 dim2 s = .ok r → 2 ≤ r.steps) := by
  obtain ⟨hp, hpnb, _⟩ := get_pivot_gen_not_basic dim1 dim2 T s hc hs
  have hfirst : ∀ T' q, pivot_step dim1 dim2 T (get_pivot_gen T dim1 dim2 s) = .ok (T', q) →
      q ≠ s ∧ q ≠ -s := by
    intro T' q h
    obtain ⟨hqb, hqt⟩ := pivot_step_leaving_placed dim1 dim2 T T' _ q hpl h
    have hqp : q ≠ get_pivot_gen T dim1 dim2 s := fun e => hpnb (e ▸ hqb)
    have hp0 : get_pivot_gen T dim1 dim2 s ≠ 0 := by
      rcases hp with e | e <;> rw [e] <;> omega
    have hqn : q ≠ -(get_pivot_gen T dim1 dim2 s) := by
      intro e
      rw [e] at hqt
      exact get_tableau_neg dim1 dim2 _ hp0 hqt
    rcases hp with e | e
    · rw [e] at hqp hqn
      exact ⟨hqp, hqn⟩
    · rw [e] at hqp hqn
      rw [neg_neg] at hqn
      exact ⟨hqn, hqp⟩
  refine ⟨hfirst, ?_⟩
  intro fuel r h
  unfold lemke_howson_gen at h
  cases hl : lh_loop dim1 dim2 s fuel T (get_pivot_gen T dim1 dim2 s) 0 with
  | error e => rw [hl] at h; cases h
  | ok x =>
    obtain ⟨T', steps'⟩ := x
    rw [hl] at h
    simp only [Except.ok.injEq] at h
    rw [← h]
    show 2 ≤ steps'
    cases fuel with
    | zero => simp [lh_loop] at hl
    | succ fuel =>
      simp only [lh_loop] at hl
      cases hstep : pivot_step dim1 dim2 T (get_pivot_gen T dim1 dim2 s) with
      | error e => rw [hstep] at hl; cases hl
      | ok y =>
        obtain ⟨T₁, q⟩ := y
        rw [hstep] at hl
        simp only at hl
        have hq := hfirst T₁ q hstep
        rw [if_neg (by tauto)] at hl
        have := lh_loop_steps dim1 dim2 s fuel T₁ (-q) (0 + 1) T' steps' hl
        omega

/-- The theorem on the first step applied to the run of `game_coord` from
label 1: the first step ends with -3 leaving, and the run takes 2 steps. -/
theorem lh_first_step_goes_on_witness :
    (1 ≤ (1 : ℤ) ∧ (1 : ℤ) ≤ ((2 : ℕ) : ℤ) + (2 : ℕ)) ∧
    (∀ T' q, pivot_step 2 2 (create_systems game_coord 2 2)
        (get_pivot_gen (create_systems game_coord 2 2) 2 2 1) = .ok (T', q) →
      q ≠ 1 ∧ q ≠ -1) ∧
    (∀ fuel r, lemke_howson_gen fuel (create_systems game_coord 2 2) 2 2 1 = .ok r →
      2 ≤ r.steps) :=
  ⟨by decide,
    lh_first_step_goes_on 2 2 (create_systems game_coord 2 2) 1
      (create_systems_placed game_coord 2 2) (create_systems_complementary game_coord 2 2)
      (by decide)⟩

/-! ## The end of a run -/

theorem basis_length (dim1 dim2 : ℕ) (T : Tableaus) :
    (basis dim1 dim2 T).length = dim1 + dim2 := by
  simp [basis, row_labels]

/-- A complementary basis of the allocated shape consists of pairwise distinct
integer labels of absolute value in `1..dim1+dim2`: it has `dim1+dim2` members
and holds one of `l`, `-l` for each of the `dim1+dim2` values of `l`. -/
theorem labelsOK_of_complementary (dim1 dim2 : ℕ) (T : Tableaus) (hS : Shape dim1 dim2 T)
    (hc : Complementary dim1 dim2 T) : LabelsOK dim1 dim2 T := by
  classical
  set b := basis dim1 dim2 T with hb
  obtain ⟨σ, hσ⟩ : ∃ σ : ℕ → ℤ, ∀ k, σ k
      = if (((k : ℤ) + 1 : ℤ) : ℚ) ∈ b then (k : ℤ) + 1 else -((k : ℤ) + 1) :=
    ⟨_, fun _ => rfl⟩
  have hσabs : ∀ k, σ k = (k : ℤ) + 1 ∨ σ k = -((k : ℤ) + 1) := by
    intro k
    rw [hσ]
    split_ifs
    · exact Or.inl rfl
    · exact Or.inr rfl
  have hσmem : ∀ k < dim1 + dim2, ((σ k : ℤ) : ℚ) ∈ b := by
    intro k hk
    have hx := hc ((k : ℤ) + 1) (by omega) (by omega)
    rw [hσ]
    by_cases hin : (((k : ℤ) + 1 : ℤ) : ℚ) ∈ b
    · rw [if_pos hin]
      exact hin
    · rw [if_neg hin]
      rcases hx with ⟨h1, _⟩ | ⟨h1, _⟩
      · exact absurd h1 hin
      · exact h1
  set Lz : List ℤ := (List.range (dim1 + dim2)).map σ with hLz
  have hLznd : Lz.Nodup := by
    apply List.Nodup.map_on _ (List.nodup_range _)
    intro x _ y _ hxy
    rcases hσabs x with e1 | e1 <;> rcases hσabs y with e2 | e2 <;> rw [e1, e2] at hxy <;> omega
  have hLnd : (List.map (fun z : ℤ => (z : ℚ)) Lz).Nodup :=
    List.Nodup.map (fun x y hxy => by exact_mod_cast hxy) hLznd
  have hsub : List.map (fun z : ℤ => (z : ℚ)) Lz ⊆ b := by
    intro x hx
    obtain ⟨z, hz, rfl⟩ := List.mem_map.mp hx
    obtain ⟨k, hk, rfl⟩ := List.mem_map.mp hz
    exact hσmem k (List.mem_range.mp hk)
  have hperm : (List.map (fun z : ℤ => (z : ℚ)) Lz).Perm b := by
    apply (List.subperm_of_subset hLnd hsub).perm_of_length_le
    rw [hb, basis_length]
    simp [hLz]
  have hint : ∀ x ∈ b, ∃ z ∈ Lz, x = (z : ℚ) := by
    intro x hx
    obtain ⟨z, hz, rfl⟩ := List.mem_map.mp (hperm.mem_iff.mpr hx)
    exact ⟨z, hz, rfl⟩
  have hbmap : b = List.map (fun z : ℤ => (z : ℚ)) (b.map toInt) := by
    rw [List.map_map]
    conv_lhs => rw [← List.map_id b]
    apply List.map_congr_left
    intro x hx
    obtain ⟨z, _, rfl⟩ := hint x hx
    simp [toInt_intCast]
  refine ⟨hS, b.map toInt, hbmap, ?_, ?_⟩
  · have hbnd : b.Nodup := hperm.nodup_iff.mp hLnd
    rw [hbmap] at hbnd
    exact List.Nodup.of_map _ hbnd
  · intro z hz
    obtain ⟨x, hx, rfl⟩ := List.mem_map.mp hz
    obtain ⟨z', hz', rfl⟩ := hint x hx
    rw [toInt_intCast]
    obtain ⟨k, hk, rfl⟩ := List.mem_map.mp hz'
    have hk' := List.mem_range.mp hk
    rcases hσabs k with e | e <;> rw [e] <;> omega

/-- The last step of a run that returns: after some `k` steps the loop is at
`(Tk, pk)`, the step from there ends the run with `s` or `-s` leaving. -/
theorem lh_loop_last (dim1 dim2 : ℕ) (s : ℤ) :
    ∀ (fuel : ℕ) (T : Tableaus) (p steps : ℤ) (T' : Tableaus) (steps' : ℤ),
      lh_loop dim1 dim2 s fuel T p steps = .ok (T', steps') →
      ∃ (k : ℕ) (Tk : Tableaus) (pk q : ℤ),
        lh_config dim1 dim2 s k T p = some (Tk, pk) ∧
        pivot_step dim1 dim2 Tk pk = .ok (T', q) ∧ (q = s ∨ q = -s) ∧
        steps' = steps + k + 1 := by
  intro fuel
  induction fuel with
  | zero => intro T p steps T' steps' h; simp [lh_loop] at h
  | succ fuel ih =>
    intro T p steps T' steps' h
    simp only [lh_loop] at h
    cases hstep : pivot_step dim1 dim2 T p with
    | error e => rw [hstep] at h; cases h
    | ok r =>
      obtain ⟨T₁, q⟩ := r
      rw [hstep] at h
      simp only at h
      by_cases hqs : q = s ∨ q = -s
      · rw [if_pos hqs] at h
        simp only [Except.ok.injEq, Prod.mk.injEq] at h
        obtain ⟨rfl, hst⟩ := h
        exact ⟨0, T, p, q, rfl, hstep, hqs, by simp [← hst]⟩
      · rw [if_neg hqs] at h
        obtain ⟨k, Tk, pk, q', h1, h2, h3, h4⟩ := ih T₁ (-q) (steps + 1) T' steps' h
        refine ⟨k + 1, Tk, pk, q', ?_, h2, h3, ?_⟩
        · simp only [lh_config, hstep, if_neg hqs]
          exact h1
        · push_cast
          omega

/-- The last step of a run from a state that satisfies the run invariant: the
label that leaves is not basic afterwards and its complement is. -/
theorem run_last_step (dim1 dim2 : ℕ) (s : ℤ) (T T' : Tableaus) (p q : ℤ)
    (hs : 1 ≤ s ∧ s ≤ (dim1 : ℤ) + dim2) (hinv : RunInv dim1 dim2 s T p)
    (h : pivot_step dim1 dim2 T p = .ok (T', q)) (hq : q = s ∨ q = -s) :
    Complementary dim1 dim2 T' ∧ ¬ Basic dim1 dim2 T' q ∧ Basic dim1 dim2 T' (-q) := by
  obtain ⟨_, hstop, _⟩ := run_step dim1 dim2 s T T' p q hs hinv h
  have hcomp := hstop hq
  obtain ⟨hok, hp, hcase⟩ := hinv
  have hpb : ¬ Basic dim1 dim2 T p := by
    rcases hcase with ⟨_, _, h3⟩ | ⟨_, _, h3, _⟩
    · exact h3
    · exact h3
  obtain ⟨_, _, M, hqM, hB, hB'⟩ := pivot_step_labels dim1 dim2 T T' p q hok hp hpb h
  have hqb : Basic dim1 dim2 T q := (hB q).mpr (Or.inl rfl)
  have hqp : q ≠ p := fun e => hpb (e ▸ hqb)
  have hnq : ¬ Basic dim1 dim2 T' q := by
    rw [hB']
    rintro (e | e)
    · exact hqp e
    · exact hqM e
  refine ⟨hcomp, hnq, ?_⟩
  have hx := hcomp s hs.1 hs.2
  rcases hq with e | e
  · rw [e] at hnq ⊢
    rcases hx with ⟨h1, _⟩ | ⟨h1, _⟩
    · exact absurd h1 hnq
    · exact h1
  · rw [e] at hnq ⊢
    rw [neg_neg]
    rcases hx with ⟨h1, _⟩ | ⟨h1, _⟩
    · exact h1
    · exact absurd h1 hnq

/-- C24 as stated fails.  In the run of the game A = [[1, 1], [2, 2]],
B = [[1, 2], [2, 1]] from the tableau pair of `create_systems` (complementary,
with -1 basic and 1 not) and start label 1, label 1 enters at the first step;
the run ends after 5 steps, and in the final tableau pair -1 is basic and 1 is
not, as in the starting basis: label 1 has not been exchanged with its
complement, it has left the basis again at the last step. -/
theorem lh_entering_label_leaves_again :
    Complementary 2 2 (create_systems game_dominated 2 2) ∧
    get_pivot_gen (create_systems game_dominated 2 2) 2 2 1 = 1 ∧
    ¬ Basic 2 2 (create_systems game_dominated 2 2) 1 ∧
    Basic 2 2 (create_systems game_dominated 2 2) (-1) ∧
    lemke_howson_gen 5 (create_systems game_dominated 2 2) 2 2 1
      = .ok { eq := [(2, 1), (3, 1)],
              tableaus :=
                { t0 := [[-1, 1 / 2, 0, 1 / 2, 0, 0], [3, 1 / 2, 0, -1 / 2, 0, -1]],
                  t1 := [[2, 1 / 2, -1 / 2, 0, -1 / 2, 0], [-4, 1 / 2, 1 / 2, 0, -3 / 2, 0]] },
              steps := 5 } ∧
    ¬ Basic 2 2
        { t0 := [[-1, 1 / 2, 0, 1 / 2, 0, 0], [3, 1 / 2, 0, -1 / 2, 0, -1]],
          t1 := [[2, 1 / 2, -1 / 2, 0, -1 / 2, 0], [-4, 1 / 2, 1 / 2, 0, -3 / 2, 0]] } 1 ∧
    Basic 2 2
        { t0 := [[-1, 1 / 2, 0, 1 / 2, 0, 0], [3, 1 / 2, 0, -1 / 2, 0, -1]],
          t1 := [[2, 1 / 2, -1 / 2, 0, -1 / 2, 0], [-4, 1 / 2, 1 / 2, 0, -3 / 2, 0]] } (-1) :=
  ⟨create_systems_complementary game_dominated 2 2, by decide!, by decide!, by decide!,
    by decide!, by decide!, by decide!⟩

/-- C24, amended.  On a tableau pair of the allocated shape in which exactly
one of l, -l is basic for every l in 1..dim1+dim2, and for a start label s in
[1, dim1+dim2]: the label p that enters at the first step is s or -s, it is
not basic at the start and its complement is; if lemke_howson_gen terminates,
then in the final tableau pair again exactly one of l, -l is basic for every l
in 1..dim1+dim2, and the label q that left at the last step is s or -s, is not
basic in the final pair and its complement is.  (So p has been exchanged with
its complement when q = -p, and is out of the basis again when q = p.) -/
theorem lh_final_complementary (dim1 dim2 : ℕ) (T : Tableaus) (s : ℤ)
    (hS : Shape dim1 dim2 T) (hc : Complementary dim1 dim2 T)
    (hs : 1 ≤ s ∧ s ≤ (dim1 : ℤ) + dim2) :
    (get_pivot_gen T dim1 dim2 s = s ∨ get_pivot_gen T dim1 dim2 s = -s) ∧
    ¬ Basic dim1 dim2 T (get_pivot_gen T dim1 dim2 s) ∧
    Basic dim1 dim2 T (-(get_pivot_gen T dim1 dim2 s)) ∧
    ∀ fuel r, lemke_howson_gen fuel T dim1 dim2 s = .ok r →
      Complementary dim1 dim2 r.tableaus ∧
      ∃ (k : ℕ) (Tk : Tableaus) (pk q : ℤ),
        lh_config dim1 dim2 s k T (get_pivot_gen T dim1 dim2 s) = some (Tk, pk) ∧
        pivot_step dim1 dim2 Tk pk = .ok (r.tableaus, q) ∧ r.steps = k + 1 ∧
        (q = s ∨ q = -s) ∧ ¬ Basic dim1 dim2 r.tableaus q ∧ Basic dim1 dim2 r.tableaus (-q) := by
  obtain ⟨hp, hpnb, hpc⟩ := get_pivot_gen_not_basic dim1 dim2 T s hc hs
  refine ⟨hp, hpnb, hpc, ?_⟩
  have hinit : RunInv dim1 dim2 s T (get_pivot_gen T dim1 dim2 s) := by
    refine ⟨labelsOK_of_complementary dim1 dim2 T hS hc, ?_, Or.inl ⟨hc, hp, hpnb⟩⟩
    rcases hp with e | e <;> rw [e] <;> omega
  intro fuel r h
  unfold lemke_howson_gen at h
  cases hl : lh_loop dim1 dim2 s fuel T (get_pivot_gen T dim1 dim2 s) 0 with
  | error e => rw [hl] at h; cases h
  | ok x =>
    obtain ⟨T', steps'⟩ := x
    rw [hl] at h
    simp only [Except.ok.injEq] at h
    rw [← h]
    show Complementary dim1 dim2 T' ∧ ∃ (k : ℕ) (Tk : Tableaus) (pk q : ℤ),
        lh_config dim1 dim2 s k T (get_pivot_gen T dim1 dim2 s) = some (Tk, pk) ∧
        pivot_step dim1 dim2 Tk pk = .ok (T', q) ∧ steps' = k + 1 ∧
        (q = s ∨ q = -s) ∧ ¬ Basic dim1 dim2 T' q ∧ Basic dim1 dim2 T' (-q)
    obtain ⟨k, Tk, pk, q, h1, h2, h3, h4⟩ := lh_loop_last dim1 dim2 s fuel T _ 0 T' steps' hl
    obtain ⟨hinvk, _⟩ := lh_config_inv dim1 dim2 s hs k T _ Tk pk hinit h1
    obtain ⟨r1, r2, r3⟩ := run_last_step dim1 dim2 s Tk T' pk q hs hinvk h2 h3
    exact ⟨r1, k, Tk, pk, q, h1, h2, by omega, h3, r2, r3⟩

/-- The amended theorem applied to the run of `game_dominated` from label 1,
which returns with 5 steps. -/
theorem lh_final_complementary_witness :
    (1 ≤ (1 : ℤ) ∧ (1 : ℤ) ≤ ((2 : ℕ) : ℤ) + (2 : ℕ)) ∧
    (lemke_howson_gen 5 (create_systems game_dominated 2 2) 2 2 1).isOk = true ∧
    ∀ fuel r, lemke_howson_gen fuel (create_systems game_dominated 2 2) 2 2 1 = .ok r →
      Complementary 2 2 r.tableaus :=
  ⟨by decide, by decide!,
    fun fuel r h =>
      ((lh_final_complementary 2 2 (create_systems game_dominated 2 2) 1
        (create_systems_shape game_dominated 2 2)
        (create_systems_complementary game_dominated 2 2) (by decide)).2.2.2 fuel r h).1⟩

/-! ## The row equations -/

theorem sumTo_eq_sum (n : ℕ) (f : ℕ → ℚ) : sumTo n f = ∑ k ∈ Finset.range n, f k := by
  induction n with
  | zero => simp [sumTo]
  | succ n ih =>
    rw [Finset.sum_range_succ, ← ih]
    simp [sumTo, List.range_succ]

theorem sum_pick (n m : ℕ) (hm : m < n) (X : ℕ → ℚ) :
    ∑ k ∈ Finset.range n, (if k = m then (1 : ℚ) else 0) * X k = X m := by
  simp [Finset.sum_ite_eq', hm, ite_mul]

/-- The equation of the selected row before the row update is equivalent to
the equation of the updated row: `xq = v + sum co k * X k`, solved for the
variable `xp` of column `kc` with coefficient `a ≠ 0`. -/
theorem row_r_equiv (n kc kq : ℕ) (hkc : kc < n) (hkq : kq < n) (hne : kc ≠ kq) (a v : ℚ)
    (ha : a ≠ 0) (co X : ℕ → ℚ) (xp xq : ℚ) (hXc : X kc = xp) (hXq : X kq = xq)
    (hcc : co kc = a) (hcq : co kq = 0) :
    (xq = v + ∑ k ∈ Finset.range n, co k * X k) ↔
    (xp = v / (-a) + ∑ k ∈ Finset.range n,
      (if k = kc then 0 else (if k = kq then -1 else co k) / (-a)) * X k) := by
  have hpt : ∀ k ∈ Finset.range n,
      (if k = kc then 0 else (if k = kq then -1 else co k) / (-a)) * X k
        = (co k * X k) / (-a) + (1 / a) * ((if k = kq then (1 : ℚ) else 0) * X k)
          + (if k = kc then (1 : ℚ) else 0) * X k := by
    intro k _
    by_cases h1 : k = kc
    · have h2 : ¬ k = kq := fun e => hne (h1.symm.trans e)
      rw [if_pos h1, if_neg h2, if_pos h1, h1, hcc, div_neg]
      field_simp
    · by_cases h2 : k = kq
      · rw [if_neg h1, if_pos h2, if_pos h2, if_neg h1, h2, hcq, div_neg]
        field_simp
      · rw [if_neg h1, if_neg h2, if_neg h2, if_neg h1]
        ring
  rw [Finset.sum_congr rfl hpt, Finset.sum_add_distrib, Finset.sum_add_distrib,
    ← Finset.sum_div, ← Finset.mul_sum, sum_pick n kq hkq, sum_pick n kc hkc, hXc, hXq]
  generalize ∑ k ∈ Finset.range n, co k * X k = S
  have key : v / (-a) + (S / (-a) + 1 / a * xq + xp) = xp + (xq - v - S) / a := by
    rw [div_neg, div_neg]
    field_simp
    ring
  rw [key]
  constructor
  · intro h
    rw [h]
    ring_nf
  · intro h
    have h2 : (xq - v - S) / a = 0 := by linarith
    rcases div_eq_zero_iff.mp h2 with h3 | h3
    · linarith
    · exact absurd h3 ha

/-- Given the equation of the updated selected row, the equation of another
row before the elimination is equivalent to its equation afterwards. -/
theorem row_i_equiv (n kc : ℕ) (hkc : kc < n) (ki vi R1 : ℚ) (coi R X : ℕ → ℚ) (xp xl : ℚ)
    (hXc : X kc = xp) (hci : coi kc = ki) (hRc : R kc = 0)
    (hEr : xp = R1 + ∑ k ∈ Finset.range n, R k * X k) :
    (xl = vi + ∑ k ∈ Finset.range n, coi k * X k) ↔
    (xl = (vi + ki * R1) + ∑ k ∈ Finset.range n,
      (if k = kc then 0 else coi k + ki * R k) * X k) := by
  have hpt : ∀ k ∈ Finset.range n,
      (if k = kc then 0 else coi k + ki * R k) * X k
        = coi k * X k + ki * (R k * X k) - ki * ((if k = kc then (1 : ℚ) else 0) * X k) := by
    intro k _
    by_cases h1 : k = kc
    · rw [if_pos h1, if_pos h1, h1, hci, hRc]
      ring
    · rw [if_neg h1, if_neg h1]
      ring
  rw [Finset.sum_congr rfl hpt, Finset.sum_sub_distrib, Finset.sum_add_distrib,
    ← Finset.mul_sum, ← Finset.mul_sum, sum_pick n kc hkc, hXc]
  have hk : ki * xp = ki * (R1 + ∑ k ∈ Finset.range n, R k * X k) := by rw [← hEr]
  constructor
  · intro h
    rw [h]
    linarith
  · intro h
    linarith

theorem row_equation_iff (dim1 dim2 : ℕ) (nt : ℤ) (t : Tableau) (i : ℕ) (x : ℤ → ℚ)
    (X : ℕ → ℚ) (hX : ∀ k, X k = x (column_label dim1 dim2 nt ((k : ℤ) + 2))) :
    row_equation dim1 dim2 nt t i x ↔
      x (toInt (cell t i 0)) = cell t i 1
        + ∑ k ∈ Finset.range (dim1 + dim2), cell t i (k + 2) * X k := by
  unfold row_equation
  rw [sumTo_eq_sum]
  simp only [hX]

/-- The row equations of a tableau before and after the row update and the
elimination have the same solutions, given how the cells change. -/
theorem solves_equiv_core (dim1 dim2 : ℕ) (nt : ℤ) (t t' : Tableau) (rows r c cq : ℕ)
    (p q : ℤ) (x : ℤ → ℚ)
    (hr : r < rows) (hc1 : 2 ≤ c) (hc2 : c < dim1 + dim2 + 2)
    (hq1 : 2 ≤ cq) (hq2 : cq < dim1 + dim2 + 2) (hcq : cq ≠ c)
    (ha : cell t r c ≠ 0) (hlabq : toInt (cell t r 0) = q)
    (hvarc : column_label dim1 dim2 nt (c : ℤ) = p)
    (hvarq : column_label dim1 dim2 nt (cq : ℤ) = q)
    (hzero : cell t r cq = 0)
    (hrow : ∀ j, cell t' r j
      = if j = c then 0 else if j = 0 then (p : ℚ)
        else if j < dim1 + dim2 + 2 then
          (if j = cq then -1 else cell t r j) / -(cell t r c)
        else cell t r j)
    (hother : ∀ i, i < rows → i ≠ r →
      (∀ j, cell t' i j = cell t i j) ∨
      (∀ j, cell t' i j
        = if j = c then 0
          else if 1 ≤ j ∧ j < dim1 + dim2 + 2 then cell t i j + cell t i c * cell t' r j
          else cell t i j)) :
    (∀ i < rows, row_equation dim1 dim2 nt t i x) ↔
      (∀ i < rows, row_equation dim1 dim2 nt t' i x) := by
  obtain ⟨X, hX⟩ : ∃ X : ℕ → ℚ, ∀ k, X k = x (column_label dim1 dim2 nt ((k : ℤ) + 2)) :=
    ⟨_, fun _ => rfl⟩
  have hkc2 : (c - 2) + 2 = c := by omega
  have hkq2 : (cq - 2) + 2 = cq := by omega
  have hXc : X (c - 2) = x p := by
    rw [hX, ← hvarc]
    congr 2
    omega
  have hXq : X (cq - 2) = x q := by
    rw [hX, ← hvarq]
    congr 2
    omega
  have e0 : toInt (cell t' r 0) = p := by
    rw [hrow, if_neg (by omega), if_pos rfl, toInt_intCast]
  have e1 : cell t' r 1 = cell t r 1 / -(cell t r c) := by
    rw [hrow, if_neg (by omega), if_neg (by omega), if_pos (by omega), if_neg (by omega)]
  have ek : ∀ k ∈ Finset.range (dim1 + dim2), cell t' r (k + 2) * X k
      = (if k = c - 2 then 0
          else (if k = cq - 2 then -1 else cell t r (k + 2)) / -(cell t r c)) * X k := by
    intro k hk
    have hk' := Finset.mem_range.mp hk
    rw [hrow]
    by_cases h1 : k = c - 2
    · rw [if_pos (by omega), if_pos h1]
    · rw [if_neg (by omega), if_neg (by omega), if_pos (by omega), if_neg h1]
      by_cases h2 : k = cq - 2
      · rw [if_pos (by omega), if_pos h2]
      · rw [if_neg (by omega), if_neg h2]
  have hcc : cell t r ((c - 2) + 2) = cell t r c := by rw [hkc2]
  have hcz : cell t r ((cq - 2) + 2) = 0 := by rw [hkq2]; exact hzero
  have her : row_equation dim1 dim2 nt t r x ↔ row_equation dim1 dim2 nt t' r x := by
    rw [row_equation_iff dim1 dim2 nt t r x X hX, row_equation_iff dim1 dim2 nt t' r x X hX,
      hlabq, e0, e1, Finset.sum_congr rfl ek]
    exact row_r_equiv (dim1 + dim2) (c - 2) (cq - 2) (by omega) (by omega) (by omega)
      (cell t r c) (cell t r 1) ha (fun k => cell t r (k + 2)) X (x p) (x q) hXc hXq hcc hcz
  have hoth : ∀ i, i < rows → i ≠ r → row_equation dim1 dim2 nt t' r x →
      (row_equation dim1 dim2 nt t i x ↔ row_equation dim1 dim2 nt t' i x) := by
    intro i hi hir hEr
    rcases hother i hi hir with hsame | hmod
    · rw [row_equation_iff dim1 dim2 nt t i x X hX, row_equation_iff dim1 dim2 nt t' i x X hX]
      simp only [hsame]
    · rw [row_equation_iff dim1 dim2 nt t' r x X hX, e0] at hEr
      have f0 : cell t' i 0 = cell t i 0 := by
        rw [hmod, if_neg (by omega), if_neg (by omega)]
      have f1 : cell t' i 1 = cell t i 1 + cell t i c * cell t' r 1 := by
        rw [hmod, if_neg (by omega), if_pos (by omega)]
      have fk : ∀ k ∈ Finset.range (dim1 + dim2), cell t' i (k + 2) * X k
          = (if k = c - 2 then 0
              else cell t i (k + 2) + cell t i c * cell t' r (k + 2)) * X k := by
        intro k hk
        have hk' := Finset.mem_range.mp hk
        rw [hmod]
        by_cases h1 : k = c - 2
        · rw [if_pos (by omega), if_pos h1]
        · rw [if_neg (by omega), if_pos (by omega), if_neg h1]
      have hRc : cell t' r ((c - 2) + 2) = 0 := by
        rw [hkc2, hrow, if_pos rfl]
      have hci : cell t i ((c - 2) + 2) = cell t i c := by rw [hkc2]
      rw [row_equation_iff dim1 dim2 nt t i x X hX, row_equation_iff dim1 dim2 nt t' i x X hX,
        f0, f1, Finset.sum_congr rfl fk]
      exact row_i_equiv (dim1 + dim2) (c - 2) (by omega) (cell t i c) (cell t i 1)
        (cell t' r 1) (fun k => cell t i (k + 2)) (fun k => cell t' r (k + 2)) X (x p)
        (x (toInt (cell t i 0))) hXc hci hRc hEr
  constructor
  · intro H
    have hEr := her.mp (H r hr)
    intro i hi
    by_cases hir : i = r
    · rw [hir]; exact hEr
    · exact (hoth i hi hir hEr).mp (H i hi)
  · intro H
    have hEr := H r hr
    intro i hi
    by_cases hir : i = r
    · rw [hir]; exact her.mpr hEr
    · exact (hoth i hi hir hEr).mpr (H i hi)

theorem basic_of_active (dim1 dim2 : ℕ) (T : Tableaus) (p : ℤ) (i : ℕ)
    (hi : i < active_rows dim1 dim2 p) (z : ℤ)
    (hz : cell (active dim1 dim2 T p) i 0 = (z : ℚ)) : Basic dim1 dim2 T z := by
  unfold active getTab at hz
  unfold active_rows at hi
  by_cases h0 : get_tableau dim1 dim2 p = 0
  · rw [if_pos h0] at hz hi
    exact basic_of_row0 dim1 dim2 T i hi z hz
  · rw [if_neg h0] at hz hi
    exact basic_of_row1 dim1 dim2 T i hi z hz

/-- The row equations of the active tableau have the same solutions before and
after a pivot step in exact arithmetic, on a tableau pair of the allocated
shape whose active tableau holds labels of its own, when the entering label is
a label that is not basic and the column of every basic label of the active
tableau is zero in every row of the active tableau. -/
theorem pivot_step_solutions (dim1 dim2 : ℕ) (T T' : Tableaus) (pivot q : ℤ)
    (hS : Shape dim1 dim2 T)
    (hp : pivot ≠ 0 ∧ -((dim1 : ℤ) + dim2) ≤ pivot ∧ pivot ≤ (dim1 : ℤ) + dim2)
    (h : pivot_step dim1 dim2 T pivot = .ok (T', q))
    (hnb : ¬ Basic dim1 dim2 T pivot)
    (hlab : ∀ i < active_rows dim1 dim2 pivot, ∃ z : ℤ,
      cell (active dim1 dim2 T pivot) i 0 = (z : ℚ) ∧
      (z ≠ 0 ∧ -((dim1 : ℤ) + dim2) ≤ z ∧ z ≤ (dim1 : ℤ) + dim2) ∧
      get_tableau dim1 dim2 z = get_tableau dim1 dim2 pivot)
    (hz : ∀ i < active_rows dim1 dim2 pivot, ∀ i' < active_rows dim1 dim2 pivot,
      cell (active dim1 dim2 T pivot) i'
        (get_column dim1 dim2 (toInt (cell (active dim1 dim2 T pivot) i 0))).toNat = 0) :
    ∀ x : ℤ → ℚ, Solves dim1 dim2 T pivot x ↔ Solves dim1 dim2 T' pivot x := by
  obtain ⟨hn, _, hqdef, _⟩ := pivot_step_ok dim1 dim2 T T' pivot q h
  obtain ⟨hr, hel, hc1, hc2⟩ := pivot_step_selected dim1 dim2 T T' pivot q hS h
  obtain ⟨_, hcells⟩ := pivot_step_cells dim1 dim2 T T' pivot q hS h
  have ha : cell (active dim1 dim2 T pivot) (step_scan dim1 dim2 T pivot).index
      (entering_column dim1 dim2 pivot) ≠ 0 := by
    intro e
    apply hel
    rw [e]
    have := eps_pos
    linarith
  obtain ⟨z, hz1, hzv, hzt⟩ := hlab _ hr
  have hqz : q = z := by rw [hqdef, hz1, toInt_intCast]
  have hqb : Basic dim1 dim2 T q := by
    rw [hqz]
    exact basic_of_active dim1 dim2 T pivot _ hr z hz1
  have hqp : q ≠ pivot := fun e => hnb (e ▸ hqb)
  have hqv : q ≠ 0 ∧ -((dim1 : ℤ) + dim2) ≤ q ∧ q ≤ (dim1 : ℤ) + dim2 := by rw [hqz]; exact hzv
  have hqt : get_tableau dim1 dim2 q = get_tableau dim1 dim2 pivot := by rw [hqz]; exact hzt
  have hcolne : get_column dim1 dim2 q ≠ get_column dim1 dim2 pivot :=
    fun e => hqp (label_map_injective dim1 dim2 q pivot hqv hp hqt e)
  obtain ⟨hq1, hq2⟩ := get_column_range dim1 dim2 q hqv.1 hqv.2.1 hqv.2.2
  obtain ⟨hp1, hp2⟩ := get_column_range dim1 dim2 pivot hp.1 hp.2.1 hp.2.2
  have hcq : (get_column dim1 dim2 q).toNat ≠ entering_column dim1 dim2 pivot := by
    unfold entering_column
    omega
  have hvarc : column_label dim1 dim2 (get_tableau dim1 dim2 pivot)
      ((entering_column dim1 dim2 pivot : ℕ) : ℤ) = pivot := by
    have : ((entering_column dim1 dim2 pivot : ℕ) : ℤ) = get_column dim1 dim2 pivot := by
      unfold entering_column
      omega
    rw [this]
    exact column_label_get_column dim1 dim2 pivot hp
  have hvarq : column_label dim1 dim2 (get_tableau dim1 dim2 pivot)
      (((get_column dim1 dim2 q).toNat : ℕ) : ℤ) = q := by
    have : (((get_column dim1 dim2 q).toNat : ℕ) : ℤ) = get_column dim1 dim2 q := by omega
    rw [this, ← hqt]
    exact column_label_get_column dim1 dim2 q hqv
  have hzero : cell (active dim1 dim2 T pivot) (step_scan dim1 dim2 T pivot).index
      (get_column dim1 dim2 q).toNat = 0 := by
    have := hz _ hr _ hr
    rw [← hqdef] at this
    exact this
  have hrow : ∀ j, cell (active dim1 dim2 T' pivot) (step_scan dim1 dim2 T pivot).index j
      = if j = entering_column dim1 dim2 pivot then 0 else if j = 0 then (pivot : ℚ)
        else if j < dim1 + dim2 + 2 then
          (if j = (get_column dim1 dim2 q).toNat then -1
            else cell (active dim1 dim2 T pivot) (step_scan dim1 dim2 T pivot).index j)
          / -(cell (active dim1 dim2 T pivot) (step_scan dim1 dim2 T pivot).index
              (entering_column dim1 dim2 pivot))
        else cell (active dim1 dim2 T pivot) (step_scan dim1 dim2 T pivot).index j := by
    intro j
    rw [hcells, if_pos rfl]
    unfold pivoted_cell
    rw [if_neg (Ne.symm hcq)]
  intro x
  unfold Solves
  refine solves_equiv_core dim1 dim2 (get_tableau dim1 dim2 pivot) (active dim1 dim2 T pivot)
    (active dim1 dim2 T' pivot) (active_rows dim1 dim2 pivot) (step_scan dim1 dim2 T pivot).index
    (entering_column dim1 dim2 pivot) (get_column dim1 dim2 q).toNat pivot q x hr hc1 hc2
    (by omega) (by omega) hcq ha hqdef.symm hvarc hvarq hzero hrow ?_
  intro i hi hir
  by_cases hcond : cell (active dim1 dim2 T pivot) i (entering_column dim1 dim2 pivot) < -eps ∨
      cell (active dim1 dim2 T pivot) i (entering_column dim1 dim2 pivot) > eps
  · right
    intro j
    rw [hcells, if_neg hir, if_pos ⟨hi, hcond⟩, hcells _ j, if_pos rfl]
  · left
    intro j
    rw [hcells, if_neg hir, if_neg (fun h' => hcond h'.2)]

/-! ## Double arithmetic: labels and shape along a run -/

theorem ratio_body_fl_updated (t : Tableau) (column : ℕ) (s : Scan) (i : ℕ) :
    (ratio_body_fl t column s i).updated = true →
      (ratio_body_fl t column s i).index = i ∨
        (s.updated = true ∧ (ratio_body_fl t column s i).index = s.index) := by
  unfold ratio_body_fl
  intro h
  by_cases h1 : cell t i column > -eps_fl
  · rw [if_pos h1] at h ⊢
    exact Or.inr ⟨h, rfl⟩
  · rw [if_neg h1] at h ⊢
    by_cases h2 : (!s.updated ||
        decide (fl (-(cell t i 1) / cell t i column) < fl (s.min - eps_fl))) = true
    · rw [if_pos h2]
      exact Or.inl rfl
    · rw [if_neg h2] at h ⊢
      exact Or.inr ⟨h, rfl⟩

theorem ratio_test_fl_succ (t : Tableau) (n column : ℕ) :
    ratio_test_fl t (n + 1) column = ratio_body_fl t column (ratio_test_fl t n column) n := by
  simp [ratio_test_fl, List.range_succ, List.foldl_append]

theorem ratio_test_fl_index_lt (t : Tableau) (column : ℕ) :
    ∀ n, (ratio_test_fl t n column).updated = true → (ratio_test_fl t n column).index < n := by
  intro n
  induction n with
  | zero => intro h; simp [ratio_test_fl] at h
  | succ n ih =>
    intro h
    rw [ratio_test_fl_succ] at h ⊢
    rcases ratio_body_fl_updated t column _ n h with h1 | ⟨h1, h2⟩
    · omega
    · have := ih h1
      omega

theorem pivot_row_fl_labels (dim1 dim2 : ℕ) (t : Tableau) (n m index column : ℕ)
    (pivot newpivot : ℤ) (hr : Rect t n m) (hm : 0 < m) (hi : index < n) (hc : column ≠ 0) :
    Rect (pivot_row_fl dim1 dim2 t index column pivot newpivot) n m ∧
    ∀ i, cell (pivot_row_fl dim1 dim2 t index column pivot newpivot) i 0
      = if i = index then (pivot : ℚ) else cell t i 0 := by
  unfold pivot_row_fl
  set ta := setCell t index (get_column dim1 dim2 newpivot).toNat (-1) with hta
  set tb := setCell ta index 0 (pivot : ℚ) with htb
  have hra : Rect ta n m :=
    ⟨(length_setCell _ _ _ _).trans hr.1,
      fun i hi' => (row_length_setCell _ _ _ _ i).trans (hr.2 i hi')⟩
  have hrb : Rect tb n m :=
    ⟨(length_setCell _ _ _ _).trans hra.1,
      fun i hi' => (row_length_setCell _ _ _ _ i).trans (hra.2 i hi')⟩
  have hlab : ∀ i, cell tb i 0 = if i = index then (pivot : ℚ) else cell t i 0 := by
    intro i
    rw [htb, cell_setCell]
    by_cases hii : i = index
    · have : i = index ∧ 0 = 0 ∧ index < ta.length ∧ 0 < (ta.getD index []).length := by
        refine ⟨hii, rfl, ?_, ?_⟩
        · rw [hra.1]; exact hi
        · rw [hra.2 index hi]; exact hm
      rw [if_pos this, if_pos hii]
    · have : ¬ (i = index ∧ 0 = 0 ∧ index < ta.length ∧ 0 < (ta.getD index []).length) :=
        fun h => hii h.1
      rw [if_neg this, if_neg hii, hta, cell_setCell]
      have : ¬ (i = index ∧ 0 = (get_column dim1 dim2 newpivot).toNat ∧ index < t.length ∧
          (get_column dim1 dim2 newpivot).toNat < (t.getD index []).length) := fun h => hii h.1
      rw [if_neg this]
  have hk : Keeps tb (setCell ((List.range' 1 (dim1 + dim2 + 1)).foldl
      (fun u i => setCell u index i (fl (cell u index i / -(cell tb index column)))) tb)
      index column 0) := by
    refine keeps_trans (keeps_foldl _ _ ?_ tb) (keeps_setCell _ _ _ _ hc)
    intro u x hx
    have : 1 ≤ x := (List.mem_range'_1.mp hx).1
    exact keeps_setCell _ _ _ _ (by omega)
  exact ⟨rect_of_keeps hk hrb, fun i => (hk.2.2 i).trans (hlab i)⟩

theorem eliminate_row_fl_keeps (dim1 dim2 index column : ℕ) (hc : column ≠ 0) (t : Tableau)
    (i : ℕ) : Keeps t (eliminate_row_fl dim1 dim2 index column t i) := by
  unfold eliminate_row_fl
  split_ifs
  · refine keeps_trans (keeps_foldl _ _ ?_ t) (keeps_setCell _ _ _ _ hc)
    intro u x hx
    have : 1 ≤ x := (List.mem_range'_1.mp hx).1
    exact keeps_setCell _ _ _ _ (by omega)
  · exact keeps_refl t

theorem eliminate_fl_keeps (dim1 dim2 : ℕ) (t : Tableau) (nlines index column : ℕ)
    (hc : column ≠ 0) : Keeps t (eliminate_fl dim1 dim2 t nlines index column) := by
  unfold eliminate_fl
  exact keeps_foldl _ _ (fun u x _ => eliminate_row_fl_keeps dim1 dim2 index column hc u x) t

theorem step_tab_fl_labels (dim1 dim2 : ℕ) (t : Tableau) (n index column : ℕ) (pivot q : ℤ)
    (hr : Rect t n (dim1 + dim2 + 2)) (hi : index < n) (hc : column ≠ 0) :
    Rect (eliminate_fl dim1 dim2 (pivot_row_fl dim1 dim2 t index column pivot q) n index column)
      n (dim1 + dim2 + 2) ∧
    ∀ i, cell (eliminate_fl dim1 dim2 (pivot_row_fl dim1 dim2 t index column pivot q) n index
        column) i 0 = if i = index then (pivot : ℚ) else cell t i 0 := by
  obtain ⟨hrect, hlab⟩ := pivot_row_fl_labels dim1 dim2 t n (dim1 + dim2 + 2)
    index column pivot q hr (by omega) hi hc
  have hk := eliminate_fl_keeps dim1 dim2 (pivot_row_fl dim1 dim2 t index column pivot q) n
    index column hc
  exact ⟨rect_of_keeps hk hrect, fun i => (hk.2.2 i).trans (hlab i)⟩

/-- A pivot step in double arithmetic keeps the shape of the tableau pair and
keeps every label in its own tableau; the label that leaves is one of them. -/
theorem pivot_step_fl_inv (dim1 dim2 : ℕ) (T T' : Tableaus) (p q : ℤ)
    (hs : Shape dim1 dim2 T) (hv : LabelsValid dim1 dim2 T)
    (hp : p ≠ 0 ∧ -((dim1 : ℤ) + dim2) ≤ p ∧ p ≤ (dim1 : ℤ) + dim2)
    (h : pivot_step_fl dim1 dim2 T p = .ok (T', q)) :
    Shape dim1 dim2 T' ∧ LabelsValid dim1 dim2 T' ∧
    (q ≠ 0 ∧ -((dim1 : ℤ) + dim2) ≤ q ∧ q ≤ (dim1 : ℤ) + dim2) := by
  unfold pivot_step_fl at h
  simp only at h
  by_cases hn : get_tableau dim1 dim2 p = -1
  · rw [if_pos hn] at h; cases h
  · rw [if_neg hn] at h
    have hcol : (get_column dim1 dim2 p).toNat ≠ 0 := by
      have := get_column_ge_two dim1 dim2 p hn
      omega
    rcases get_tableau_cases dim1 dim2 p hn with h0 | h1
    · rw [h0] at h
      simp only [if_true, getTab, putTab] at h
      by_cases hu : (ratio_test_fl T.t0 dim1 (get_column dim1 dim2 p).toNat).updated = true
      · simp only [hu, Bool.not_true, Bool.false_eq_true, if_false] at h
        split_ifs at h with hneg
        simp only [Except.ok.injEq, Prod.mk.injEq] at h
        obtain ⟨hT, hq⟩ := h
        have hidx := ratio_test_fl_index_lt _ _ _ hu
        obtain ⟨hrect, hlab⟩ := step_tab_fl_labels dim1 dim2 T.t0 dim1 _
          (get_column dim1 dim2 p).toNat p q hs.1 hidx hcol
        obtain ⟨z, hz, hzv, _⟩ := hv.1 _ hidx
        have hqz : q = z := by rw [← hq, hz, toInt_intCast]
        rw [hq] at hT
        have e0 : T'.t0 = eliminate_fl dim1 dim2
            (pivot_row_fl dim1 dim2 T.t0
              (ratio_test_fl T.t0 dim1 (get_column dim1 dim2 p).toNat).index
              (get_column dim1 dim2 p).toNat p q) dim1
            (ratio_test_fl T.t0 dim1 (get_column dim1 dim2 p).toNat).index
            (get_column dim1 dim2 p).toNat := by rw [← hT]
        have e1 : T'.t1 = T.t1 := by rw [← hT]
        refine ⟨⟨by rw [e0]; exact hrect, by rw [e1]; exact hs.2⟩, ⟨?_, ?_⟩,
          by rw [hqz]; exact hzv⟩
        · intro i hi
          rw [e0, hlab]
          by_cases hii : i = (ratio_test_fl T.t0 dim1 (get_column dim1 dim2 p).toNat).index
          · rw [if_pos hii]
            exact ⟨p, rfl, hp, h0⟩
          · rw [if_neg hii]
            exact hv.1 i hi
        · rw [e1]
          exact hv.2
      · simp [hu] at h
    · rw [h1] at h
      simp only [one_ne_zero, if_false, getTab, putTab] at h
      by_cases hu : (ratio_test_fl T.t1 dim2 (get_column dim1 dim2 p).toNat).updated = true
      · simp only [hu, Bool.not_true, Bool.false_eq_true, if_false] at h
        split_ifs at h with hneg
        simp only [Except.ok.injEq, Prod.mk.injEq] at h
        obtain ⟨hT, hq⟩ := h
        have hidx := ratio_test_fl_index_lt _ _ _ hu
        obtain ⟨hrect, hlab⟩ := step_tab_fl_labels dim1 dim2 T.t1 dim2 _
          (get_column dim1 dim2 p).toNat p q hs.2 hidx hcol
        obtain ⟨z, hz, hzv, _⟩ := hv.2 _ hidx
        have hqz : q = z := by rw [← hq, hz, toInt_intCast]
        rw [hq] at hT
        have e1 : T'.t1 = eliminate_fl dim1 dim2
            (pivot_row_fl dim1 dim2 T.t1
              (ratio_test_fl T.t1 dim2 (get_column dim1 dim2 p).toNat).index
              (get_column dim1 dim2 p).toNat p q) dim2
            (ratio_test_fl T.t1 dim2 (get_column dim1 dim2 p).toNat).index
            (get_column dim1 dim2 p).toNat := by rw [← hT]
        have e0 : T'.t0 = T.t0 := by rw [← hT]
        refine ⟨⟨by rw [e0]; exact hs.1, by rw [e1]; exact hrect⟩, ⟨?_, ?_⟩,
          by rw [hqz]; exact hzv⟩
        · rw [e0]
          exact hv.1
        · intro i hi
          rw [e1, hlab]
          by_cases hii : i = (ratio_test_fl T.t1 dim2 (get_column dim1 dim2 p).toNat).index
          · rw [if_pos hii]
            exact ⟨p, rfl, hp, h1⟩
          · rw [if_neg hii]
            exact hv.2 i hi
      · simp [hu] at h

theorem lh_config_fl_inv (dim1 dim2 : ℕ) (s : ℤ) :
    ∀ (k : ℕ) (T : Tableaus) (p : ℤ) (Tk : Tableaus) (pk : ℤ),
      Shape dim1 dim2 T → LabelsValid dim1 dim2 T →
      (p ≠ 0 ∧ -((dim1 : ℤ) + dim2) ≤ p ∧ p ≤ (dim1 : ℤ) + dim2) →
      lh_config_fl dim1 dim2 s k T p = some (Tk, pk) →
      Shape dim1 dim2 Tk ∧ LabelsValid dim1 dim2 Tk ∧
      (pk ≠ 0 ∧ -((dim1 : ℤ) + dim2) ≤ pk ∧ pk ≤ (dim1 : ℤ) + dim2) := by
  intro k
  induction k with
  | zero =>
    intro T p Tk pk hs hv hp h
    simp only [lh_config_fl, Option.some.injEq, Prod.mk.injEq] at h
    obtain ⟨rfl, rfl⟩ := h
    exact ⟨hs, hv, hp⟩
  | succ k ih =>
    intro T p Tk pk hs hv hp h
    simp only [lh_config_fl] at h
    cases hstep : pivot_step_fl dim1 dim2 T p with
    | error e => rw [hstep] at h; cases h
    | ok r =>
      obtain ⟨T₁, q⟩ := r
      rw [hstep] at h
      simp only at h
      obtain ⟨hs₁, hv₁, hq⟩ := pivot_step_fl_inv dim1 dim2 T T₁ p q hs hv hp hstep
      by_cases hqs : q = s ∨ q = -s
      · rw [if_pos hqs] at h; cases h
      · rw [if_neg hqs] at h
        exact ih T₁ (-q) Tk pk hs₁ hv₁ ⟨by omega, by omega, by omega⟩ h

theorem lh_loop_fl_inv (dim1 dim2 : ℕ) (s : ℤ) :
    ∀ (fuel : ℕ) (T : Tableaus) (p steps : ℤ) (T' : Tableaus) (steps' : ℤ),
      Shape dim1 dim2 T → LabelsValid dim1 dim2 T →
      (p ≠ 0 ∧ -((dim1 : ℤ) + dim2) ≤ p ∧ p ≤ (dim1 : ℤ) + dim2) →
      lh_loop_fl dim1 dim2 s fuel T p steps = .ok (T', steps') →
      Shape dim1 dim2 T' ∧ LabelsValid dim1 dim2 T' := by
  intro fuel
  induction fuel with
  | zero => intro T p steps T' steps' _ _ _ h; simp [lh_loop_fl] at h
  | succ fuel ih =>
    intro T p steps T' steps' hs hv hp h
    simp only [lh_loop_fl] at h
    cases hstep : pivot_step_fl dim1 dim2 T p with
    | error e => rw [hstep] at h; cases h
    | ok r =>
      obtain ⟨T₁, q⟩ := r
      rw [hstep] at h
      simp only at h
      obtain ⟨hs₁, hv₁, hq⟩ := pivot_step_fl_inv dim1 dim2 T T₁ p q hs hv hp hstep
      by_cases hqs : q = s ∨ q = -s
      · rw [if_pos hqs] at h
        simp only [Except.ok.injEq, Prod.mk.injEq] at h
        obtain ⟨rfl, _⟩ := h
        exact ⟨hs₁, hv₁⟩
      · rw [if_neg hqs] at h
        exact ih T₁ (-q) (steps + 1) T' steps' hs₁ hv₁ ⟨by omega, by omega, by omega⟩ h

theorem create_systems_labelsValid (bimatrix : Bimatrix) (dim1 dim2 : ℕ) :
    LabelsValid dim1 dim2 (create_systems bimatrix dim1 dim2) := by
  constructor
  · intro i hi
    refine ⟨-(i : ℤ) - 1, create_systems_label0 bimatrix dim1 dim2 i hi,
      ⟨by omega, by omega, by omega⟩, ?_⟩
    unfold get_tableau
    split_ifs <;> omega
  · intro i hi
    refine ⟨-((dim1 + i : ℕ) : ℤ) - 1, create_systems_label1 bimatrix dim1 dim2 i hi,
      ⟨by omega, by omega, by omega⟩, ?_⟩
    unfold get_tableau
    split_ifs <;> omega

theorem get_pivot_gen_range (dim1 dim2 : ℕ) (T : Tableaus) (s : ℤ)
    (hs : 1 ≤ s ∧ s ≤ (dim1 : ℤ) + dim2) :
    get_pivot_gen T dim1 dim2 s ≠ 0 ∧ -((dim1 : ℤ) + dim2) ≤ get_pivot_gen T dim1 dim2 s ∧
    get_pivot_gen T dim1 dim2 s ≤ (dim1 : ℤ) + dim2 := by
  rw [get_pivot_gen_eq]
  split_ifs <;> exact ⟨by omega, by omega, by omega⟩

/-- Every tableau pair on which the program starts a run has the allocated
shape and holds every basic label in its own tableau. -/
theorem reached_inv (bimatrix : Bimatrix) (dim1 dim2 : ℕ) (T : Tableaus)
    (h : Reached bimatrix dim1 dim2 T) : Shape dim1 dim2 T ∧ LabelsValid dim1 dim2 T := by
  induction h with
  | start =>
    exact ⟨create_systems_shape bimatrix dim1 dim2, create_systems_labelsValid bimatrix dim1 dim2⟩
  | run T s fuel r _ h1 h2 hrun ih =>
    unfold lemke_howson_gen_fl at hrun
    cases hl : lh_loop_fl dim1 dim2 s fuel T (get_pivot_gen T dim1 dim2 s) 0 with
    | error e => rw [hl] at hrun; cases hrun
    | ok x =>
      obtain ⟨T', steps'⟩ := x
      rw [hl] at hrun
      simp only [Except.ok.injEq] at hrun
      rw [← hrun]
      exact lh_loop_fl_inv dim1 dim2 s fuel T _ 0 T' steps' ih.1 ih.2
        (get_pivot_gen_range dim1 dim2 T s ⟨h1, h2⟩) hl

theorem labelsValid_active (dim1 dim2 : ℕ) (T : Tableaus) (p : ℤ)
    (hv : LabelsValid dim1 dim2 T) (hn : get_tableau dim1 dim2 p ≠ -1) :
    ∀ i < active_rows dim1 dim2 p, ∃ z : ℤ,
      cell (active dim1 dim2 T p) i 0 = (z : ℚ) ∧
      (z ≠ 0 ∧ -((dim1 : ℤ) + dim2) ≤ z ∧ z ≤ (dim1 : ℤ) + dim2) ∧
      get_tableau dim1 dim2 z = get_tableau dim1 dim2 p := by
  intro i hi
  unfold active getTab
  unfold active_rows at hi
  rcases get_tableau_cases dim1 dim2 p hn with h0 | h1
  · rw [h0] at hi ⊢
    simp only [if_true] at hi ⊢
    exact hv.1 i hi
  · rw [h1] at hi ⊢
    simp only [one_ne_zero, if_false] at hi ⊢
    exact hv.2 i hi

/-! ## Double arithmetic: the rectification and the normalisation -/

/-- C19, at failing inputs.  The bimatrix A = [[-1e17, 5]], B = [[0, 1]]
consists of doubles and -1e17 is its smallest entry; `positivize_bimatrix`
with minimo = -1e17 turns it into [[0, 1e17], [1e17, 1e17]]: the smallest
entry becomes 0, which is neither at least 1 nor positive, and the entries
change by 1e17, 1e17 - 5, 1e17 and 1e17 - 1 instead of 1e17 + 1.  The bimatrix
A = [[-0.9, 0]], B = [[0.5, 1]] of doubles with minimo = -0.9 gets the
smallest entry 1 - 2^-53, which is below 1. -/
theorem positivize_bimatrix_not_positive :
    (∀ row ∈ game_huge, ∀ v ∈ row, fl v = v ∧ (-(10 ^ 17) : ℚ) ≤ v) ∧
    entry game_huge 0 0 = -(10 ^ 17) ∧
    positivize_bimatrix game_huge 1 2 (-(10 ^ 17)) = [[0, 10 ^ 17], [10 ^ 17, 10 ^ 17]] ∧
    ¬ (0 : ℚ) < entry (positivize_bimatrix game_huge 1 2 (-(10 ^ 17))) 0 0 ∧
    entry (positivize_bimatrix game_huge 1 2 (-(10 ^ 17))) 0 1
      ≠ entry game_huge 0 1 + (1 - -(10 ^ 17)) ∧
    (∀ row ∈ game_tenths, ∀ v ∈ row, fl v = v ∧ (-8106479329266893 / 2 ^ 53 : ℚ) ≤ v) ∧
    fl (-9 / 10) = -8106479329266893 / 2 ^ 53 ∧
    entry (positivize_bimatrix game_tenths 1 2 (-8106479329266893 / 2 ^ 53)) 0 0
      = 1 - 1 / 2 ^ 53 ∧
    ¬ (1 : ℚ) ≤ entry (positivize_bimatrix game_tenths 1 2 (-8106479329266893 / 2 ^ 53)) 0 0 := by
  decide!

/-- C25 as stated fails.  The first pivot step of the run of the game
A = [[2, 1, 1], [1, 2, 1]], B = [[2, 1, 3], [1, 1, 1]] from label 1 on the pair
of `create_systems`: label 1 enters and is not basic, the column of every
basic label is zero in every row of the active tableau, the coefficients -2,
-1, -3 of the entering column are all beyond eps, and row 2 is divided by 3.
In double arithmetic the step leaves `tableaus_thirds`, with the double
(2^54 - 1)/3 / 2^54 in place of 1/3.  The assignment x[1] = 1, x[-3] = -1,
x[-5] = -2, x[l] = 0 otherwise satisfies the three row equations before the
step and not those after it: row 2 then reads 1 = 3 * (2^54 - 1)/3 / 2^54. -/
theorem pivot_step_rounds_equation :
    get_pivot_gen (create_systems game_degenerate 2 3) 2 3 1 = 1 ∧
    ¬ Basic 2 3 (create_systems game_degenerate 2 3) 1 ∧
    (∀ l : ℤ, Basic 2 3 (create_systems game_degenerate 2 3) l →
      ∀ i < active_rows 2 3 1,
        cell (active 2 3 (create_systems game_degenerate 2 3) 1) i (get_column 2 3 l).toNat = 0) ∧
    (∀ i < active_rows 2 3 1,
      cell (active 2 3 (create_systems game_degenerate 2 3) 1) i (entering_column 2 3 1)
        < -eps_fl) ∧
    pivot_step_fl 2 3 (create_systems game_degenerate 2 3) 1 = .ok (tableaus_thirds, -5) ∧
    Solves 2 3 (create_systems game_degenerate 2 3) 1 assignment_thirds ∧
    ¬ Solves 2 3 tableaus_thirds 1 assignment_thirds := by
  refine ⟨by decide!, by decide!, ?_, by decide!, by decide!, by decide!, by decide!⟩
  intro l hl i hi
  rw [create_systems_basic_iff] at hl
  have hi3 : i < 3 := hi
  obtain ⟨h1, h2⟩ := hl
  have h1' : -5 ≤ l := by simpa using h1
  interval_cases l <;> interval_cases i <;> decide!

/-- C25, amended.  Read each row of the active tableau as the equation
x[label] = value + sum over the columns j of coefficient[j] * x[variable of
column j].  For every pivot step of a run of lemke_howson_gen (from a start
label in 1..dim1+dim2, on the pair of create_systems or a pair that earlier
runs left behind) in which the entering label is not basic, the column of
every basic label of the active tableau is zero in every row of the active
tableau, no row's entering-column coefficient is non-zero with absolute value
<= eps, and the double arithmetic of the step gives the result of exact
arithmetic: an assignment of the variables satisfies all row equations of the
active tableau before the step if and only if it satisfies all of them after
the step. -/
theorem pivot_step_keeps_solutions (bimatrix : Bimatrix) (dim1 dim2 : ℕ) (T : Tableaus)
    (s : ℤ) (k : ℕ) (Tk T' : Tableaus) (pk q : ℤ)
    (hT : Reached bimatrix dim1 dim2 T) (hs : 1 ≤ s ∧ s ≤ (dim1 : ℤ) + dim2)
    (hk : lh_config_fl dim1 dim2 s k T (get_pivot_gen T dim1 dim2 s) = some (Tk, pk))
    (h : pivot_step_fl dim1 dim2 Tk pk = .ok (T', q))
    (hexact : pivot_step dim1 dim2 Tk pk = pivot_step_fl dim1 dim2 Tk pk)
    (hnb : ¬ Basic dim1 dim2 Tk pk)
    (hz : ∀ i < active_rows dim1 dim2 pk, ∀ i' < active_rows dim1 dim2 pk,
      cell (active dim1 dim2 Tk pk) i'
        (get_column dim1 dim2 (toInt (cell (active dim1 dim2 Tk pk) i 0))).toNat = 0)
    (_htiny : ∀ i < active_rows dim1 dim2 pk,
      cell (active dim1 dim2 Tk pk) i (entering_column dim1 dim2 pk) = 0 ∨
      cell (active dim1 dim2 Tk pk) i (entering_column dim1 dim2 pk) < -eps_fl ∨
      cell (active dim1 dim2 Tk pk) i (entering_column dim1 dim2 pk) > eps_fl) :
    ∀ x : ℤ → ℚ, Solves dim1 dim2 Tk pk x ↔ Solves dim1 dim2 T' pk x := by
  obtain ⟨hS, hV⟩ := reached_inv bimatrix dim1 dim2 T hT
  obtain ⟨hSk, hVk, hpk⟩ := lh_config_fl_inv dim1 dim2 s k T _ Tk pk hS hV
    (get_pivot_gen_range dim1 dim2 T s hs) hk
  rw [h] at hexact
  obtain ⟨hn, _⟩ := pivot_step_ok dim1 dim2 Tk T' pk q hexact
  exact pivot_step_solutions dim1 dim2 Tk T' pk q hSk hpk hexact hnb
    (labelsValid_active dim1 dim2 Tk pk hVk hn) hz

/-- The amended theorem applied to the first pivot step of the run of
`game_coord` from label 1, in which -3 leaves the second tableau and every
quotient is a double. -/
theorem pivot_step_keeps_solutions_witness :
    lh_config_fl 2 2 1 0 (create_systems game_coord 2 2)
        (get_pivot_gen (create_systems game_coord 2 2) 2 2 1)
      = some (create_systems game_coord 2 2, 1) ∧
    pivot_step_fl 2 2 (create_systems game_coord 2 2) 1
      = .ok ({ t0 := [[-1, 1, 0, 0, -2, -1], [-2, 1, 0, 0, -1, -2]],
               t1 := [[1, 1 / 2, -1 / 2, 0, 0, -1 / 2], [-4, 1 / 2, 1 / 2, 0, 0, -3 / 2]] }, -3) ∧
    pivot_step 2 2 (create_systems game_coord 2 2) 1
      = .ok ({ t0 := [[-1, 1, 0, 0, -2, -1], [-2, 1, 0, 0, -1, -2]],
               t1 := [[1, 1 / 2, -1 / 2, 0, 0, -1 / 2], [-4, 1 / 2, 1 / 2, 0, 0, -3 / 2]] }, -3) ∧
    ¬ Basic 2 2 (create_systems game_coord 2 2) 1 ∧
    Solves 2 2 (create_systems game_coord 2 2) 1 (fun l => if l = -3 ∨ l = -4 then 1 else 0) ∧
    Solves 2 2
      { t0 := [[-1, 1, 0, 0, -2, -1], [-2, 1, 0, 0, -1, -2]],
        t1 := [[1, 1 / 2, -1 / 2, 0, 0, -1 / 2], [-4, 1 / 2, 1 / 2, 0, 0, -3 / 2]] } 1
      (fun l => if l = -3 ∨ l = -4 then 1 else 0) :=
  ⟨by decide!, by decide!, by decide!, by decide!, by decide!,
    (pivot_step_keeps_solutions game_coord 2 2 (create_systems game_coord 2 2) 1 0
      (create_systems game_coord 2 2)
      { t0 := [[-1, 1, 0, 0, -2, -1], [-2, 1, 0, 0, -1, -2]],
        t1 := [[1, 1 / 2, -1 / 2, 0, 0, -1 / 2], [-4, 1 / 2, 1 / 2, 0, 0, -3 / 2]] }
      1 (-3) Reached.start (by decide) (by decide!) (by decide!)
      (Eq.trans
        (by decide! : pivot_step 2 2 (create_systems game_coord 2 2) 1
          = .ok ({ t0 := [[-1, 1, 0, 0, -2, -1], [-2, 1, 0, 0, -1, -2]],
                   t1 := [[1, 1 / 2, -1 / 2, 0, 0, -1 / 2],
                          [-4, 1 / 2, 1 / 2, 0, 0, -3 / 2]] }, -3))
        (Eq.symm (by decide! : pivot_step_fl 2 2 (create_systems game_coord 2 2) 1
          = .ok ({ t0 := [[-1, 1, 0, 0, -2, -1], [-2, 1, 0, 0, -1, -2]],
                   t1 := [[1, 1 / 2, -1 / 2, 0, 0, -1 / 2],
                          [-4, 1 / 2, 1 / 2, 0, 0, -3 / 2]] }, -3))))
      (by decide!)
      (fun i hi i' hi' => by
        have hi2 : i < 2 := hi
        have hi2' : i' < 2 := hi'
        interval_cases i <;> interval_cases i' <;> decide!)
      (fun i hi => by
        have hi2 : i < 2 := hi
        interval_cases i <;> decide!)
      (fun l => if l = -3 ∨ l = -4 then 1 else 0)).mp (by decide!)⟩

end LemkeHowson
